import Mathlib

/-!
# Gaussian blur pipeline (`src/main.cpp`): embedding and checked properties

The host-side functions of `src/main.cpp` are embedded as Lean functions.

* A C buffer is a `List`; a read or a write through a pointer at an index outside the
  buffer is undefined behaviour in C and is `none` here, so every function that touches
  memory returns an `Option`.
* `int` values are `Int` (no overflow is modelled: the products `rows * cols` of the
  driver are far below `2^31`), `unsigned char` values are `Nat` (the conversion from
  `float` reduces to 8 bits; the other functions only copy samples).
* `for (int i = lo; i < hi; i++)` is a monadic left fold over `intRange lo hi`.
* `float` arithmetic is kept abstract in a record of operations (`FloatOps`), with three
  instances: IEEE-754 binary32 with round-to-nearest-even (`binary32`, what the compiled
  program runs; its rounding is proved sound in `roundPos_spec` and `F32_round_spec`), the
  same with `pixval += a * b` contracted into a fused multiply-add (`binary32Fused`), and
  exact arithmetic in an ordered field (`exactOps`). `expf` is not specified bit for bit by
  the C library, so `gaussian_blur_filter` is read over an exact field with `exp` given.
* `exit(1)` in `checkApproxResults` is the result `Except.error` carrying what was printed.
* The array accesses of `serialGaussianBlur` and of `gaussian_blur_filter` are also listed
  as traces (`blurAccesses`, `gaussFillWrites`, `gaussScaleWrites`): the loops of the source
  with each access recorded.
-/

namespace GaussianBlur

/-! ## Memory and loops -/

/-- The values taken by `i` in `for (int i = lo; i < hi; i++)`, in order. -/
def intRange (lo hi : Int) : List Int :=
  (List.range (hi - lo).toNat).map (fun (k : Nat) => lo + (k : Int))

/-- Read `a[i]`; `none` when `i` is outside the buffer. -/
def rd {α : Type} (a : List α) (i : Int) : Option α :=
  if 0 ≤ i then a[i.toNat]? else none

/-- Write `a[i] = v`; `none` when `i` is outside the buffer. -/
def wr {α : Type} (a : List α) (i : Int) (v : α) : Option (List α) :=
  if 0 ≤ i ∧ i.toNat < a.length then some (a.set i.toNat v) else none

/-- CUDA's `uchar4`: four unsigned 8-bit channels. -/
structure uchar4 where
  x : Nat
  y : Nat
  z : Nat
  w : Nat
deriving DecidableEq

/-- CUDA's `make_uchar4`. -/
def make_uchar4 (x y z w : Nat) : uchar4 := ⟨x, y, z, w⟩

/-! ## Channel splitter and recombiner (`main.cpp` lines 97-115) -/

/-- Body of the inner loop of `serialSeparateChannels`, on the planes `(r, g, b)`. -/
def separateBody (imrgba : List uchar4) (cols : Int)
    (st : List Nat × List Nat × List Nat) (y x : Int) :
    Option (List Nat × List Nat × List Nat) := do
  let p1 ← rd imrgba (y * cols + x)
  let r ← wr st.1 (y * cols + x) p1.x
  let p2 ← rd imrgba (y * cols + x)
  let g ← wr st.2.1 (y * cols + x) p2.y
  let p3 ← rd imrgba (y * cols + x)
  let b ← wr st.2.2 (y * cols + x) p3.z
  pure (r, g, b)

/-- The function `serialSeparateChannels`: the planes `r`, `g`, `b` after the call. -/
def serialSeparateChannels (imrgba : List uchar4) (r g b : List Nat) (rows cols : Int) :
    Option (List Nat × List Nat × List Nat) :=
  (intRange 0 rows).foldlM
    (fun st y => (intRange 0 cols).foldlM (fun st x => separateBody imrgba cols st y x) st)
    (r, g, b)

/-- Body of the inner loop of `serialRecombineChannels`, on the output image. -/
def recombineBody (r g b : List Nat) (cols : Int) (orgba : List uchar4) (y x : Int) :
    Option (List uchar4) := do
  let vb ← rd b (y * cols + x)
  let vg ← rd g (y * cols + x)
  let vr ← rd r (y * cols + x)
  wr orgba (y * cols + x) (make_uchar4 vb vg vr 255)

/-- The function `serialRecombineChannels`: the image `orgba` after the call. -/
def serialRecombineChannels (r g b : List Nat) (orgba : List uchar4) (rows cols : Int) :
    Option (List uchar4) :=
  (intRange 0 rows).foldlM
    (fun st y => (intRange 0 cols).foldlM (fun st x => recombineBody r g b cols st y x) st)
    orgba

/-- The serial path around the blur: split `imrgba` into the planes `r`, `g`, `b`, then
recombine those planes into `orgba`. -/
def separateThenRecombine (imrgba : List uchar4) (r g b : List Nat) (orgba : List uchar4)
    (rows cols : Int) : Option (List uchar4) := do
  let st ← serialSeparateChannels imrgba r g b rows cols
  serialRecombineChannels st.1 st.2.1 st.2.2 orgba rows cols

/-- The buffer `a` is `a0` with the cells `[0, k)` overwritten by the values `val`. -/
def Written {β : Type} (val : Nat → Option β) (a0 : List β) (k : Int) (a : List β) : Prop :=
  a.length = a0.length ∧
    ∀ i : Nat, ((i : Int) < k → a[i]? = val i) ∧ (k ≤ (i : Int) → a[i]? = a0[i]?)

/-! ## Equivalence checker (`main.cpp` lines 22-34) -/

/-- What `checkApproxResults` prints to the error stream before `exit(1)`: the position, the
reference value and the GPU value. -/
structure Mismatch where
  pos : Int
  reference : Nat
  gpu : Nat
deriving DecidableEq

/-- The literal `1e-5` that `checkApproxResults` compares against. The operands compared with
it are integers, for which the double nearest to `1e-5` and the rational `1/100000` decide
alike. -/
def tolerance : ℚ := 1 / 100000

/-- The loop of `checkApproxResults` over the remaining positions, with the bound `tol` in
the place of the literal. `ref[i] - gpu[i]` is the difference of the two bytes promoted to
`int`. `Except.error m` is the exit with the report `m`, `Except.ok ()` the normal return,
`none` a read outside a buffer. -/
def checkApproxFrom (tol : ℚ) (ref gpu : List Nat) : List Int → Option (Except Mismatch Unit)
  | [] => some (Except.ok ())
  | i :: rest =>
    match rd ref i, rd gpu i with
    | some a, some b =>
      if tol < (((a : Int) - (b : Int) : Int) : ℚ) then some (Except.error ⟨i, a, b⟩)
      else checkApproxFrom tol ref gpu rest
    | _, _ => none

/-- The function `checkApproxResults` with the bound as a parameter. -/
def checkApproxResultsTol (tol : ℚ) (ref gpu : List Nat) (numElems : Nat) :
    Option (Except Mismatch Unit) :=
  checkApproxFrom tol ref gpu (intRange 0 (numElems : Int))

/-- The function `checkApproxResults`. -/
def checkApproxResults (ref gpu : List Nat) (numElems : Nat) : Option (Except Mismatch Unit) :=
  checkApproxResultsTol tolerance ref gpu numElems

/-- An OpenCV matrix of 8-bit samples as `cv::imread` returns it: its shape and the sample
buffer behind `ptr<unsigned char>(0)`. -/
structure Mat where
  rows : Nat
  cols : Nat
  channels : Nat
  data : List Nat

/-- The function `checkResult` (`main.cpp` lines 38-52) from the two decoded images on: the
two `cv::imread` calls belong to the codec. The length handed to `checkApproxResults` is
that of the reference image; `eps` is not used. The normal return follows `PASSED!`. -/
def checkResult (ref_img out_img : Mat) (_eps : ℚ) : Option (Except Mismatch Unit) :=
  checkApproxResults ref_img.data out_img.data (ref_img.rows * ref_img.cols * ref_img.channels)

/-! ## Floating-point arithmetic -/

/-- The `float` operations used by `serialGaussianBlur`: the constant `0.0`, the conversion
`(float)` of an `unsigned char`, `+`, `*`, and the conversion `(unsigned char)` of a
`float`. -/
structure FloatOps (F : Type) where
  zero : F
  ofUChar : Nat → F
  add : F → F → F
  mul : F → F → F
  toUChar : F → Nat

/-- A binary32 datum: the finite number `m * 2^e`, an infinity, or a NaN. The sign of zero is
not recorded (it plays no part in `+`, `*` of finite numbers or in the conversion to an
integer). -/
inductive F32 where
  | fin (m : Int) (e : Int)
  | inf (neg : Bool)
  | nan
deriving DecidableEq

/-- Helper for `ilog2`: halve at most `fuel` times. -/
def log2Fuel : Nat → Nat → Nat
  | 0, _ => 0
  | fuel + 1, n => if n < 2 then 0 else log2Fuel fuel (n / 2) + 1

/-- Position of the leading bit of `n`: the floor of its binary logarithm (0 for `n = 0`). -/
def ilog2 (n : Nat) : Nat := log2Fuel n n

/-- The binade of the positive rational `a / d`: the `t` with `2^t <= a/d < 2^(t+1)`. It is
`l` or `l - 1` for the difference `l` of the leading-bit positions. -/
def binade (a d : Nat) : Int :=
  let l : Int := (ilog2 a : Int) - (ilog2 d : Int)
  if (if 0 ≤ l then d * 2 ^ l.toNat ≤ a else d ≤ a * 2 ^ (-l).toNat) then l else l - 1

/-- The integer nearest to `N / D`, the even one of the two on a tie. -/
def roundHalfEven (N D : Nat) : Nat :=
  if 2 * (N % D) < D then N / D
  else if D < 2 * (N % D) then N / D + 1
  else if (N / D) % 2 = 0 then N / D else N / D + 1

/-- Round the positive rational `(a / d) * 2^e` to binary32, to nearest, ties to even:
`some (M, k)` is the result `M * 2^k`, where `2^k` is the unit in the last place of the
binade of the operand (at least `2^-149`, the subnormal spacing), and `none` is overflow
(a result of `2^128` or more). -/
def roundPos (a d : Nat) (e : Int) : Option (Nat × Int) :=
  let k : Int := max (binade a d + e) (-126) - 23
  let M : Nat :=
    if 0 ≤ e - k then roundHalfEven (a * 2 ^ (e - k).toNat) d
    else roundHalfEven a (d * 2 ^ (k - e).toNat)
  if 104 < k ∨ (k = 104 ∧ M = 2 ^ 24) then none else some (M, k)

/-- Round the rational `(n / d) * 2^e` (with `d > 0`) to binary32. -/
def F32.round (n : Int) (d : Nat) (e : Int) : F32 :=
  if n = 0 then F32.fin 0 0 else
  match roundPos n.natAbs d e with
  | some (M, k) => F32.fin (if n < 0 then -(M : Int) else M) k
  | none => F32.inf (decide (n < 0))

/-- IEEE-754 addition in binary32, round to nearest even. -/
def F32.add : F32 → F32 → F32
  | F32.fin m1 e1, F32.fin m2 e2 =>
    F32.round (m1 * 2 ^ (e1 - min e1 e2).toNat + m2 * 2 ^ (e2 - min e1 e2).toNat) 1 (min e1 e2)
  | F32.nan, _ => F32.nan
  | _, F32.nan => F32.nan
  | F32.inf s, F32.inf t => if s = t then F32.inf s else F32.nan
  | F32.inf s, F32.fin _ _ => F32.inf s
  | F32.fin _ _, F32.inf t => F32.inf t

/-- IEEE-754 multiplication in binary32, round to nearest even. -/
def F32.mul : F32 → F32 → F32
  | F32.fin m1 e1, F32.fin m2 e2 => F32.round (m1 * m2) 1 (e1 + e2)
  | F32.nan, _ => F32.nan
  | _, F32.nan => F32.nan
  | F32.inf s, F32.inf t => F32.inf (xor s t)
  | F32.inf s, F32.fin m _ => if m = 0 then F32.nan else F32.inf (xor s (decide (m < 0)))
  | F32.fin m _, F32.inf t => if m = 0 then F32.nan else F32.inf (xor (decide (m < 0)) t)

/-- The rational value of a finite binary32 datum (0 for an infinity or a NaN). -/
def F32.toRat : F32 → ℚ
  | F32.fin m e => (m : ℚ) * (2 : ℚ) ^ e
  | _ => 0

/-- The integer part of `m * 2^e`, truncated toward zero. -/
def truncDyadic (m e : Int) : Int :=
  if 0 ≤ e then m * 2 ^ e.toNat else m.tdiv (2 ^ (-e).toNat)

/-- The conversion `(unsigned char) x` of a binary32 `x`: truncation toward zero. C++ leaves
the conversion undefined when the truncated value is outside `[0, 255]`; the low byte of the
truncated integer is taken then, and 0 for an infinity or a NaN, as `cvttss2si` followed by
a byte move gives. -/
def F32.toUChar : F32 → Nat
  | F32.fin m e => (truncDyadic m e % 256).toNat
  | _ => 0

/-- The `float` of the compiled program: IEEE-754 binary32, every operation rounded to
nearest even. -/
def binary32 : FloatOps F32 where
  zero := F32.fin 0 0
  ofUChar := fun n => F32.round (n : Int) 1 0
  add := F32.add
  mul := F32.mul
  toUChar := F32.toUChar

/-- The product of two binary32 data without rounding, as it enters a fused multiply-add. -/
def F32.mulExact : F32 → F32 → F32
  | F32.fin m1 e1, F32.fin m2 e2 => F32.fin (m1 * m2) (e1 + e2)
  | F32.nan, _ => F32.nan
  | _, F32.nan => F32.nan
  | F32.inf s, F32.inf t => F32.inf (xor s t)
  | F32.inf s, F32.fin m _ => if m = 0 then F32.nan else F32.inf (xor s (decide (m < 0)))
  | F32.fin m _, F32.inf t => if m = 0 then F32.nan else F32.inf (xor (decide (m < 0)) t)

/-- The `float` of a build that contracts `pixval += a * b` into a fused multiply-add
(`-ffp-contract=fast` on a target with the instruction): the product enters the addition
unrounded and the sum is rounded once. -/
def binary32Fused : FloatOps F32 where
  zero := F32.fin 0 0
  ofUChar := fun n => F32.round (n : Int) 1 0
  add := F32.add
  mul := F32.mulExact
  toUChar := F32.toUChar

/-- Whether a binary32 datum is finite and not negative. -/
def F32.isNonnegFinite : F32 → Bool
  | F32.fin m _ => decide (0 ≤ m)
  | _ => false

/-- The standard model of rounded arithmetic, on the operands the convolution meets
(finite, not negative, far below the overflow threshold): `0.0` is zero, the conversion of
a byte is exact, a product and a sum are finite, not negative, and differ from the exact
result `x` by at most `x * 2^-24 + 2^-150`, and the conversion to `unsigned char` is that
of binary32. -/
structure RoundedOps (ops : FloatOps F32) : Prop where
  zero_eq : ops.zero = F32.fin 0 0
  ofUChar_exact : ∀ a : Nat, a ≤ 255 →
    ∃ m k, ops.ofUChar a = F32.fin m k ∧ 0 ≤ m ∧ (F32.fin m k).toRat = (a : ℚ)
  mul_close : ∀ m1 e1 m2 e2 : Int, 0 ≤ m1 → 0 ≤ m2 →
    (F32.fin m1 e1).toRat * (F32.fin m2 e2).toRat ≤ 1024 →
    ∃ m k, ops.mul (F32.fin m1 e1) (F32.fin m2 e2) = F32.fin m k ∧ 0 ≤ m ∧
      |(F32.fin m k).toRat - (F32.fin m1 e1).toRat * (F32.fin m2 e2).toRat| ≤
        (F32.fin m1 e1).toRat * (F32.fin m2 e2).toRat / 16777216 + 1 / 2 ^ 150
  add_close : ∀ m1 e1 m2 e2 : Int, 0 ≤ m1 → 0 ≤ m2 →
    (F32.fin m1 e1).toRat + (F32.fin m2 e2).toRat ≤ 1024 →
    ∃ m k, ops.add (F32.fin m1 e1) (F32.fin m2 e2) = F32.fin m k ∧ 0 ≤ m ∧
      |(F32.fin m k).toRat - ((F32.fin m1 e1).toRat + (F32.fin m2 e2).toRat)| ≤
        ((F32.fin m1 e1).toRat + (F32.fin m2 e2).toRat) / 16777216 + 1 / 2 ^ 150
  toUChar_eq : ∀ x : F32, ops.toUChar x = F32.toUChar x

/-- Truncation toward zero of `v`, then the low byte. -/
def truncToUChar {K : Type} [LinearOrderedField K] [FloorRing K] (v : K) : Nat :=
  ((if 0 ≤ v then ⌊v⌋ else ⌈v⌉) % 256).toNat

/-- Arithmetic without rounding, in an ordered field `K`: the reading of `float` over the
rationals or the reals. -/
def exactOps (K : Type) [LinearOrderedField K] [FloorRing K] : FloatOps K where
  zero := 0
  ofUChar := fun n => (n : K)
  add := fun a b => a + b
  mul := fun a b => a * b
  toUChar := truncToUChar

/-! ## Convolution engine (`main.cpp` lines 77-95) -/

/-- Body of the innermost loop of `serialGaussianBlur`: the accumulator `pixval` after the
tap `(blurRow, blurCol)` at the output pixel `(y, x)`. -/
def blurTap {F : Type} (ops : FloatOps F) (input : List Nat) (rows cols : Int)
    (filter : List F) (filterWidth : Int) (y x blurRow : Int) (pixval : F) (blurCol : Int) :
    Option F :=
  let curRow := y + blurRow
  let curCol := x + blurCol
  if curRow > -1 ∧ curRow < rows ∧ curCol > -1 ∧ curCol < cols then do
    let a ← rd input (curRow * cols + curCol)
    let c ← rd filter
      ((blurRow + filterWidth.tdiv 2) * filterWidth + (blurCol + filterWidth.tdiv 2))
    pure (ops.add pixval (ops.mul (ops.ofUChar a) c))
  else pure pixval

/-- The two inner loops of `serialGaussianBlur`: the final accumulator `pixval` at `(y, x)`. -/
def blurPixel {F : Type} (ops : FloatOps F) (input : List Nat) (rows cols : Int)
    (filter : List F) (filterWidth : Int) (y x : Int) : Option F :=
  (intRange (-(filterWidth.tdiv 2)) (filterWidth.tdiv 2 + 1)).foldlM
    (fun pixval blurRow =>
      (intRange (-(filterWidth.tdiv 2)) (filterWidth.tdiv 2 + 1)).foldlM
        (blurTap ops input rows cols filter filterWidth y x blurRow) pixval)
    ops.zero

/-- The function `serialGaussianBlur`: the plane `out` after the call. -/
def serialGaussianBlur {F : Type} (ops : FloatOps F) (input out : List Nat) (rows cols : Int)
    (filter : List F) (filterWidth : Int) : Option (List Nat) :=
  (intRange 0 rows).foldlM
    (fun out y => (intRange 0 cols).foldlM
      (fun out x => do
        let pixval ← blurPixel ops input rows cols filter filterWidth y x
        wr out (y * cols + x) (ops.toUChar pixval))
      out)
    out

/-! ### The array accesses of the convolution -/

/-- One array access of `serialGaussianBlur`: a read of `in[i]`, a read of `filter[i]` or a
write of `out[i]`. -/
inductive Access where
  | readIn (i : Int)
  | readFilter (i : Int)
  | writeOut (i : Int)
deriving DecidableEq

/-- The accesses of one pass through the innermost loop body (line 84-88): under the guard,
the read of `in[curRow * cols + curCol]` and the read of the filter weight. -/
def tapAccesses (rows cols filterWidth y x blurRow blurCol : Int) : List Access :=
  let curRow := y + blurRow
  let curCol := x + blurCol
  if curRow > -1 ∧ curRow < rows ∧ curCol > -1 ∧ curCol < cols then
    [Access.readIn (curRow * cols + curCol),
      Access.readFilter
        ((blurRow + filterWidth.tdiv 2) * filterWidth + (blurCol + filterWidth.tdiv 2))]
  else []

/-- The accesses made for the output pixel `(y, x)`, in program order: those of the taps,
then the write of `out[y * cols + x]` (line 91). -/
def pixelAccesses (rows cols filterWidth y x : Int) : List Access :=
  (intRange (-(filterWidth.tdiv 2)) (filterWidth.tdiv 2 + 1)).flatMap
      (fun blurRow => (intRange (-(filterWidth.tdiv 2)) (filterWidth.tdiv 2 + 1)).flatMap
        (fun blurCol => tapAccesses rows cols filterWidth y x blurRow blurCol)) ++
    [Access.writeOut (y * cols + x)]

/-- All array accesses of `serialGaussianBlur`, in program order: the loops and the guard of
the function, each access recorded in the place of being performed. -/
def blurAccesses (rows cols filterWidth : Int) : List Access :=
  (intRange 0 rows).flatMap
    (fun y => (intRange 0 cols).flatMap (fun x => pixelAccesses rows cols filterWidth y x))

/-- The index written, for a write access. -/
def Access.written : Access → Option Int
  | Access.writeOut i => some i
  | _ => none

/-! ### The convolution as the specification words it -/

/-- The filter offsets `[-filterWidth/2, filterWidth/2]`, in increasing order. -/
def offsets (filterWidth : Int) : List Int :=
  intRange (-(filterWidth / 2)) (filterWidth / 2 + 1)

/-- The filter footprint `[-filterWidth/2, filterWidth/2]^2` as offsets `(dy, dx)`, row by
row. -/
def footprint (filterWidth : Int) : List (Int × Int) :=
  (offsets filterWidth).flatMap (fun dy => (offsets filterWidth).map (fun dx => (dy, dx)))

/-- Whether `(y + dy, x + dx)` lies inside the `rows x cols` plane. -/
def inPlane (rows cols y x : Int) (d : Int × Int) : Bool :=
  decide (0 ≤ y + d.1 ∧ y + d.1 < rows ∧ 0 ≤ x + d.2 ∧ x + d.2 < cols)

/-- The term of the offset `(dy, dx)` at the pixel `(y, x)`:
`in[(y+dy)*cols + (x+dx)] * filter[(dy + filterWidth/2)*filterWidth + (dx + filterWidth/2)]`. -/
def tapTerm {F : Type} (ops : FloatOps F) (input : List Nat) (cols : Int) (filter : List F)
    (filterWidth y x : Int) (d : Int × Int) : F :=
  ops.mul (ops.ofUChar (input.getD ((y + d.1) * cols + (x + d.2)).toNat 0))
    (filter.getD ((d.1 + filterWidth / 2) * filterWidth + (d.2 + filterWidth / 2)).toNat
      ops.zero)

/-- The sum of `terms` in the arithmetic `ops`, accumulated from `0.0` in list order. -/
def sumInOrder {F : Type} (ops : FloatOps F) (terms : List F) : F :=
  terms.foldl ops.add ops.zero

/-- Specification of the accumulator at `(y, x)`: the sum of the terms of the offsets of the
footprint that fall inside the plane; the other offsets contribute nothing. -/
def footprintSum {F : Type} (ops : FloatOps F) (input : List Nat) (rows cols : Int)
    (filter : List F) (filterWidth y x : Int) : F :=
  sumInOrder ops
    (((footprint filterWidth).filter (inPlane rows cols y x)).map
      (tapTerm ops input cols filter filterWidth y x))

/-! ## Filter generator (`main.cpp` lines 54-73) -/

/-- The `float` operations of `gaussian_blur_filter` beyond those of `FloatOps`: the
conversion `(float)` of an `int`, the constant `1.f`, unary minus, `/` and `expf`. -/
structure FilterOps (F : Type) extends FloatOps F where
  ofInt : Int → F
  one : F
  neg : F → F
  div : F → F → F
  expf : F → F

/-- Exact arithmetic in an ordered field `K`, with `exp` for `expf`. -/
def exactFilterOps (K : Type) [LinearOrderedField K] [FloorRing K] (exp : K → K) :
    FilterOps K where
  toFloatOps := exactOps K
  ofInt := fun n => (n : K)
  one := 1
  neg := fun a => -a
  div := fun a b => a / b
  expf := exp

/-- The value `fSum` of the first pass: `expf(-(float)(r*r + c*c)/(2*f_sigma*f_sigma))`. -/
def gaussWeight {F : Type} (ops : FilterOps F) (f_sigma : F) (r c : Int) : F :=
  ops.expf (ops.div (ops.neg (ops.ofInt (r * r + c * c)))
    (ops.mul (ops.mul (ops.ofInt 2) f_sigma) f_sigma))

/-- First pass of `gaussian_blur_filter`: the buffer `arr` and `filterSum` after it. -/
def gaussFill {F : Type} (ops : FilterOps F) (arr : List F) (f_sz : Int) (f_sigma : F) :
    Option (List F × F) :=
  (intRange (-(f_sz.tdiv 2)) (f_sz.tdiv 2 + 1)).foldlM
    (fun st r => (intRange (-(f_sz.tdiv 2)) (f_sz.tdiv 2 + 1)).foldlM
      (fun st c => do
        let arr ← wr st.1 ((r + f_sz.tdiv 2) * f_sz + (c + f_sz.tdiv 2))
          (gaussWeight ops f_sigma r c)
        pure (arr, ops.add st.2 (gaussWeight ops f_sigma r c)))
      st)
    (arr, ops.zero)

/-- Second pass of `gaussian_blur_filter`: every cell multiplied by `norm_const`. -/
def gaussScale {F : Type} (ops : FilterOps F) (arr : List F) (f_sz : Int) (norm_const : F) :
    Option (List F) :=
  (intRange (-(f_sz.tdiv 2)) (f_sz.tdiv 2 + 1)).foldlM
    (fun arr r => (intRange (-(f_sz.tdiv 2)) (f_sz.tdiv 2 + 1)).foldlM
      (fun arr c => do
        let a ← rd arr ((r + f_sz.tdiv 2) * f_sz + (c + f_sz.tdiv 2))
        wr arr ((r + f_sz.tdiv 2) * f_sz + (c + f_sz.tdiv 2)) (ops.mul a norm_const))
      arr)
    arr

/-- The function `gaussian_blur_filter`: the buffer `arr` after the call. -/
def gaussian_blur_filter {F : Type} (ops : FilterOps F) (arr : List F) (f_sz : Int)
    (f_sigma : F) : Option (List F) := do
  let st ← gaussFill ops arr f_sz f_sigma
  gaussScale ops st.1 f_sz (ops.div ops.one st.2)

/-- The indices of `arr` assigned by the first pass of `gaussian_blur_filter` (line 61), in
program order. -/
def gaussFillWrites (f_sz : Int) : List Int :=
  (intRange (-(f_sz.tdiv 2)) (f_sz.tdiv 2 + 1)).flatMap
    (fun r => (intRange (-(f_sz.tdiv 2)) (f_sz.tdiv 2 + 1)).map
      (fun c => (r + f_sz.tdiv 2) * f_sz + (c + f_sz.tdiv 2)))

/-- The indices of `arr` scaled by the second pass of `gaussian_blur_filter` (line 70), in
program order. -/
def gaussScaleWrites (f_sz : Int) : List Int :=
  (intRange (-(f_sz.tdiv 2)) (f_sz.tdiv 2 + 1)).flatMap
    (fun r => (intRange (-(f_sz.tdiv 2)) (f_sz.tdiv 2 + 1)).map
      (fun c => (r + f_sz.tdiv 2) * f_sz + (c + f_sz.tdiv 2)))

/-- The weight that belongs in cell `i` of a `f_sz x f_sz` filter: that of the offsets
`(i / f_sz - f_sz/2, i % f_sz - f_sz/2)`. -/
def cellWeight {F : Type} (ops : FilterOps F) (f_sz : Int) (f_sigma : F) (i : Nat) : F :=
  gaussWeight ops f_sigma ((i : Int) / f_sz - f_sz / 2) ((i : Int) % f_sz - f_sz / 2)

/-! ## Loop rules -/

theorem rd_of_lt {α : Type} (a : List α) (i : Nat) (h : i < a.length) :
    rd a (i : Int) = some (a[i]) := by
  simp [rd, List.getElem?_eq_getElem h]

theorem wr_of_lt {α : Type} (a : List α) (i : Nat) (v : α) (h : i < a.length) :
    wr a (i : Int) v = some (a.set i v) := by
  simp [wr, h]

/-- Invariant rule for one `for` loop. -/
theorem foldlM_intRange_inv {σ : Type} (Inv : Int → σ → Prop) (body : σ → Int → Option σ)
    (lo hi : Int) (hle : lo ≤ hi) (s0 : σ) (h0 : Inv lo s0)
    (step : ∀ i s, lo ≤ i → i < hi → Inv i s → ∃ s', body s i = some s' ∧ Inv (i + 1) s') :
    ∃ s', (intRange lo hi).foldlM body s0 = some s' ∧ Inv hi s' := by
  have key : ∀ n : Nat, lo + (n : Int) ≤ hi →
      ∃ s', ((List.range n).map (fun (k : Nat) => lo + (k : Int))).foldlM body s0 = some s' ∧
        Inv (lo + (n : Int)) s' := by
    intro n
    induction n with
    | zero => intro _; exact ⟨s0, by simp, by simpa using h0⟩
    | succ n ih =>
      intro hn
      obtain ⟨s1, h1, hI1⟩ := ih (by push_cast at hn; omega)
      obtain ⟨s2, h2, hI2⟩ := step (lo + (n : Int)) s1 (by omega) (by push_cast at hn; omega) hI1
      refine ⟨s2, ?_, ?_⟩
      · rw [List.range_succ, List.map_append, List.foldlM_append, h1]
        simp [h2]
      · have : lo + ((n + 1 : Nat) : Int) = lo + (n : Int) + 1 := by push_cast; ring
        rw [this]; exact hI2
  have hn : lo + (((hi - lo).toNat : Nat) : Int) = hi := by
    rw [Int.toNat_of_nonneg (by omega)]; ring
  obtain ⟨s', h1, h2⟩ := key (hi - lo).toNat (by omega)
  rw [hn] at h2
  exact ⟨s', h1, h2⟩

/-- Invariant rule for the row-major raster loop `for y < rows, for x < cols`, indexed by the
linear position `y * cols + x`. -/
theorem raster_inv {σ : Type} (Inv : Int → σ → Prop) (body : σ → Int → Int → Option σ)
    (rows cols : Int) (hr : 0 ≤ rows) (hc : 0 ≤ cols) (s0 : σ) (h0 : Inv 0 s0)
    (step : ∀ y x s, 0 ≤ y → y < rows → 0 ≤ x → x < cols → Inv (y * cols + x) s →
      ∃ s', body s y x = some s' ∧ Inv (y * cols + x + 1) s') :
    ∃ s', (intRange 0 rows).foldlM
        (fun st y => (intRange 0 cols).foldlM (fun st x => body st y x) st) s0 = some s' ∧
      Inv (rows * cols) s' := by
  apply foldlM_intRange_inv (fun y s => Inv (y * cols) s) _ 0 rows hr s0 (by simpa using h0)
  intro y s hy0 hy1 hI
  have := foldlM_intRange_inv (fun x s => Inv (y * cols + x) s) (fun st x => body st y x)
    0 cols hc s (by simpa using hI)
    (fun x s hx0 hx1 hIx => by
      obtain ⟨s', h1, h2⟩ := step y x s hy0 hy1 hx0 hx1 hIx
      exact ⟨s', h1, by show Inv (y * cols + (x + 1)) s'; rw [← add_assoc]; exact h2⟩)
  obtain ⟨s', h1, h2⟩ := this
  refine ⟨s', h1, ?_⟩
  have e : (y + 1) * cols = y * cols + cols := by ring
  simp only [e]; exact h2

/-- A raster position is inside a buffer of `rows * cols` cells. -/
theorem raster_lt (rows cols y x : Int) (hy0 : 0 ≤ y) (hy1 : y < rows) (hx0 : 0 ≤ x)
    (hx1 : x < cols) : 0 ≤ y * cols + x ∧ y * cols + x < rows * cols := by
  constructor
  · have : 0 ≤ y * cols := mul_nonneg hy0 (by omega)
    omega
  · have h1 : (y + 1) * cols ≤ rows * cols := mul_le_mul_of_nonneg_right (by omega) (by omega)
    have e : (y + 1) * cols = y * cols + cols := by ring
    omega

theorem written_zero {β : Type} (val : Nat → Option β) (a0 : List β) : Written val a0 0 a0 :=
  ⟨rfl, fun i => ⟨fun h => by omega, fun _ => rfl⟩⟩

/-- Writing cell `k` extends the written prefix by one cell. -/
theorem written_step {β : Type} (val : Nat → Option β) (a0 a : List β) (k : Nat) (v : β)
    (hW : Written val a0 (k : Int) a) (hlt : k < a0.length) (hv : val k = some v) :
    wr a (k : Int) v = some (a.set k v) ∧ Written val a0 ((k : Int) + 1) (a.set k v) := by
  obtain ⟨hlen, hcells⟩ := hW
  refine ⟨wr_of_lt a k v (by omega), by simp [hlen], fun i => ⟨fun h => ?_, fun h => ?_⟩⟩
  · rw [List.getElem?_set]
    by_cases hik : k = i
    · subst hik; simp [hv]; omega
    · simp only [hik, if_false]; exact (hcells i).1 (by omega)
  · rw [List.getElem?_set]
    have hik : ¬ k = i := by omega
    simp only [hik, if_false]; exact (hcells i).2 (by omega)

/-- A written buffer is determined by the values and the initial buffer. -/
theorem written_unique {β : Type} (val : Nat → Option β) (a0 : List β) (k : Int)
    (a a' : List β) (h : Written val a0 k a) (h' : Written val a0 k a') : a = a' := by
  apply List.ext_getElem?
  intro i
  by_cases hik : (i : Int) < k
  · rw [(h.2 i).1 hik, (h'.2 i).1 hik]
  · rw [(h.2 i).2 (by omega), (h'.2 i).2 (by omega)]

/-! ## Channel splitter and recombiner -/

/-- The planes after `serialSeparateChannels`: cells `[0, rows*cols)` hold the channels. -/
theorem separate_spec (imrgba : List uchar4) (r0 g0 b0 : List Nat) (rows cols : Int)
    (hr : 0 ≤ rows) (hc : 0 ≤ cols) (hi : rows * cols ≤ (imrgba.length : Int))
    (hr0 : rows * cols ≤ (r0.length : Int)) (hg0 : rows * cols ≤ (g0.length : Int))
    (hb0 : rows * cols ≤ (b0.length : Int)) :
    ∃ r g b, serialSeparateChannels imrgba r0 g0 b0 rows cols = some (r, g, b) ∧
      Written (fun i => imrgba[i]?.map uchar4.x) r0 (rows * cols) r ∧
      Written (fun i => imrgba[i]?.map uchar4.y) g0 (rows * cols) g ∧
      Written (fun i => imrgba[i]?.map uchar4.z) b0 (rows * cols) b := by
  have := raster_inv
    (fun k (st : List Nat × List Nat × List Nat) =>
      Written (fun i => imrgba[i]?.map uchar4.x) r0 k st.1 ∧
      Written (fun i => imrgba[i]?.map uchar4.y) g0 k st.2.1 ∧
      Written (fun i => imrgba[i]?.map uchar4.z) b0 k st.2.2)
    (fun st y x => separateBody imrgba cols st y x) rows cols hr hc (r0, g0, b0)
    ⟨written_zero _ _, written_zero _ _, written_zero _ _⟩
    (by
      rintro y x ⟨r, g, b⟩ hy0 hy1 hx0 hx1 ⟨hR, hG, hB⟩
      obtain ⟨hk0, hk1⟩ := raster_lt rows cols y x hy0 hy1 hx0 hx1
      obtain ⟨k, hk⟩ := Int.eq_ofNat_of_zero_le hk0
      rw [hk] at hR hG hB hk1 ⊢
      have hki : k < imrgba.length := by omega
      have hv : ∀ f : uchar4 → Nat, imrgba[k]?.map f = some (f imrgba[k]) := by
        intro f; simp [List.getElem?_eq_getElem hki]
      obtain ⟨w1, W1⟩ := written_step _ r0 r k _ hR (by omega) (hv uchar4.x)
      obtain ⟨w2, W2⟩ := written_step _ g0 g k _ hG (by omega) (hv uchar4.y)
      obtain ⟨w3, W3⟩ := written_step _ b0 b k _ hB (by omega) (hv uchar4.z)
      refine ⟨(r.set k imrgba[k].x, g.set k imrgba[k].y, b.set k imrgba[k].z), ?_, W1, W2, W3⟩
      simp [separateBody, hk, rd_of_lt imrgba k hki, w1, w2, w3])
  obtain ⟨⟨r, g, b⟩, h1, h2⟩ := this
  exact ⟨r, g, b, h1, h2⟩

/-- The image after `serialRecombineChannels`: cell `i` holds `(b[i], g[i], r[i], 255)`. -/
theorem recombine_spec (r g b : List Nat) (orgba0 : List uchar4) (rows cols : Int)
    (hr : 0 ≤ rows) (hc : 0 ≤ cols) (hlr : rows * cols ≤ (r.length : Int))
    (hlg : rows * cols ≤ (g.length : Int)) (hlb : rows * cols ≤ (b.length : Int))
    (hlo : rows * cols ≤ (orgba0.length : Int)) :
    ∃ orgba, serialRecombineChannels r g b orgba0 rows cols = some orgba ∧
      Written (fun i => some (make_uchar4 (b.getD i 0) (g.getD i 0) (r.getD i 0) 255))
        orgba0 (rows * cols) orgba := by
  apply raster_inv
    (fun k st => Written (fun i => some (make_uchar4 (b.getD i 0) (g.getD i 0) (r.getD i 0) 255))
      orgba0 k st)
    (fun st y x => recombineBody r g b cols st y x) rows cols hr hc orgba0 (written_zero _ _)
  intro y x st hy0 hy1 hx0 hx1 hW
  obtain ⟨hk0, hk1⟩ := raster_lt rows cols y x hy0 hy1 hx0 hx1
  obtain ⟨k, hk⟩ := Int.eq_ofNat_of_zero_le hk0
  rw [hk] at hW hk1 ⊢
  have hkr : k < r.length := by omega
  have hkg : k < g.length := by omega
  have hkb : k < b.length := by omega
  obtain ⟨w1, W1⟩ := written_step _ orgba0 st k _ hW (by omega) rfl
  refine ⟨_, ?_, W1⟩
  simp [recombineBody, hk, rd_of_lt r k hkr, rd_of_lt g k hkg, rd_of_lt b k hkb, w1,
    List.getElem?_eq_getElem hkr, List.getElem?_eq_getElem hkg, List.getElem?_eq_getElem hkb] at w1 ⊢
  exact w1

/-- C1 (as amended): splitting a `rows x cols` image and recombining the three planes
succeeds and gives, at every pixel index `i < rows*cols`, the pixel
`(z, y, x, 255)` of the input pixel `(x, y, z, w)`: the three colour values are kept, the
first and third channel exchanged, and alpha is 255. -/
theorem C1_recombine_separate_swaps (imrgba : List uchar4) (r0 g0 b0 : List Nat)
    (orgba0 : List uchar4) (rows cols : Int) (hr : 0 ≤ rows) (hc : 0 ≤ cols)
    (hi : rows * cols ≤ (imrgba.length : Int)) (hr0 : rows * cols ≤ (r0.length : Int))
    (hg0 : rows * cols ≤ (g0.length : Int)) (hb0 : rows * cols ≤ (b0.length : Int))
    (ho : rows * cols ≤ (orgba0.length : Int)) :
    ∃ orgba, separateThenRecombine imrgba r0 g0 b0 orgba0 rows cols = some orgba ∧
      orgba.length = orgba0.length ∧
      ∀ i : Nat, (i : Int) < rows * cols →
        orgba[i]? = imrgba[i]?.map (fun p => make_uchar4 p.z p.y p.x 255) := by
  obtain ⟨r, g, b, hs, hR, hG, hB⟩ := separate_spec imrgba r0 g0 b0 rows cols hr hc hi hr0 hg0 hb0
  obtain ⟨orgba, ho1, hO⟩ := recombine_spec r g b orgba0 rows cols hr hc
    (by rw [hR.1]; exact hr0) (by rw [hG.1]; exact hg0) (by rw [hB.1]; exact hb0) ho
  refine ⟨orgba, by simp [separateThenRecombine, hs, ho1], hO.1, fun i hlt => ?_⟩
  have hii : i < imrgba.length := by omega
  have h1 := (hR.2 i).1 hlt
  have h2 := (hG.2 i).1 hlt
  have h3 := (hB.2 i).1 hlt
  rw [(hO.2 i).1 hlt]
  simp only [List.getElem?_eq_getElem hii, Option.map_some'] at h1 h2 h3 ⊢
  simp [List.getD_eq_getElem?_getD, h1, h2, h3]

/-- C1 witness: the amended statement at a 1 x 2 image. -/
theorem C1_recombine_separate_swaps_witness :
    ((0 : Int) ≤ 1 ∧ (0 : Int) ≤ 2) ∧
    ∃ orgba, separateThenRecombine [⟨1, 2, 3, 4⟩, ⟨5, 6, 7, 8⟩] [0, 0] [0, 0] [0, 0]
        [⟨0, 0, 0, 0⟩, ⟨0, 0, 0, 0⟩] 1 2 = some orgba ∧
      orgba.length = 2 ∧
      ∀ i : Nat, (i : Int) < 1 * 2 →
        orgba[i]? = ([⟨1, 2, 3, 4⟩, ⟨5, 6, 7, 8⟩] : List uchar4)[i]?.map
          (fun p => make_uchar4 p.z p.y p.x 255) :=
  ⟨⟨by decide, by decide⟩,
    C1_recombine_separate_swaps [⟨1, 2, 3, 4⟩, ⟨5, 6, 7, 8⟩] [0, 0] [0, 0] [0, 0]
      [⟨0, 0, 0, 0⟩, ⟨0, 0, 0, 0⟩] 1 2 (by decide) (by decide) (by decide) (by decide)
      (by decide) (by decide) (by decide)⟩

/-- C1 counterexample: on the 1 x 1 image `(10, 20, 30, 40)` the recombined pixel is
`(30, 20, 10, 255)`; its first channel is not the first channel of the input pixel. -/
theorem C1_counterexample :
    separateThenRecombine [⟨10, 20, 30, 40⟩] [0] [0] [0] [⟨0, 0, 0, 0⟩] 1 1
        = some [⟨30, 20, 10, 255⟩] ∧
      (⟨30, 20, 10, 255⟩ : uchar4).x ≠ (⟨10, 20, 30, 40⟩ : uchar4).x ∧
      (⟨30, 20, 10, 255⟩ : uchar4).z ≠ (⟨10, 20, 30, 40⟩ : uchar4).z :=
  ⟨by decide, by decide, by decide⟩

/-- C9: on a `rows x cols` image `serialSeparateChannels` succeeds and, at every linear index
`y*cols + x` with `0 <= y < rows`, `0 <= x < cols`, leaves in `r`, `g`, `b` the channels `x`,
`y`, `z` of that pixel; every plane index in `[0, rows*cols)` is overwritten (whatever it
held before), no other cell is touched, and the alpha channel is copied nowhere: an image
with the same `x`, `y`, `z` channels gives the same three planes. -/
theorem C9_separate_channels (imrgba : List uchar4) (r0 g0 b0 : List Nat) (rows cols : Int)
    (hr : 0 ≤ rows) (hc : 0 ≤ cols) (hi : rows * cols ≤ (imrgba.length : Int))
    (hr0 : rows * cols ≤ (r0.length : Int)) (hg0 : rows * cols ≤ (g0.length : Int))
    (hb0 : rows * cols ≤ (b0.length : Int)) :
    ∃ r g b, serialSeparateChannels imrgba r0 g0 b0 rows cols = some (r, g, b) ∧
      (∀ y x : Int, 0 ≤ y → y < rows → 0 ≤ x → x < cols →
        ∃ p, rd imrgba (y * cols + x) = some p ∧ rd r (y * cols + x) = some p.x ∧
          rd g (y * cols + x) = some p.y ∧ rd b (y * cols + x) = some p.z) ∧
      (∀ i : Nat, (i : Int) < rows * cols →
        r[i]? = imrgba[i]?.map uchar4.x ∧ g[i]? = imrgba[i]?.map uchar4.y ∧
          b[i]? = imrgba[i]?.map uchar4.z) ∧
      (∀ i : Nat, rows * cols ≤ (i : Int) → r[i]? = r0[i]? ∧ g[i]? = g0[i]? ∧ b[i]? = b0[i]?) ∧
      (r.length = r0.length ∧ g.length = g0.length ∧ b.length = b0.length) ∧
      (∀ imrgba2 : List uchar4, imrgba2.length = imrgba.length →
        (∀ i : Nat, imrgba2[i]?.map uchar4.x = imrgba[i]?.map uchar4.x ∧
          imrgba2[i]?.map uchar4.y = imrgba[i]?.map uchar4.y ∧
          imrgba2[i]?.map uchar4.z = imrgba[i]?.map uchar4.z) →
        serialSeparateChannels imrgba2 r0 g0 b0 rows cols = some (r, g, b)) := by
  obtain ⟨r, g, b, hs, hR, hG, hB⟩ := separate_spec imrgba r0 g0 b0 rows cols hr hc hi hr0 hg0 hb0
  refine ⟨r, g, b, hs, ?_, fun i hlt => ⟨(hR.2 i).1 hlt, (hG.2 i).1 hlt, (hB.2 i).1 hlt⟩,
    fun i hge => ⟨(hR.2 i).2 hge, (hG.2 i).2 hge, (hB.2 i).2 hge⟩, ⟨hR.1, hG.1, hB.1⟩, ?_⟩
  · intro y x hy0 hy1 hx0 hx1
    obtain ⟨hk0, hk1⟩ := raster_lt rows cols y x hy0 hy1 hx0 hx1
    obtain ⟨k, hk⟩ := Int.eq_ofNat_of_zero_le hk0
    rw [hk] at hk1 ⊢
    have hki : k < imrgba.length := by omega
    have h1 := (hR.2 k).1 hk1
    have h2 := (hG.2 k).1 hk1
    have h3 := (hB.2 k).1 hk1
    simp only [List.getElem?_eq_getElem hki, Option.map_some'] at h1 h2 h3
    refine ⟨imrgba[k], rd_of_lt imrgba k hki, ?_, ?_, ?_⟩
    · simpa [rd] using h1
    · simpa [rd] using h2
    · simpa [rd] using h3
  · intro imrgba2 hlen hsame
    obtain ⟨r2, g2, b2, hs2, hR2, hG2, hB2⟩ := separate_spec imrgba2 r0 g0 b0 rows cols hr hc
      (by rw [hlen]; exact hi) hr0 hg0 hb0
    have e1 : (fun i => imrgba2[i]?.map uchar4.x) = (fun i => imrgba[i]?.map uchar4.x) :=
      funext fun i => (hsame i).1
    have e2 : (fun i => imrgba2[i]?.map uchar4.y) = (fun i => imrgba[i]?.map uchar4.y) :=
      funext fun i => (hsame i).2.1
    have e3 : (fun i => imrgba2[i]?.map uchar4.z) = (fun i => imrgba[i]?.map uchar4.z) :=
      funext fun i => (hsame i).2.2
    rw [e1] at hR2; rw [e2] at hG2; rw [e3] at hB2
    rw [hs2, written_unique _ _ _ _ _ hR2 hR, written_unique _ _ _ _ _ hG2 hG,
      written_unique _ _ _ _ _ hB2 hB]

/-- C9 witness: a 1 x 2 image. -/
theorem C9_separate_channels_witness :
    ((0 : Int) ≤ 1 ∧ (0 : Int) ≤ 2) ∧
    ∃ r g b, serialSeparateChannels [⟨1, 2, 3, 4⟩, ⟨5, 6, 7, 8⟩] [0, 0] [0, 0] [0, 0] 1 2
        = some (r, g, b) ∧
      r[1]? = some 5 ∧ g[1]? = some 6 ∧ b[1]? = some 7 := by
  obtain ⟨r, g, b, hs, _, h, _⟩ := C9_separate_channels [⟨1, 2, 3, 4⟩, ⟨5, 6, 7, 8⟩]
    [0, 0] [0, 0] [0, 0] 1 2 (by decide) (by decide) (by decide) (by decide) (by decide)
    (by decide)
  exact ⟨⟨by decide, by decide⟩, r, g, b, hs, by simpa using h 1 (by decide)⟩

/-- C10: on three planes of at least `rows*cols` samples `serialRecombineChannels` succeeds,
every output pixel index `i` in `[0, rows*cols)` is overwritten with
`(b[i], g[i], r[i], 255)`, and so its alpha channel is 255 whatever the planes hold. -/
theorem C10_recombine_alpha (r g b : List Nat) (orgba0 : List uchar4) (rows cols : Int)
    (hr : 0 ≤ rows) (hc : 0 ≤ cols) (hlr : rows * cols ≤ (r.length : Int))
    (hlg : rows * cols ≤ (g.length : Int)) (hlb : rows * cols ≤ (b.length : Int))
    (hlo : rows * cols ≤ (orgba0.length : Int)) :
    ∃ orgba, serialRecombineChannels r g b orgba0 rows cols = some orgba ∧
      orgba.length = orgba0.length ∧
      ∀ i : Nat, (i : Int) < rows * cols →
        ∃ p, orgba[i]? = some p ∧ p.w = 255 ∧
          some p.x = b[i]? ∧ some p.y = g[i]? ∧ some p.z = r[i]? := by
  obtain ⟨orgba, ho1, hO⟩ := recombine_spec r g b orgba0 rows cols hr hc hlr hlg hlb hlo
  refine ⟨orgba, ho1, hO.1, fun i hlt => ⟨_, (hO.2 i).1 hlt, rfl, ?_, ?_, ?_⟩⟩
  · have : i < b.length := by omega
    simp [make_uchar4, List.getElem?_eq_getElem this]
  · have : i < g.length := by omega
    simp [make_uchar4, List.getElem?_eq_getElem this]
  · have : i < r.length := by omega
    simp [make_uchar4, List.getElem?_eq_getElem this]

/-- C10 witness: two planes cells recombined into a 1 x 2 image. -/
theorem C10_recombine_alpha_witness :
    ((0 : Int) ≤ 1 ∧ (0 : Int) ≤ 2) ∧
    ∃ orgba, serialRecombineChannels [1, 2] [3, 4] [5, 6] [⟨0, 0, 0, 0⟩, ⟨0, 0, 0, 7⟩] 1 2
        = some orgba ∧
      orgba.length = 2 ∧
      ∀ i : Nat, (i : Int) < 1 * 2 →
        ∃ p, orgba[i]? = some p ∧ p.w = 255 ∧
          some p.x = ([5, 6] : List Nat)[i]? ∧ some p.y = ([3, 4] : List Nat)[i]? ∧
          some p.z = ([1, 2] : List Nat)[i]? :=
  ⟨⟨by decide, by decide⟩,
    C10_recombine_alpha [1, 2] [3, 4] [5, 6] [⟨0, 0, 0, 0⟩, ⟨0, 0, 0, 7⟩] 1 2
      (by decide) (by decide) (by decide) (by decide) (by decide) (by decide)⟩

/-! ## Equivalence checker -/

theorem mem_intRange (lo hi i : Int) : i ∈ intRange lo hi ↔ lo ≤ i ∧ i < hi := by
  simp only [intRange, List.mem_map, List.mem_range]
  constructor
  · rintro ⟨k, hk, rfl⟩
    omega
  · rintro ⟨h1, h2⟩
    exact ⟨(i - lo).toNat, by omega, by omega⟩

/-- On equal buffers the loop runs to its end over any positions inside the buffer. -/
theorem checkApproxFrom_self (tol : ℚ) (htol : 0 ≤ tol) (X : List Nat) (l : List Int)
    (hl : ∀ i ∈ l, 0 ≤ i ∧ i < (X.length : Int)) :
    checkApproxFrom tol X X l = some (Except.ok ()) := by
  induction l with
  | nil => rfl
  | cons i rest ih =>
    obtain ⟨h0, h1⟩ := hl i (List.mem_cons_self _ _)
    obtain ⟨k, rfl⟩ := Int.eq_ofNat_of_zero_le h0
    have hk : k < X.length := by omega
    have hnot : ¬ tol < 0 := not_lt.mpr htol
    simp only [checkApproxFrom, rd_of_lt X k hk, sub_self, Int.cast_zero, hnot, if_false]
    exact ih (fun j hj => hl j (List.mem_cons_of_mem _ hj))

/-- C8: comparing a buffer with itself over any length `n` not exceeding its length succeeds,
with the literal bound of the code and with any bound `tol >= 0` in its place. -/
theorem C8_check_self (X : List Nat) (n : Nat) (hn : n ≤ X.length) :
    checkApproxResults X X n = some (Except.ok ()) ∧
      ∀ tol : ℚ, 0 ≤ tol → checkApproxResultsTol tol X X n = some (Except.ok ()) := by
  have h : ∀ tol : ℚ, 0 ≤ tol → checkApproxResultsTol tol X X n = some (Except.ok ()) := by
    intro tol htol
    apply checkApproxFrom_self tol htol
    intro i hi
    rw [mem_intRange] at hi
    omega
  exact ⟨h tolerance (by norm_num [tolerance]), h⟩

/-- C8 witness: a three-byte buffer compared with itself over its first two bytes. -/
theorem C8_check_self_witness :
    2 ≤ ([7, 0, 255] : List Nat).length ∧
      (checkApproxResults [7, 0, 255] [7, 0, 255] 2 = some (Except.ok ()) ∧
        ∀ tol : ℚ, 0 ≤ tol → checkApproxResultsTol tol [7, 0, 255] [7, 0, 255] 2
          = some (Except.ok ())) :=
  ⟨by decide, C8_check_self [7, 0, 255] 2 (by decide)⟩

/-- C2, the code at the failing input: the candidate byte 255 exceeds the reference byte 0 by
255, far more than the tolerance, and `checkApproxResults` reports no mismatch. -/
theorem C2_larger_candidate_passes :
    checkApproxResults [0] [255] 1 = some (Except.ok ()) ∧
      tolerance < |((0 : Int) : ℚ) - ((255 : Int) : ℚ)| := by
  constructor
  · simp [checkApproxResults, checkApproxResultsTol, checkApproxFrom, intRange, rd, tolerance]
    norm_num
  · norm_num [tolerance]

/-- C6, the code at the failing input: the buffers differ at the single index 1, by 197, and
`checkApproxResults` reports no mismatch because the candidate byte is the larger one. -/
theorem C6_single_difference_passes :
    checkApproxResults [7, 3, 9] [7, 200, 9] 3 = some (Except.ok ()) ∧
      tolerance < |((3 : Int) : ℚ) - ((200 : Int) : ℚ)| := by
  constructor
  · simp [checkApproxResults, checkApproxResultsTol, checkApproxFrom, intRange, rd, tolerance,
      List.range_succ]
    norm_num
  · norm_num [tolerance]

/-! ## Soundness of the binary32 rounding -/

theorem log2Fuel_spec (fuel n : Nat) (hn : 0 < n) (hf : n ≤ fuel) :
    2 ^ log2Fuel fuel n ≤ n ∧ n < 2 ^ (log2Fuel fuel n + 1) := by
  induction fuel generalizing n with
  | zero => omega
  | succ fuel ih =>
    by_cases h2 : n < 2
    · have : n = 1 := by omega
      subst this
      simp [log2Fuel]
    · obtain ⟨h3, h4⟩ := ih (n / 2) (by omega) (by omega)
      simp only [log2Fuel, h2, if_false]
      rw [Nat.pow_succ, Nat.pow_succ]
      constructor <;> omega

/-- The leading bit: `2^(ilog2 n) <= n < 2^(ilog2 n + 1)`. -/
theorem ilog2_spec (n : Nat) (hn : 0 < n) : 2 ^ ilog2 n ≤ n ∧ n < 2 ^ (ilog2 n + 1) :=
  log2Fuel_spec n n hn (le_refl n)

/-- Comparison of a power of two with a positive fraction, in integers. -/
theorem two_zpow_le_div (t : Int) (a d : Nat) (hd : 0 < d) :
    (2 : ℚ) ^ t ≤ (a : ℚ) / d ↔
      (if 0 ≤ t then d * 2 ^ t.toNat ≤ a else d ≤ a * 2 ^ (-t).toNat) := by
  have hdq : (0 : ℚ) < d := by exact_mod_cast hd
  by_cases ht : 0 ≤ t
  · obtain ⟨n, rfl⟩ := Int.eq_ofNat_of_zero_le ht
    simp only [ht, if_true, Int.toNat_natCast, zpow_natCast]
    rw [le_div_iff₀ hdq]
    constructor
    · intro h
      have : ((d * 2 ^ n : Nat) : ℚ) ≤ (a : ℚ) := by push_cast; linarith
      exact_mod_cast this
    · intro h
      have : ((d * 2 ^ n : Nat) : ℚ) ≤ (a : ℚ) := by exact_mod_cast h
      push_cast at this; linarith
  · obtain ⟨n, hn⟩ := Int.eq_ofNat_of_zero_le (show 0 ≤ -t by omega)
    have ht2 : t = -(n : Int) := by omega
    subst ht2
    have hp : (0 : ℚ) < 2 ^ n := by positivity
    simp only [ht, if_false, neg_neg, Int.toNat_natCast, zpow_neg, zpow_natCast]
    rw [le_div_iff₀ hdq, inv_mul_le_iff₀ hp]
    constructor
    · intro h
      have : ((d : Nat) : ℚ) ≤ ((a * 2 ^ n : Nat) : ℚ) := by push_cast; linarith
      exact_mod_cast this
    · intro h
      have : ((d : Nat) : ℚ) ≤ ((a * 2 ^ n : Nat) : ℚ) := by exact_mod_cast h
      push_cast at this; linarith

/-- The value `binade a d` is the binade of `a / d`. -/
theorem binade_spec (a d : Nat) (ha : 0 < a) (hd : 0 < d) :
    (2 : ℚ) ^ binade a d ≤ (a : ℚ) / d ∧ (a : ℚ) / d < (2 : ℚ) ^ (binade a d + 1) := by
  obtain ⟨a0, a1⟩ := ilog2_spec a ha
  obtain ⟨d0, d1⟩ := ilog2_spec d hd
  have hdq : (0 : ℚ) < d := by exact_mod_cast hd
  have a0q : (2 : ℚ) ^ (ilog2 a : Int) ≤ a := by rw [zpow_natCast]; exact_mod_cast a0
  have a1q : (a : ℚ) < (2 : ℚ) ^ ((ilog2 a : Int) + 1) := by
    rw [← Nat.cast_succ, zpow_natCast]; exact_mod_cast a1
  have d0q : (2 : ℚ) ^ (ilog2 d : Int) ≤ d := by rw [zpow_natCast]; exact_mod_cast d0
  have d1q : (d : ℚ) < (2 : ℚ) ^ ((ilog2 d : Int) + 1) := by
    rw [← Nat.cast_succ, zpow_natCast]; exact_mod_cast d1
  have hpd : (0 : ℚ) < (2 : ℚ) ^ (ilog2 d : Int) := by positivity
  have hpd1 : (0 : ℚ) < (2 : ℚ) ^ ((ilog2 d : Int) + 1) := by positivity
  -- the quotient lies strictly between 2^(l-1) and 2^(l+1)
  have up : (a : ℚ) / d < (2 : ℚ) ^ ((ilog2 a : Int) - (ilog2 d : Int) + 1) := by
    have e : (ilog2 a : Int) - (ilog2 d : Int) + 1 = ((ilog2 a : Int) + 1) - (ilog2 d : Int) := by
      ring
    rw [e, zpow_sub₀ (by norm_num : (2 : ℚ) ≠ 0), div_lt_div_iff₀ hdq hpd]
    calc (a : ℚ) * 2 ^ (ilog2 d : Int) ≤ a * d := by
          apply mul_le_mul_of_nonneg_left d0q (by positivity)
      _ < 2 ^ ((ilog2 a : Int) + 1) * d := by
          apply mul_lt_mul_of_pos_right a1q hdq
  have lo : (2 : ℚ) ^ ((ilog2 a : Int) - (ilog2 d : Int) - 1) ≤ (a : ℚ) / d := by
    have e : (ilog2 a : Int) - (ilog2 d : Int) - 1 = (ilog2 a : Int) - ((ilog2 d : Int) + 1) := by
      ring
    rw [e, zpow_sub₀ (by norm_num : (2 : ℚ) ≠ 0), div_le_div_iff₀ hpd1 hdq]
    calc (2 : ℚ) ^ (ilog2 a : Int) * d ≤ a * d := by
          apply mul_le_mul_of_nonneg_right a0q (le_of_lt hdq)
      _ ≤ a * 2 ^ ((ilog2 d : Int) + 1) := by
          apply mul_le_mul_of_nonneg_left (le_of_lt d1q) (by positivity)
  have key := two_zpow_le_div ((ilog2 a : Int) - (ilog2 d : Int)) a d hd
  unfold binade
  simp only []
  by_cases hge : (if 0 ≤ (ilog2 a : Int) - (ilog2 d : Int)
      then d * 2 ^ ((ilog2 a : Int) - (ilog2 d : Int)).toNat ≤ a
      else d ≤ a * 2 ^ (-((ilog2 a : Int) - (ilog2 d : Int))).toNat)
  · rw [if_pos hge]
    exact ⟨key.mpr hge, up⟩
  · rw [if_neg hge]
    refine ⟨lo, ?_⟩
    rw [sub_add_cancel]
    exact lt_of_not_le (fun h => hge (key.mp h))

/-- The value `roundHalfEven N D` is within one half of `N / D`, and even when exactly one
half away. -/
theorem roundHalfEven_spec (N D : Nat) (hD : 0 < D) :
    |(roundHalfEven N D : ℚ) - (N : ℚ) / D| ≤ 1 / 2 ∧
      (|(roundHalfEven N D : ℚ) - (N : ℚ) / D| = 1 / 2 → roundHalfEven N D % 2 = 0) := by
  have hDq : (0 : ℚ) < D := by exact_mod_cast hD
  have hN : (N : ℚ) = (D : ℚ) * ((N / D : Nat) : ℚ) + ((N % D : Nat) : ℚ) := by
    exact_mod_cast (Nat.div_add_mod N D).symm
  have hq : (N : ℚ) / D = ((N / D : Nat) : ℚ) + ((N % D : Nat) : ℚ) / D := by
    rw [div_eq_iff (ne_of_gt hDq), add_mul, div_mul_cancel₀ _ (ne_of_gt hDq)]
    linarith
  have hr0 : (0 : ℚ) ≤ ((N % D : Nat) : ℚ) / D := by positivity
  unfold roundHalfEven
  by_cases h1 : 2 * (N % D) < D
  · have h1q : ((N % D : Nat) : ℚ) / D < 1 / 2 := by
      rw [div_lt_iff₀ hDq]
      have : ((2 * (N % D) : Nat) : ℚ) < (D : ℚ) := by exact_mod_cast h1
      push_cast at this; linarith
    rw [if_pos h1, hq]
    have e : ((N / D : Nat) : ℚ) - (((N / D : Nat) : ℚ) + ((N % D : Nat) : ℚ) / D) =
        -(((N % D : Nat) : ℚ) / D) := by ring
    rw [e, abs_neg, abs_of_nonneg hr0]
    exact ⟨le_of_lt h1q, fun h => absurd h (ne_of_lt h1q)⟩
  · rw [if_neg h1]
    by_cases h2 : D < 2 * (N % D)
    · have h2q : 1 / 2 < ((N % D : Nat) : ℚ) / D := by
        rw [lt_div_iff₀ hDq]
        have : (D : ℚ) < ((2 * (N % D) : Nat) : ℚ) := by exact_mod_cast h2
        push_cast at this; linarith
      have h3q : ((N % D : Nat) : ℚ) / D < 1 := by
        rw [div_lt_one hDq]; exact_mod_cast Nat.mod_lt N hD
      rw [if_pos h2, hq]
      have e : ((N / D + 1 : Nat) : ℚ) - (((N / D : Nat) : ℚ) + ((N % D : Nat) : ℚ) / D) =
          1 - ((N % D : Nat) : ℚ) / D := by push_cast; ring
      rw [e, abs_of_nonneg (by linarith)]
      exact ⟨by linarith, fun h => by linarith⟩
    · rw [if_neg h2]
      have h3 : 2 * (N % D) = D := by omega
      have h3q : ((N % D : Nat) : ℚ) / D = 1 / 2 := by
        rw [div_eq_iff (ne_of_gt hDq)]
        have : ((2 * (N % D) : Nat) : ℚ) = (D : ℚ) := by exact_mod_cast h3
        push_cast at this; linarith
      by_cases h4 : (N / D) % 2 = 0
      · rw [if_pos h4, hq, h3q]
        have e : ((N / D : Nat) : ℚ) - (((N / D : Nat) : ℚ) + 1 / 2) = -(1 / 2) := by ring
        rw [e, abs_neg, abs_of_nonneg (by norm_num)]
        exact ⟨le_refl _, fun _ => h4⟩
      · rw [if_neg h4, hq, h3q]
        have e : ((N / D + 1 : Nat) : ℚ) - (((N / D : Nat) : ℚ) + 1 / 2) = 1 / 2 := by
          push_cast; ring
        rw [e, abs_of_nonneg (by norm_num)]
        exact ⟨le_refl _, fun _ => by omega⟩

/-- The scaled fraction that `roundPos` rounds to an integer is `(a / d) * 2^(e - k)`. -/
theorem roundPos_mantissa (a d : Nat) (e k : Int) (hd : 0 < d) :
    ∃ N D : Nat, 0 < D ∧
      (if 0 ≤ e - k then roundHalfEven (a * 2 ^ (e - k).toNat) d
        else roundHalfEven a (d * 2 ^ (k - e).toNat)) = roundHalfEven N D ∧
      (N : ℚ) / D = (a : ℚ) / d * (2 : ℚ) ^ (e - k) := by
  by_cases hs : 0 ≤ e - k
  · obtain ⟨n, hn⟩ := Int.eq_ofNat_of_zero_le hs
    refine ⟨a * 2 ^ n, d, hd, ?_, ?_⟩
    · rw [if_pos hs, hn, Int.toNat_natCast]
    · rw [hn, zpow_natCast]; push_cast; ring
  · obtain ⟨n, hn⟩ := Int.eq_ofNat_of_zero_le (show 0 ≤ k - e by omega)
    have hek : e - k = -(n : Int) := by omega
    refine ⟨a, d * 2 ^ n, by positivity, ?_, ?_⟩
    · rw [if_neg hs, hn, Int.toNat_natCast]
    · rw [hek, zpow_neg, zpow_natCast]; push_cast
      rw [div_mul_eq_div_div, div_eq_mul_inv ((a : ℚ) / d)]

/-- Soundness of the rounding. When `roundPos a d e` is `some (M, k)`, for the operand
`x = (a/d) * 2^e`: the result `M * 2^k` is a multiple of `2^k` nearest to `x`, with `M` even
on a tie; `2^k` is the binary32 unit in the last place at `x` (`x < 2^(k+24)`, and
`2^(k+23) <= x` unless `k` is the subnormal exponent -149); and the result is below
`2^128`. -/
theorem roundPos_spec (a d : Nat) (e : Int) (ha : 0 < a) (hd : 0 < d) (M : Nat) (k : Int)
    (h : roundPos a d e = some (M, k)) :
    |(M : ℚ) * (2 : ℚ) ^ k - (a : ℚ) / d * (2 : ℚ) ^ e| ≤ (2 : ℚ) ^ k / 2 ∧
    (|(M : ℚ) * (2 : ℚ) ^ k - (a : ℚ) / d * (2 : ℚ) ^ e| = (2 : ℚ) ^ k / 2 → M % 2 = 0) ∧
    (a : ℚ) / d * (2 : ℚ) ^ e < (2 : ℚ) ^ (k + 24) ∧
    (k = -149 ∨ (2 : ℚ) ^ (k + 23) ≤ (a : ℚ) / d * (2 : ℚ) ^ e) ∧
    -149 ≤ k ∧ (M : ℚ) * (2 : ℚ) ^ k < (2 : ℚ) ^ (128 : Int) := by
  obtain ⟨t0, t1⟩ := binade_spec a d ha hd
  unfold roundPos at h
  simp only [] at h
  obtain ⟨N, D, hD, hND, hq⟩ := roundPos_mantissa a d e (max (binade a d + e) (-126) - 23) hd
  rw [hND] at h
  by_cases hov : 104 < max (binade a d + e) (-126) - 23 ∨
      (max (binade a d + e) (-126) - 23 = 104 ∧ roundHalfEven N D = 2 ^ 24)
  · rw [if_pos hov] at h; exact absurd h (by simp)
  rw [if_neg hov] at h
  obtain ⟨hM, hk⟩ := Prod.mk.inj (Option.some.inj h)
  rw [hk] at hov hq
  rw [hM] at hov
  have hkmax : k + 23 = max (binade a d + e) (-126) := by omega
  have hk1 : binade a d + e ≤ k + 23 := by rw [hkmax]; exact le_max_left _ _
  have hk2 : -149 ≤ k := by
    have : (-126 : Int) ≤ k + 23 := by rw [hkmax]; exact le_max_right _ _
    omega
  have hk3 : k = -149 ∨ k + 23 = binade a d + e := by
    rcases max_choice (binade a d + e) (-126) with hm | hm
    · right; rw [hkmax, hm]
    · left; rw [hm] at hkmax; omega
  obtain ⟨r1, r2⟩ := roundHalfEven_spec N D hD
  rw [hM, hq] at r1 r2
  have h2 : (2 : ℚ) ≠ 0 := by norm_num
  have hpk : (0 : ℚ) < (2 : ℚ) ^ k := by positivity
  have hpe : (0 : ℚ) < (2 : ℚ) ^ e := by positivity
  have hx : (a : ℚ) / d * (2 : ℚ) ^ e = (a : ℚ) / d * (2 : ℚ) ^ (e - k) * (2 : ℚ) ^ k := by
    rw [mul_assoc, ← zpow_add₀ h2, sub_add_cancel]
  have habs : |(M : ℚ) * (2 : ℚ) ^ k - (a : ℚ) / d * (2 : ℚ) ^ e| =
      |(M : ℚ) - (a : ℚ) / d * (2 : ℚ) ^ (e - k)| * (2 : ℚ) ^ k := by
    rw [hx, ← sub_mul, abs_mul, abs_of_pos hpk]
  have hup : (a : ℚ) / d * (2 : ℚ) ^ e < (2 : ℚ) ^ (k + 24) := by
    calc (a : ℚ) / d * (2 : ℚ) ^ e < (2 : ℚ) ^ (binade a d + 1) * (2 : ℚ) ^ e :=
          mul_lt_mul_of_pos_right t1 hpe
      _ = (2 : ℚ) ^ (binade a d + 1 + e) := (zpow_add₀ h2 _ _).symm
      _ ≤ (2 : ℚ) ^ (k + 24) := zpow_le_zpow_right₀ (by norm_num) (by omega)
  have hqlt : (a : ℚ) / d * (2 : ℚ) ^ (e - k) < (2 : ℚ) ^ (24 : Int) := by
    have : (a : ℚ) / d * (2 : ℚ) ^ (e - k) * (2 : ℚ) ^ k < (2 : ℚ) ^ (24 : Int) * (2 : ℚ) ^ k := by
      rw [← hx, ← zpow_add₀ h2, add_comm]; exact hup
    exact lt_of_mul_lt_mul_right this (le_of_lt hpk)
  have hMle : M ≤ 2 ^ 24 := by
    have h3 : (M : ℚ) < (2 : ℚ) ^ (24 : Int) + 1 := by
      have := (abs_le.mp r1).2
      linarith
    have h4 : (M : ℚ) < ((2 ^ 24 + 1 : Nat) : ℚ) := by
      push_cast; norm_num at h3 ⊢; linarith
    have h5 : M < 2 ^ 24 + 1 := by exact_mod_cast h4
    omega
  refine ⟨?_, ?_, hup, ?_, hk2, ?_⟩
  · rw [habs]
    calc |(M : ℚ) - (a : ℚ) / d * (2 : ℚ) ^ (e - k)| * (2 : ℚ) ^ k ≤ 1 / 2 * (2 : ℚ) ^ k :=
          mul_le_mul_of_nonneg_right r1 (le_of_lt hpk)
      _ = (2 : ℚ) ^ k / 2 := by ring
  · intro htie
    apply r2
    rw [habs] at htie
    have : |(M : ℚ) - (a : ℚ) / d * (2 : ℚ) ^ (e - k)| * (2 : ℚ) ^ k = 1 / 2 * (2 : ℚ) ^ k := by
      rw [htie]; ring
    exact mul_right_cancel₀ (ne_of_gt hpk) this
  · rcases hk3 with hk3 | hk3
    · left; exact hk3
    · right
      rw [hk3, zpow_add₀ h2]
      exact mul_le_mul_of_nonneg_right t0 (le_of_lt hpe)
  · have hk104 : k ≤ 104 := by
      by_contra hc
      exact hov (Or.inl (by omega))
    by_cases hk4 : k = 104
    · have hM2 : M ≠ 2 ^ 24 := fun hc => hov (Or.inr ⟨hk4, hc⟩)
      have hM3 : (M : ℚ) ≤ ((2 ^ 24 - 1 : Nat) : ℚ) := by
        have : M ≤ 2 ^ 24 - 1 := by omega
        exact_mod_cast this
      rw [hk4]
      calc (M : ℚ) * (2 : ℚ) ^ (104 : Int) ≤ ((2 ^ 24 - 1 : Nat) : ℚ) * (2 : ℚ) ^ (104 : Int) :=
            mul_le_mul_of_nonneg_right hM3 (by positivity)
        _ < (2 : ℚ) ^ (128 : Int) := by norm_num
    · have hM3 : (M : ℚ) ≤ (2 : ℚ) ^ (24 : Int) := by
        have : (M : ℚ) ≤ ((2 ^ 24 : Nat) : ℚ) := by exact_mod_cast hMle
        push_cast at this; norm_num at this ⊢; exact this
      calc (M : ℚ) * (2 : ℚ) ^ k ≤ (2 : ℚ) ^ (24 : Int) * (2 : ℚ) ^ k :=
            mul_le_mul_of_nonneg_right hM3 (le_of_lt hpk)
        _ = (2 : ℚ) ^ (24 + k) := (zpow_add₀ h2 _ _).symm
        _ ≤ (2 : ℚ) ^ (127 : Int) := zpow_le_zpow_right₀ (by norm_num) (by omega)
        _ < (2 : ℚ) ^ (128 : Int) := by norm_num

/-- Overflow is reported only for operands that round to `2^128` or more: those at least
`2^128 - 2^103`, half a unit in the last place below `2^128`. -/
theorem roundPos_none (a d : Nat) (e : Int) (ha : 0 < a) (hd : 0 < d)
    (h : roundPos a d e = none) :
    (2 : ℚ) ^ (128 : Int) - (2 : ℚ) ^ (103 : Int) ≤ (a : ℚ) / d * (2 : ℚ) ^ e := by
  obtain ⟨t0, _⟩ := binade_spec a d ha hd
  unfold roundPos at h
  simp only [] at h
  obtain ⟨N, D, hD, hND, hq⟩ := roundPos_mantissa a d e (max (binade a d + e) (-126) - 23) hd
  rw [hND] at h
  have h2 : (2 : ℚ) ≠ 0 := by norm_num
  have hpe : (0 : ℚ) < (2 : ℚ) ^ e := by positivity
  by_cases hov : 104 < max (binade a d + e) (-126) - 23 ∨
      (max (binade a d + e) (-126) - 23 = 104 ∧ roundHalfEven N D = 2 ^ 24)
  · rcases hov with hbig | ⟨hk, hM⟩
    · have hte : 128 ≤ binade a d + e := by
        rcases max_choice (binade a d + e) (-126) with hm | hm
        · rw [hm] at hbig; omega
        · rw [hm] at hbig; omega
      calc (2 : ℚ) ^ (128 : Int) - (2 : ℚ) ^ (103 : Int) ≤ (2 : ℚ) ^ (128 : Int) := by norm_num
        _ ≤ (2 : ℚ) ^ (binade a d + e) := zpow_le_zpow_right₀ (by norm_num) hte
        _ = (2 : ℚ) ^ binade a d * (2 : ℚ) ^ e := zpow_add₀ h2 _ _
        _ ≤ (a : ℚ) / d * (2 : ℚ) ^ e := mul_le_mul_of_nonneg_right t0 (le_of_lt hpe)
    · rw [hk] at hq
      obtain ⟨r1, _⟩ := roundHalfEven_spec N D hD
      rw [hM, hq] at r1
      have hx : (a : ℚ) / d * (2 : ℚ) ^ e =
          (a : ℚ) / d * (2 : ℚ) ^ (e - 104) * (2 : ℚ) ^ (104 : Int) := by
        rw [mul_assoc, ← zpow_add₀ h2, sub_add_cancel]
      have hlow : ((2 ^ 24 : Nat) : ℚ) - 1 / 2 ≤ (a : ℚ) / d * (2 : ℚ) ^ (e - 104) := by
        have := (abs_le.mp r1).2
        linarith
      rw [hx]
      calc (2 : ℚ) ^ (128 : Int) - (2 : ℚ) ^ (103 : Int)
          = (((2 ^ 24 : Nat) : ℚ) - 1 / 2) * (2 : ℚ) ^ (104 : Int) := by norm_num
        _ ≤ (a : ℚ) / d * (2 : ℚ) ^ (e - 104) * (2 : ℚ) ^ (104 : Int) :=
            mul_le_mul_of_nonneg_right hlow (by positivity)
  · rw [if_neg hov] at h
    exact absurd h (by simp)

/-- Soundness of `F32.round`: a finite result `m * 2^k` of rounding `x = (n/d) * 2^e`, `n`
non-zero, is a multiple of `2^k` nearest to `x` (with `m` even on a tie), where `2^k` is the
binary32 unit in the last place at `|x|`, and it lies inside the binary32 range. -/
theorem F32_round_spec (n : Int) (d : Nat) (e : Int) (hn : n ≠ 0) (hd : 0 < d) (m k : Int)
    (h : F32.round n d e = F32.fin m k) :
    |(m : ℚ) * (2 : ℚ) ^ k - (n : ℚ) / d * (2 : ℚ) ^ e| ≤ (2 : ℚ) ^ k / 2 ∧
    (|(m : ℚ) * (2 : ℚ) ^ k - (n : ℚ) / d * (2 : ℚ) ^ e| = (2 : ℚ) ^ k / 2 → m % 2 = 0) ∧
    |(n : ℚ) / d * (2 : ℚ) ^ e| < (2 : ℚ) ^ (k + 24) ∧
    (k = -149 ∨ (2 : ℚ) ^ (k + 23) ≤ |(n : ℚ) / d * (2 : ℚ) ^ e|) ∧
    -149 ≤ k ∧ |(m : ℚ) * (2 : ℚ) ^ k| < (2 : ℚ) ^ (128 : Int) := by
  unfold F32.round at h
  rw [if_neg hn] at h
  cases hr : roundPos n.natAbs d e with
  | none => rw [hr] at h; exact absurd h (by simp)
  | some p =>
    obtain ⟨M, k2⟩ := p
    rw [hr] at h
    simp only [F32.fin.injEq] at h
    obtain ⟨hm, hk⟩ := h
    subst hk
    obtain ⟨s1, s2, s3, s4, s5, s6⟩ := roundPos_spec n.natAbs d e (Int.natAbs_pos.mpr hn) hd M k2 hr
    have hpk : (0 : ℚ) < (2 : ℚ) ^ k2 := by positivity
    have hpe : (0 : ℚ) < (2 : ℚ) ^ e := by positivity
    have hdq : (0 : ℚ) < d := by exact_mod_cast hd
    have habs : ((n.natAbs : Nat) : ℚ) = |(n : ℚ)| := by
      rw [Nat.cast_natAbs, Int.cast_abs]
    have hxabs : |(n : ℚ) / d * (2 : ℚ) ^ e| = ((n.natAbs : Nat) : ℚ) / d * (2 : ℚ) ^ e := by
      rw [abs_mul, abs_div, abs_of_pos hpe, abs_of_pos hdq, habs]
    have hMabs : |(m : ℚ) * (2 : ℚ) ^ k2| = (M : ℚ) * (2 : ℚ) ^ k2 := by
      rw [abs_mul, abs_of_pos hpk, ← hm]
      split_ifs
      · push_cast; rw [abs_neg, abs_of_nonneg (by positivity)]
      · push_cast; rw [abs_of_nonneg (by positivity)]
    have hdiff : |(m : ℚ) * (2 : ℚ) ^ k2 - (n : ℚ) / d * (2 : ℚ) ^ e| =
        |(M : ℚ) * (2 : ℚ) ^ k2 - ((n.natAbs : Nat) : ℚ) / d * (2 : ℚ) ^ e| := by
      rw [habs, ← hm]
      by_cases hneg : n < 0
      · have hnq : (n : ℚ) < 0 := by exact_mod_cast hneg
        rw [if_pos hneg, abs_of_neg hnq, ← abs_neg]
        congr 1; push_cast; ring
      · have hnq : (0 : ℚ) ≤ (n : ℚ) := by exact_mod_cast (not_lt.mp hneg)
        rw [if_neg hneg, abs_of_nonneg hnq]
        push_cast; rfl
    have hpar : M % 2 = 0 → m % 2 = 0 := by
      intro hM
      rw [← hm]
      split_ifs <;> omega
    rw [hdiff, hxabs, hMabs]
    exact ⟨s1, fun ht => hpar (s2 ht), s3, s4, s5, s6⟩

/-- The sum of two finite binary32 data is the rounding of their exact sum. -/
theorem F32_add_fin (m1 e1 m2 e2 : Int) :
    ∃ n e : Int, F32.add (F32.fin m1 e1) (F32.fin m2 e2) = F32.round n 1 e ∧
      (n : ℚ) / (1 : Nat) * (2 : ℚ) ^ e = (F32.fin m1 e1).toRat + (F32.fin m2 e2).toRat := by
  refine ⟨m1 * 2 ^ (e1 - min e1 e2).toNat + m2 * 2 ^ (e2 - min e1 e2).toNat, min e1 e2, rfl, ?_⟩
  have h2 : (2 : ℚ) ≠ 0 := by norm_num
  have p1 : ((e1 - min e1 e2).toNat : Int) = e1 - min e1 e2 :=
    Int.toNat_of_nonneg (sub_nonneg.mpr (min_le_left _ _))
  have p2 : ((e2 - min e1 e2).toNat : Int) = e2 - min e1 e2 :=
    Int.toNat_of_nonneg (sub_nonneg.mpr (min_le_right _ _))
  have q1 : (2 : ℚ) ^ (e1 - min e1 e2).toNat * (2 : ℚ) ^ (min e1 e2) = (2 : ℚ) ^ e1 := by
    rw [← zpow_natCast, p1, ← zpow_add₀ h2, sub_add_cancel]
  have q2 : (2 : ℚ) ^ (e2 - min e1 e2).toNat * (2 : ℚ) ^ (min e1 e2) = (2 : ℚ) ^ e2 := by
    rw [← zpow_natCast, p2, ← zpow_add₀ h2, sub_add_cancel]
  simp only [F32.toRat]
  push_cast
  rw [div_one, add_mul, mul_assoc, mul_assoc, q1, q2]

/-- The product of two finite binary32 data is the rounding of their exact product. -/
theorem F32_mul_fin (m1 e1 m2 e2 : Int) :
    F32.mul (F32.fin m1 e1) (F32.fin m2 e2) = F32.round (m1 * m2) 1 (e1 + e2) ∧
      ((m1 * m2 : Int) : ℚ) / (1 : Nat) * (2 : ℚ) ^ (e1 + e2) =
        (F32.fin m1 e1).toRat * (F32.fin m2 e2).toRat := by
  refine ⟨rfl, ?_⟩
  simp only [F32.toRat]
  push_cast
  rw [div_one, zpow_add₀ (by norm_num : (2 : ℚ) ≠ 0)]
  ring

/-- The value `truncDyadic m e` is `m * 2^e` truncated toward zero. -/
theorem truncDyadic_spec (m e : Int) :
    truncDyadic m e =
      if 0 ≤ m then ⌊(m : ℚ) * (2 : ℚ) ^ e⌋ else ⌈(m : ℚ) * (2 : ℚ) ^ e⌉ := by
  unfold truncDyadic
  by_cases he : 0 ≤ e
  · obtain ⟨n, rfl⟩ := Int.eq_ofNat_of_zero_le he
    have hv : (m : ℚ) * (2 : ℚ) ^ (n : Int) = ((m * 2 ^ n : Int) : ℚ) := by
      rw [zpow_natCast]; push_cast; ring
    rw [if_pos he, hv, Int.floor_intCast, Int.ceil_intCast, Int.toNat_natCast]
    split_ifs <;> rfl
  · obtain ⟨n, hn⟩ := Int.eq_ofNat_of_zero_le (show 0 ≤ -e by omega)
    have hen : e = -(n : Int) := by omega
    subst hen
    have hv : ∀ z : Int, (z : ℚ) * (2 : ℚ) ^ (-(n : Int)) = (z : ℚ) / ((2 ^ n : Nat) : ℚ) := by
      intro z
      rw [zpow_neg, zpow_natCast, div_eq_mul_inv]; push_cast; rfl
    have hpos : (0 : Int) ≤ 2 ^ n := by positivity
    have hcast : ((2 ^ n : Nat) : Int) = 2 ^ n := by push_cast; rfl
    rw [if_neg he, neg_neg, Int.toNat_natCast]
    by_cases hm : 0 ≤ m
    · rw [if_pos hm, hv, Rat.floor_intCast_div_natCast, hcast, Int.tdiv_eq_ediv hm hpos]
    · have hneg : (m : ℚ) * (2 : ℚ) ^ (-(n : Int)) =
          -(((-m : Int) : ℚ) * (2 : ℚ) ^ (-(n : Int))) := by
        push_cast; ring
      rw [if_neg hm, hneg, Int.ceil_neg, hv, Rat.floor_intCast_div_natCast, hcast]
      have h1 : m.tdiv (2 ^ n) = -((-m).tdiv (2 ^ n)) := by
        rw [Int.neg_tdiv, neg_neg]
      rw [h1, Int.tdiv_eq_ediv (by omega) hpos]

/-! ## Convolution engine -/

theorem rd_getD {α : Type} (a : List α) (i : Int) (d : α) (h0 : 0 ≤ i)
    (h1 : i < (a.length : Int)) : rd a i = some (a.getD i.toNat d) := by
  have h : i.toNat < a.length := by omega
  simp [rd, h0, List.getD_eq_getElem?_getD, List.getElem?_eq_getElem h]

/-- The innermost loop: one row of taps added to the accumulator. -/
theorem blurTap_row {F : Type} (ops : FloatOps F) (input : List Nat) (rows cols : Int)
    (filter : List F) (filterWidth y x : Int)
    (hodd : filterWidth = 2 * (filterWidth / 2) + 1)
    (htd : filterWidth.tdiv 2 = filterWidth / 2)
    (hin : rows * cols ≤ (input.length : Int))
    (hf : filterWidth * filterWidth ≤ (filter.length : Int))
    (dy : Int) (hdy : -(filterWidth / 2) ≤ dy ∧ dy ≤ filterWidth / 2) (L : List Int)
    (hL : ∀ dx ∈ L, -(filterWidth / 2) ≤ dx ∧ dx ≤ filterWidth / 2) (acc : F) :
    L.foldlM (blurTap ops input rows cols filter filterWidth y x dy) acc =
      some ((((L.map (fun dx => (dy, dx))).filter (inPlane rows cols y x)).map
        (tapTerm ops input cols filter filterWidth y x)).foldl ops.add acc) := by
  induction L generalizing acc with
  | nil => rfl
  | cons dx rest ih =>
    obtain ⟨hdx0, hdx1⟩ := hL dx (List.mem_cons_self _ _)
    have ih2 := fun a => ih (fun j hj => hL j (List.mem_cons_of_mem _ hj)) a
    rw [List.foldlM_cons]
    by_cases hc : y + dy > -1 ∧ y + dy < rows ∧ x + dx > -1 ∧ x + dx < cols
    · have hb : inPlane rows cols y x (dy, dx) = true := by
        simp only [inPlane, decide_eq_true_eq]; omega
      obtain ⟨i0, i1⟩ := raster_lt rows cols (y + dy) (x + dx) (by omega) (by omega)
        (by omega) (by omega)
      obtain ⟨j0, j1⟩ := raster_lt filterWidth filterWidth (dy + filterWidth / 2)
        (dx + filterWidth / 2) (by omega) (by omega) (by omega) (by omega)
      have r1 := rd_getD input ((y + dy) * cols + (x + dx)) 0 i0 (by omega)
      have r2 := rd_getD filter
        ((dy + filterWidth / 2) * filterWidth + (dx + filterWidth / 2)) ops.zero j0 (by omega)
      have e : blurTap ops input rows cols filter filterWidth y x dy acc dx =
          some (ops.add acc (tapTerm ops input cols filter filterWidth y x (dy, dx))) := by
        simp only [blurTap, hc, and_self, if_true, htd, r1, r2, tapTerm]
        rfl
      rw [e]
      simp only [List.map_cons, List.filter_cons, hb, if_true, List.foldl_cons]
      exact ih2 _
    · have hb : inPlane rows cols y x (dy, dx) = false := by
        simp only [inPlane, decide_eq_false_iff_not]; omega
      have e : blurTap ops input rows cols filter filterWidth y x dy acc dx = some acc := by
        simp only [blurTap, hc, if_false]
        rfl
      rw [e]
      simp only [List.map_cons, List.filter_cons, hb, List.foldl_cons]
      exact ih2 _

/-- The two inner loops: all rows of taps added to the accumulator. -/
theorem blurTap_rows {F : Type} (ops : FloatOps F) (input : List Nat) (rows cols : Int)
    (filter : List F) (filterWidth y x : Int)
    (hodd : filterWidth = 2 * (filterWidth / 2) + 1)
    (htd : filterWidth.tdiv 2 = filterWidth / 2)
    (hin : rows * cols ≤ (input.length : Int))
    (hf : filterWidth * filterWidth ≤ (filter.length : Int))
    (L2 : List Int) (hL2 : ∀ dx ∈ L2, -(filterWidth / 2) ≤ dx ∧ dx ≤ filterWidth / 2)
    (L1 : List Int) (hL1 : ∀ dy ∈ L1, -(filterWidth / 2) ≤ dy ∧ dy ≤ filterWidth / 2)
    (acc : F) :
    L1.foldlM (fun pixval blurRow =>
        L2.foldlM (blurTap ops input rows cols filter filterWidth y x blurRow) pixval) acc =
      some ((((L1.flatMap (fun dy => L2.map (fun dx => (dy, dx)))).filter
        (inPlane rows cols y x)).map
          (tapTerm ops input cols filter filterWidth y x)).foldl ops.add acc) := by
  induction L1 generalizing acc with
  | nil => rfl
  | cons dy rest ih =>
    rw [List.foldlM_cons, blurTap_row ops input rows cols filter filterWidth y x hodd htd hin
      hf dy (hL1 dy (List.mem_cons_self _ _)) L2 hL2 acc]
    simp only [List.flatMap_cons, List.filter_append, List.map_append, List.foldl_append]
    exact ih (fun j hj => hL1 j (List.mem_cons_of_mem _ hj)) _

/-- The accumulator of `serialGaussianBlur` at a pixel is the specified footprint sum. -/
theorem blurPixel_eq {F : Type} (ops : FloatOps F) (input : List Nat) (rows cols : Int)
    (filter : List F) (filterWidth y x : Int) (hpos : 0 < filterWidth)
    (hodd : filterWidth % 2 = 1) (hin : rows * cols ≤ (input.length : Int))
    (hf : filterWidth * filterWidth ≤ (filter.length : Int)) :
    blurPixel ops input rows cols filter filterWidth y x =
      some (footprintSum ops input rows cols filter filterWidth y x) := by
  have htd : filterWidth.tdiv 2 = filterWidth / 2 :=
    Int.tdiv_eq_ediv (by omega) (by decide)
  have hmem : ∀ d ∈ intRange (-(filterWidth / 2)) (filterWidth / 2 + 1),
      -(filterWidth / 2) ≤ d ∧ d ≤ filterWidth / 2 := by
    intro d hd
    rw [mem_intRange] at hd
    omega
  simp only [blurPixel, htd]
  exact blurTap_rows ops input rows cols filter filterWidth y x (by omega) htd hin hf
    _ hmem _ hmem ops.zero

/-- The plane after `serialGaussianBlur`: cell `i` holds the converted footprint sum of the
pixel `(i / cols, i % cols)`. -/
theorem blur_spec {F : Type} (ops : FloatOps F) (input out0 : List Nat) (rows cols : Int)
    (filter : List F) (filterWidth : Int) (hr : 0 ≤ rows) (hc : 0 ≤ cols)
    (hpos : 0 < filterWidth) (hodd : filterWidth % 2 = 1)
    (hin : rows * cols ≤ (input.length : Int))
    (hf : filterWidth * filterWidth ≤ (filter.length : Int))
    (hout : rows * cols ≤ (out0.length : Int)) :
    ∃ out, serialGaussianBlur ops input out0 rows cols filter filterWidth = some out ∧
      Written (fun i => some (ops.toUChar (footprintSum ops input rows cols filter filterWidth
        ((i : Int) / cols) ((i : Int) % cols)))) out0 (rows * cols) out := by
  apply raster_inv
    (fun k st => Written (fun i => some (ops.toUChar (footprintSum ops input rows cols filter
      filterWidth ((i : Int) / cols) ((i : Int) % cols)))) out0 k st)
    (fun out y x => do
      let pixval ← blurPixel ops input rows cols filter filterWidth y x
      wr out (y * cols + x) (ops.toUChar pixval)) rows cols hr hc out0 (written_zero _ _)
  intro y x st hy0 hy1 hx0 hx1 hW
  obtain ⟨hk0, hk1⟩ := raster_lt rows cols y x hy0 hy1 hx0 hx1
  obtain ⟨k, hk⟩ := Int.eq_ofNat_of_zero_le hk0
  have hdiv : (k : Int) / cols = y := by
    rw [← hk, Int.add_comm, Int.add_mul_ediv_right _ _ (by omega),
      Int.ediv_eq_zero_of_lt hx0 hx1, zero_add]
  have hmod : (k : Int) % cols = x := by
    rw [← hk, Int.add_comm, Int.add_mul_emod_self, Int.emod_eq_of_lt hx0 hx1]
  rw [hk] at hW hk1 ⊢
  obtain ⟨w1, W1⟩ := written_step _ out0 st k
    (ops.toUChar (footprintSum ops input rows cols filter filterWidth y x)) hW (by omega)
    (by simp only [hdiv, hmod])
  refine ⟨_, ?_, W1⟩
  rw [blurPixel_eq ops input rows cols filter filterWidth y x hpos hodd hin hf]
  exact w1

/-- C3: on a `rows x cols` plane, with an odd positive `filterWidth` and a filter of
`filterWidth*filterWidth` weights, `serialGaussianBlur` succeeds, keeps the shape of the
output plane, and writes at every `(y, x)` with `0 <= y < rows`, `0 <= x < cols` the
conversion to `unsigned char` of the sum, taken in the program's arithmetic in tap order, of
`in[(y+dy)*cols + (x+dx)] * filter[(dy + filterWidth/2)*filterWidth + (dx + filterWidth/2)]`
over the offsets of the footprint that fall inside the plane; the other offsets contribute
nothing and the sum is not re-normalised. The conversion is truncation toward zero (floor of
a non-negative value, ceiling of a negative one) followed by the reduction to 8 bits, in
binary32 and in exact arithmetic. -/
theorem C3_blur_footprint_sum {F : Type} (ops : FloatOps F) (input out0 : List Nat)
    (rows cols : Int) (filter : List F) (filterWidth : Int) (hr : 0 ≤ rows) (hc : 0 ≤ cols)
    (hpos : 0 < filterWidth) (hodd : filterWidth % 2 = 1)
    (hin : rows * cols ≤ (input.length : Int))
    (hf : filterWidth * filterWidth ≤ (filter.length : Int))
    (hout : rows * cols ≤ (out0.length : Int)) :
    (∃ out, serialGaussianBlur ops input out0 rows cols filter filterWidth = some out ∧
      out.length = out0.length ∧
      ∀ y x : Int, 0 ≤ y → y < rows → 0 ≤ x → x < cols →
        rd out (y * cols + x) =
          some (ops.toUChar (footprintSum ops input rows cols filter filterWidth y x))) ∧
    (∀ m e : Int, binary32.toUChar (F32.fin m e) =
      ((if 0 ≤ m then ⌊(F32.fin m e).toRat⌋ else ⌈(F32.fin m e).toRat⌉) % 256).toNat) ∧
    (∀ v : ℚ, (exactOps ℚ).toUChar v = ((if 0 ≤ v then ⌊v⌋ else ⌈v⌉) % 256).toNat) := by
  refine ⟨?_, fun m e => ?_, fun v => rfl⟩
  · obtain ⟨out, h1, hW⟩ := blur_spec ops input out0 rows cols filter filterWidth hr hc hpos
      hodd hin hf hout
    refine ⟨out, h1, hW.1, fun y x hy0 hy1 hx0 hx1 => ?_⟩
    obtain ⟨hk0, hk1⟩ := raster_lt rows cols y x hy0 hy1 hx0 hx1
    obtain ⟨k, hk⟩ := Int.eq_ofNat_of_zero_le hk0
    have hdiv : (k : Int) / cols = y := by
      rw [← hk, Int.add_comm, Int.add_mul_ediv_right _ _ (by omega),
        Int.ediv_eq_zero_of_lt hx0 hx1, zero_add]
    have hmod : (k : Int) % cols = x := by
      rw [← hk, Int.add_comm, Int.add_mul_emod_self, Int.emod_eq_of_lt hx0 hx1]
    rw [hk] at hk1 ⊢
    have h2 := (hW.2 k).1 hk1
    simp only [hdiv, hmod] at h2
    simpa [rd] using h2
  · show (truncDyadic m e % 256).toNat = _
    rw [truncDyadic_spec]
    rfl

/-- C3 witness: a 2 x 2 plane and a 1 x 1 filter in binary32. -/
theorem C3_blur_footprint_sum_witness :
    ((0 : Int) < 1 ∧ (1 : Int) % 2 = 1) ∧
    ∃ out, serialGaussianBlur binary32 [1, 2, 3, 4] [0, 0, 0, 0] 2 2 [F32.round 1 2 0] 1
        = some out ∧
      out.length = 4 ∧
      ∀ y x : Int, 0 ≤ y → y < 2 → 0 ≤ x → x < 2 →
        rd out (y * 2 + x) = some (binary32.toUChar
          (footprintSum binary32 [1, 2, 3, 4] 2 2 [F32.round 1 2 0] 1 y x)) :=
  ⟨⟨by decide, by decide⟩,
    (C3_blur_footprint_sum binary32 [1, 2, 3, 4] [0, 0, 0, 0] 2 2 [F32.round 1 2 0] 1
      (by decide) (by decide) (by decide) (by decide) (by decide) (by decide) (by decide)).1⟩

/-- C4 (as amended): for the 4 x 4 plane of sixteen samples 255 and the 3 x 3 filter whose nine
weights are the binary32 nearest to 1/9 (`14913081 * 2^-27`, within half a unit in the last
place of 1/9), `serialGaussianBlur` outputs 254 at each of the four interior pixels: the nine
products `255 * fl(1/9)`, each rounded to `14854827 * 2^-19`, accumulate in binary32 to
`16711679 * 2^-16 = 254.99998...`, which truncates to 254. It outputs 170 at the eight other
border pixels and 113 at each of the four corners, where exactly 4 of the 9 taps are in
bounds; every border value is below 255. -/
theorem C4_white_plane_binary32 :
    (F32.round 1 9 0 = F32.fin 14913081 (-27) ∧
      |(F32.fin 14913081 (-27)).toRat - 1 / 9| ≤ (2 : ℚ) ^ (-27 : Int) / 2) ∧
    serialGaussianBlur binary32 (List.replicate 16 255) (List.replicate 16 0) 4 4
        (List.replicate 9 (F32.round 1 9 0)) 3 =
      some [113, 170, 170, 113, 170, 254, 254, 170, 170, 254, 254, 170, 113, 170, 170, 113] ∧
    (binary32.mul (binary32.ofUChar 255) (F32.round 1 9 0) = F32.fin 14854827 (-19) ∧
      footprintSum binary32 (List.replicate 16 255) 4 4 (List.replicate 9 (F32.round 1 9 0))
        3 1 1 = F32.fin 16711679 (-16)) ∧
    (((footprint 3).filter (inPlane 4 4 0 0)).length = 4 ∧
      ((footprint 3).filter (inPlane 4 4 0 3)).length = 4 ∧
      ((footprint 3).filter (inPlane 4 4 3 0)).length = 4 ∧
      ((footprint 3).filter (inPlane 4 4 3 3)).length = 4 ∧
      ((footprint 3).filter (inPlane 4 4 1 1)).length = 9) := by
  refine ⟨⟨?_, ?_⟩, ?_, ?_, ?_⟩
  · decide
  · have e : (F32.fin 14913081 (-27)).toRat = 14913081 / 134217728 := by
      simp only [F32.toRat]; norm_num
    rw [e, abs_le]; norm_num
  · set_option maxRecDepth 100000 in decide
  · set_option maxRecDepth 100000 in decide
  · decide

/-- C4 counterexample: at the interior pixel `(1, 1)`, cell `1*4 + 1`, of the all-255 plane
the output under the nine weights `fl(1/9)` is 254, not 255. -/
theorem C4_counterexample :
    (serialGaussianBlur binary32 (List.replicate 16 255) (List.replicate 16 0) 4 4
        (List.replicate 9 (F32.round 1 9 0)) 3).bind (fun out => rd out (1 * 4 + 1))
      = some 254 ∧ (254 : Nat) ≠ 255 := by
  set_option maxRecDepth 100000 in
  decide

theorem range_flatMap_rows (m n : Nat) :
    (List.range m).flatMap (fun i => (List.range n).map (fun j => i * n + j)) =
      List.range (m * n) := by
  induction m with
  | zero => simp
  | succ m ih =>
    rw [List.range_succ, List.flatMap_append, ih]
    have e : (m + 1) * n = m * n + n := by ring
    rw [e, List.range_add]
    simp

/-- Row by row, the filter indices of the footprint are `0, 1, ..., filterWidth^2 - 1`. -/
theorem footprint_indices (filterWidth : Int) (hpos : 0 < filterWidth)
    (hodd : filterWidth % 2 = 1) :
    (footprint filterWidth).map
        (fun d => ((d.1 + filterWidth / 2) * filterWidth + (d.2 + filterWidth / 2)).toNat) =
      List.range (filterWidth * filterWidth).toNat := by
  obtain ⟨n, rfl⟩ := Int.eq_ofNat_of_zero_le (le_of_lt hpos)
  have hn : ((n : Int) / 2 + 1 - -((n : Int) / 2)).toNat = n := by omega
  have e : ((n : Int) * (n : Int)).toNat = n * n := by
    rw [← Int.natCast_mul]; exact Int.toNat_natCast _
  rw [e, ← range_flatMap_rows n n]
  simp only [footprint, offsets, intRange, hn, List.map_flatMap, List.flatMap_map, List.map_map]
  apply List.flatMap_congr
  intro i _
  apply List.map_congr_left
  intro j _
  simp only [Function.comp]
  have : (-((n : Int) / 2) + (i : Int) + (n : Int) / 2) * (n : Int) + (-((n : Int) / 2) + (j : Int) + (n : Int) / 2) = ((i * n + j : Nat) : Int) := by
    push_cast; ring
  rw [this]; exact Int.toNat_natCast _

theorem mem_footprint (filterWidth : Int) (d : Int × Int) (hd : d ∈ footprint filterWidth) :
    (-(filterWidth / 2) ≤ d.1 ∧ d.1 ≤ filterWidth / 2) ∧
      (-(filterWidth / 2) ≤ d.2 ∧ d.2 ≤ filterWidth / 2) := by
  simp only [footprint, offsets, List.mem_flatMap, List.mem_map, mem_intRange] at hd
  obtain ⟨dy, hdy, dx, hdx, rfl⟩ := hd
  exact ⟨by omega, by omega⟩

/-- In exact arithmetic the accumulated sum is the sum of the list. -/
theorem sumInOrder_exact {K : Type} [LinearOrderedField K] [FloorRing K] (l : List K) :
    sumInOrder (exactOps K) l = l.sum := by
  have h : ∀ (l : List K) (acc : K), l.foldl (fun a b => a + b) acc = acc + l.sum := by
    intro l
    induction l with
    | nil => intro acc; simp
    | cons a rest ih => intro acc; simp [List.foldl_cons, ih, add_assoc]
  show l.foldl (fun a b => a + b) 0 = l.sum
  rw [h, zero_add]

/-- Reading a buffer cell by cell gives the buffer back. -/
theorem map_getD_range {α : Type} (l : List α) (d : α) :
    (List.range l.length).map (fun i => l.getD i d) = l := by
  apply List.ext_getElem
  · simp
  · intro i h1 h2
    simp [List.getD_eq_getElem?_getD, List.getElem?_eq_getElem h2]

/-- Truncating a byte value gives the byte back. -/
theorem truncToUChar_natCast {K : Type} [LinearOrderedField K] [FloorRing K] (v : Nat)
    (hv : v ≤ 255) : truncToUChar (v : K) = v := by
  have h0 : (0 : K) ≤ (v : K) := Nat.cast_nonneg v
  simp only [truncToUChar, h0, if_true, Int.floor_natCast]
  omega

/-- On a uniform plane, at a pixel whose footprint is inside the plane, the exact footprint
sum is the sample value times the sum of the filter weights. -/
theorem footprintSum_uniform {K : Type} [LinearOrderedField K] [FloorRing K] (v : Nat)
    (input : List Nat) (rows cols : Int) (filter : List K) (filterWidth y x : Int)
    (hpos : 0 < filterWidth) (hodd : filterWidth % 2 = 1)
    (hin : rows * cols ≤ (input.length : Int)) (huni : ∀ a ∈ input, a = v)
    (hf : (filter.length : Int) = filterWidth * filterWidth)
    (hy0 : filterWidth / 2 ≤ y) (hy1 : y < rows - filterWidth / 2)
    (hx0 : filterWidth / 2 ≤ x) (hx1 : x < cols - filterWidth / 2) :
    footprintSum (exactOps K) input rows cols filter filterWidth y x = (v : K) * filter.sum := by
  have hall : ∀ d ∈ footprint filterWidth, inPlane rows cols y x d = true := by
    intro d hd
    obtain ⟨h1, h2⟩ := mem_footprint filterWidth d hd
    simp only [inPlane, decide_eq_true_eq]; omega
  have hterm : ∀ d ∈ footprint filterWidth,
      tapTerm (exactOps K) input cols filter filterWidth y x d =
        (v : K) * filter.getD
          ((d.1 + filterWidth / 2) * filterWidth + (d.2 + filterWidth / 2)).toNat 0 := by
    intro d hd
    obtain ⟨h1, h2⟩ := mem_footprint filterWidth d hd
    obtain ⟨i0, i1⟩ := raster_lt rows cols (y + d.1) (x + d.2) (by omega) (by omega)
      (by omega) (by omega)
    have hlt : ((y + d.1) * cols + (x + d.2)).toNat < input.length := by omega
    have hval : input.getD ((y + d.1) * cols + (x + d.2)).toNat 0 = v := by
      rw [List.getD_eq_getElem _ _ hlt]
      exact huni _ (List.getElem_mem _)
    simp only [tapTerm, hval]
    rfl
  have hlen : (filterWidth * filterWidth).toNat = filter.length := by omega
  rw [footprintSum, List.filter_eq_self.mpr hall, List.map_congr_left hterm, sumInOrder_exact,
    List.sum_map_mul_left]
  congr 1
  show ((footprint filterWidth).map (fun d => filter.getD
      ((d.1 + filterWidth / 2) * filterWidth + (d.2 + filterWidth / 2)).toNat 0)).sum = filter.sum
  have hidx := footprint_indices filterWidth hpos hodd
  have : (footprint filterWidth).map (fun d => filter.getD
      ((d.1 + filterWidth / 2) * filterWidth + (d.2 + filterWidth / 2)).toNat 0) =
      ((footprint filterWidth).map (fun d =>
        ((d.1 + filterWidth / 2) * filterWidth + (d.2 + filterWidth / 2)).toNat)).map
        (fun i => filter.getD i 0) := by
    rw [List.map_map]; rfl
  rw [this, hidx, hlen, map_getD_range]

/-- In exact arithmetic (the `float` operations read over an ordered field, without
rounding), on a plane whose samples all equal `v <= 255`, with an odd positive `filterWidth`
and a filter whose `filterWidth*filterWidth` weights sum to 1, `serialGaussianBlur` outputs
exactly `v` at every pixel whose footprint is inside the plane. -/
theorem uniform_interior_exact {K : Type} [LinearOrderedField K] [FloorRing K] (v : Nat)
    (hv : v ≤ 255) (input out0 : List Nat) (rows cols : Int) (filter : List K)
    (filterWidth : Int) (hr : 0 ≤ rows) (hc : 0 ≤ cols) (hpos : 0 < filterWidth)
    (hodd : filterWidth % 2 = 1) (hin : rows * cols ≤ (input.length : Int))
    (huni : ∀ a ∈ input, a = v) (hf : (filter.length : Int) = filterWidth * filterWidth)
    (hsum : filter.sum = 1) (hout : rows * cols ≤ (out0.length : Int)) :
    ∃ out, serialGaussianBlur (exactOps K) input out0 rows cols filter filterWidth = some out ∧
      ∀ y x : Int, filterWidth / 2 ≤ y → y < rows - filterWidth / 2 →
        filterWidth / 2 ≤ x → x < cols - filterWidth / 2 →
        rd out (y * cols + x) = some v := by
  obtain ⟨out, h1, hW⟩ := blur_spec (exactOps K) input out0 rows cols filter filterWidth hr hc
    hpos hodd hin (le_of_eq hf.symm) hout
  refine ⟨out, h1, fun y x hy0 hy1 hx0 hx1 => ?_⟩
  obtain ⟨hk0, hk1⟩ := raster_lt rows cols y x (by omega) (by omega) (by omega) (by omega)
  obtain ⟨k, hk⟩ := Int.eq_ofNat_of_zero_le hk0
  have hdiv : (k : Int) / cols = y := by
    rw [← hk, Int.add_comm, Int.add_mul_ediv_right _ _ (by omega),
      Int.ediv_eq_zero_of_lt (by omega) (by omega), zero_add]
  have hmod : (k : Int) % cols = x := by
    rw [← hk, Int.add_comm, Int.add_mul_emod_self, Int.emod_eq_of_lt (by omega) (by omega)]
  rw [hk] at hk1 ⊢
  have h2 := (hW.2 k).1 hk1
  simp only [hdiv, hmod] at h2
  rw [footprintSum_uniform v input rows cols filter filterWidth y x hpos hodd hin huni hf
    hy0 hy1 hx0 hx1, hsum, mul_one] at h2
  have h3 : (exactOps K).toUChar (v : K) = v := truncToUChar_natCast v hv
  rw [h3] at h2
  simpa [rd] using h2

/-! ## Filter generator -/

/-- Invariant rule for the two nested loops over `[lo, hi)`, indexed by the linear position
`(r - lo) * (hi - lo) + (c - lo)`. -/
theorem square_inv {σ : Type} (Inv : Int → σ → Prop) (body : σ → Int → Int → Option σ)
    (lo hi : Int) (hle : lo ≤ hi) (s0 : σ) (h0 : Inv 0 s0)
    (step : ∀ r c s, lo ≤ r → r < hi → lo ≤ c → c < hi →
      Inv ((r - lo) * (hi - lo) + (c - lo)) s →
      ∃ s', body s r c = some s' ∧ Inv ((r - lo) * (hi - lo) + (c - lo) + 1) s') :
    ∃ s', (intRange lo hi).foldlM
        (fun st r => (intRange lo hi).foldlM (fun st c => body st r c) st) s0 = some s' ∧
      Inv ((hi - lo) * (hi - lo)) s' := by
  apply foldlM_intRange_inv (fun r s => Inv ((r - lo) * (hi - lo)) s) _ lo hi hle s0
    (by simpa using h0)
  intro r s hr0 hr1 hI
  have := foldlM_intRange_inv (fun c s => Inv ((r - lo) * (hi - lo) + (c - lo)) s)
    (fun st c => body st r c) lo hi hle s (by simpa using hI)
    (fun c s hc0 hc1 hIc => by
      obtain ⟨s', h1, h2⟩ := step r c s hr0 hr1 hc0 hc1 hIc
      refine ⟨s', h1, ?_⟩
      show Inv ((r - lo) * (hi - lo) + (c + 1 - lo)) s'
      have e : (r - lo) * (hi - lo) + (c + 1 - lo) = (r - lo) * (hi - lo) + (c - lo) + 1 := by
        ring
      rw [e]; exact h2)
  obtain ⟨s', h1, h2⟩ := this
  refine ⟨s', h1, ?_⟩
  have e : (r + 1 - lo) * (hi - lo) = (r - lo) * (hi - lo) + (hi - lo) := by ring
  simp only [e]; exact h2

/-- The first pass succeeds, leaves the weight of every cell in `arr` and their accumulated
sum in `filterSum`. -/
theorem gaussFill_spec {F : Type} (ops : FilterOps F) (arr0 : List F) (f_sz : Int)
    (f_sigma : F) (hpos : 0 < f_sz) (hodd : f_sz % 2 = 1)
    (hlen : f_sz * f_sz ≤ (arr0.length : Int)) :
    ∃ arr, gaussFill ops arr0 f_sz f_sigma = some (arr,
        sumInOrder ops.toFloatOps
          ((List.range (f_sz * f_sz).toNat).map (cellWeight ops f_sz f_sigma))) ∧
      Written (fun i => some (cellWeight ops f_sz f_sigma i)) arr0 (f_sz * f_sz) arr := by
  have htd : f_sz.tdiv 2 = f_sz / 2 := Int.tdiv_eq_ediv (by omega) (by decide)
  have hw : f_sz / 2 + 1 - -(f_sz / 2) = f_sz := by omega
  have := square_inv
    (fun k (st : List F × F) =>
      Written (fun i => some (cellWeight ops f_sz f_sigma i)) arr0 k st.1 ∧
      st.2 = sumInOrder ops.toFloatOps
        ((List.range k.toNat).map (cellWeight ops f_sz f_sigma)))
    (fun st r c => do
      let arr ← wr st.1 ((r + f_sz / 2) * f_sz + (c + f_sz / 2)) (gaussWeight ops f_sigma r c)
      pure (arr, ops.add st.2 (gaussWeight ops f_sigma r c)))
    (-(f_sz / 2)) (f_sz / 2 + 1) (by omega) (arr0, ops.zero)
    ⟨written_zero _ _, by simp [sumInOrder]⟩
    (by
      rintro r c ⟨arr, s⟩ hr0 hr1 hc0 hc1 ⟨hW, hS⟩
      simp only [hw, sub_neg_eq_add] at hW hS ⊢
      obtain ⟨hk0, hk1⟩ := raster_lt f_sz f_sz (r + f_sz / 2) (c + f_sz / 2) (by omega)
        (by omega) (by omega) (by omega)
      obtain ⟨k, hk⟩ := Int.eq_ofNat_of_zero_le hk0
      have hdiv : (k : Int) / f_sz = r + f_sz / 2 := by
        rw [← hk, Int.add_comm, Int.add_mul_ediv_right _ _ (by omega),
          Int.ediv_eq_zero_of_lt (by omega) (by omega), zero_add]
      have hmod : (k : Int) % f_sz = c + f_sz / 2 := by
        rw [← hk, Int.add_comm, Int.add_mul_emod_self,
          Int.emod_eq_of_lt (by omega) (by omega)]
      have hcell : cellWeight ops f_sz f_sigma k = gaussWeight ops f_sigma r c := by
        simp only [cellWeight, hdiv, hmod, add_sub_cancel_right]
      rw [hk] at hW hS hk1 ⊢
      obtain ⟨w1, W1⟩ := written_step _ arr0 arr k (gaussWeight ops f_sigma r c) hW
        (by omega) (by rw [hcell])
      refine ⟨(arr.set k (gaussWeight ops f_sigma r c),
        ops.add s (gaussWeight ops f_sigma r c)), ?_, W1, ?_⟩
      · simp [w1]
      · have e : ((k : Int) + 1).toNat = k + 1 := by omega
        simp only [Int.toNat_natCast] at hS
        simp only [e, List.range_succ, List.map_append, sumInOrder, List.foldl_append,
          List.map_cons, List.map_nil, List.foldl_cons, List.foldl_nil, hcell]
        rw [hS]; rfl)
  obtain ⟨⟨arr, s⟩, h1, hW, hS⟩ := this
  simp only [hw] at hW hS h1
  refine ⟨arr, ?_, hW⟩
  simp only [gaussFill, htd]
  rw [h1, hS]

/-- The second pass succeeds and multiplies every cell by `norm_const`. -/
theorem gaussScale_spec {F : Type} (ops : FilterOps F) (arr1 : List F) (f_sz : Int)
    (norm_const : F) (val : Nat → F) (hpos : 0 < f_sz) (hodd : f_sz % 2 = 1)
    (hlen : f_sz * f_sz ≤ (arr1.length : Int))
    (hval : ∀ i : Nat, (i : Int) < f_sz * f_sz → arr1[i]? = some (val i)) :
    ∃ arr, gaussScale ops arr1 f_sz norm_const = some arr ∧
      Written (fun i => some (ops.mul (val i) norm_const)) arr1 (f_sz * f_sz) arr := by
  have htd : f_sz.tdiv 2 = f_sz / 2 := Int.tdiv_eq_ediv (by omega) (by decide)
  have hw : f_sz / 2 + 1 - -(f_sz / 2) = f_sz := by omega
  have := square_inv
    (fun k (st : List F) => Written (fun i => some (ops.mul (val i) norm_const)) arr1 k st)
    (fun arr r c => do
      let a ← rd arr ((r + f_sz / 2) * f_sz + (c + f_sz / 2))
      wr arr ((r + f_sz / 2) * f_sz + (c + f_sz / 2)) (ops.mul a norm_const))
    (-(f_sz / 2)) (f_sz / 2 + 1) (by omega) arr1 (written_zero _ _)
    (by
      intro r c arr hr0 hr1 hc0 hc1 hW
      simp only [hw, sub_neg_eq_add] at hW ⊢
      obtain ⟨hk0, hk1⟩ := raster_lt f_sz f_sz (r + f_sz / 2) (c + f_sz / 2) (by omega)
        (by omega) (by omega) (by omega)
      obtain ⟨k, hk⟩ := Int.eq_ofNat_of_zero_le hk0
      rw [hk] at hW hk1 ⊢
      have hlt : k < arr.length := by rw [hW.1]; omega
      have hcur : arr[k]? = some (val k) := by
        rw [(hW.2 k).2 (le_refl _)]; exact hval k hk1
      have hget : arr[k] = val k := by
        rw [List.getElem?_eq_getElem hlt] at hcur
        exact Option.some.inj hcur
      obtain ⟨w1, W1⟩ := written_step _ arr1 arr k (ops.mul (val k) norm_const) hW
        (by omega) rfl
      refine ⟨_, ?_, W1⟩
      simp [rd_of_lt arr k hlt, hget, w1])
  obtain ⟨arr, h1, hW⟩ := this
  simp only [hw] at hW
  refine ⟨arr, ?_, hW⟩
  simp only [gaussScale, htd]
  exact h1

/-- Over the reals the weight of the offsets `(r, c)` is `exp(-(r^2 + c^2) / (2 sigma^2))`. -/
theorem gaussWeight_real (f_sigma : ℝ) (r c : Int) :
    gaussWeight (exactFilterOps ℝ Real.exp) f_sigma r c =
      Real.exp (-(((r ^ 2 + c ^ 2 : Int) : ℝ)) / (2 * f_sigma ^ 2)) := by
  have e1 : r * r + c * c = r ^ 2 + c ^ 2 := by ring
  have e2 : (2 : ℝ) * f_sigma * f_sigma = 2 * f_sigma ^ 2 := by ring
  simp only [gaussWeight, e1]
  show Real.exp (-(((r ^ 2 + c ^ 2 : Int) : ℝ)) / (((2 : Int) : ℝ) * f_sigma * f_sigma)) = _
  rw [Int.cast_ofNat, e2]

/-- The cell weights listed by index are the offset weights listed over the footprint. -/
theorem map_cellWeight_range {F : Type} (ops : FilterOps F) (f_sz : Int) (f_sigma : F)
    (hpos : 0 < f_sz) (hodd : f_sz % 2 = 1) :
    (List.range (f_sz * f_sz).toNat).map (cellWeight ops f_sz f_sigma) =
      (footprint f_sz).map (fun d => gaussWeight ops f_sigma d.1 d.2) := by
  rw [← footprint_indices f_sz hpos hodd, List.map_map]
  apply List.map_congr_left
  intro d hd
  obtain ⟨h1, h2⟩ := mem_footprint f_sz d hd
  obtain ⟨hk0, hk1⟩ := raster_lt f_sz f_sz (d.1 + f_sz / 2) (d.2 + f_sz / 2) (by omega)
    (by omega) (by omega) (by omega)
  have hdiv : ((d.1 + f_sz / 2) * f_sz + (d.2 + f_sz / 2)) / f_sz = d.1 + f_sz / 2 := by
    rw [Int.add_comm, Int.add_mul_ediv_right _ _ (by omega),
      Int.ediv_eq_zero_of_lt (by omega) (by omega), zero_add]
  have hmod : ((d.1 + f_sz / 2) * f_sz + (d.2 + f_sz / 2)) % f_sz = d.2 + f_sz / 2 := by
    rw [Int.add_comm, Int.add_mul_emod_self, Int.emod_eq_of_lt (by omega) (by omega)]
  simp only [Function.comp, cellWeight, Int.toNat_of_nonneg hk0, hdiv, hmod,
    add_sub_cancel_right]

/-- C7: read over the reals, for an odd positive `f_sz`, a positive `f_sigma` and a buffer of
`f_sz*f_sz` cells, `gaussian_blur_filter` succeeds and the weights it leaves in `arr` sum to
exactly 1: the cell of the offsets `(r, c)` holds `exp(-(r^2+c^2)/(2*f_sigma^2))` divided by
the sum `S` of those exponentials over the footprint `[-f_sz/2, f_sz/2]^2`, and `S > 0`. -/
theorem C7_gaussian_weights_sum_one (arr0 : List ℝ) (f_sz : Int) (f_sigma : ℝ)
    (hpos : 0 < f_sz) (hodd : f_sz % 2 = 1) (hsig : 0 < f_sigma)
    (hlen : (arr0.length : Int) = f_sz * f_sz) :
    ∃ arr, gaussian_blur_filter (exactFilterOps ℝ Real.exp) arr0 f_sz f_sigma = some arr ∧
      arr.length = arr0.length ∧ arr.sum = 1 ∧
      ∃ S : ℝ, S = ((footprint f_sz).map (fun d =>
          Real.exp (-(((d.1 ^ 2 + d.2 ^ 2 : Int) : ℝ)) / (2 * f_sigma ^ 2)))).sum ∧
        0 < S ∧ 2 * f_sigma ^ 2 ≠ 0 ∧
        ∀ r c : Int, -(f_sz / 2) ≤ r → r ≤ f_sz / 2 → -(f_sz / 2) ≤ c → c ≤ f_sz / 2 →
          rd arr ((r + f_sz / 2) * f_sz + (c + f_sz / 2)) =
            some (Real.exp (-(((r ^ 2 + c ^ 2 : Int) : ℝ)) / (2 * f_sigma ^ 2)) / S) := by
  obtain ⟨arr1, h1, hW1⟩ := gaussFill_spec (exactFilterOps ℝ Real.exp) arr0 f_sz f_sigma hpos
    hodd (le_of_eq hlen.symm)
  obtain ⟨arr, h2, hW2⟩ := gaussScale_spec (exactFilterOps ℝ Real.exp) arr1 f_sz
    ((exactFilterOps ℝ Real.exp).div (exactFilterOps ℝ Real.exp).one
      (sumInOrder (exactFilterOps ℝ Real.exp).toFloatOps
        ((List.range (f_sz * f_sz).toNat).map
          (cellWeight (exactFilterOps ℝ Real.exp) f_sz f_sigma))))
    (cellWeight (exactFilterOps ℝ Real.exp) f_sz f_sigma) hpos hodd
    (by rw [hW1.1]; exact le_of_eq hlen.symm) (fun i hi => (hW1.2 i).1 hi)
  have hsumS : sumInOrder (exactFilterOps ℝ Real.exp).toFloatOps
      ((List.range (f_sz * f_sz).toNat).map
        (cellWeight (exactFilterOps ℝ Real.exp) f_sz f_sigma)) =
      ((footprint f_sz).map (fun d =>
          Real.exp (-(((d.1 ^ 2 + d.2 ^ 2 : Int) : ℝ)) / (2 * f_sigma ^ 2)))).sum := by
    rw [map_cellWeight_range _ f_sz f_sigma hpos hodd]
    show sumInOrder (exactOps ℝ) _ = _
    rw [sumInOrder_exact]
    simp only [gaussWeight_real]
  rw [hsumS] at h1 h2 hW2
  generalize hS : ((footprint f_sz).map (fun d =>
          Real.exp (-(((d.1 ^ 2 + d.2 ^ 2 : Int) : ℝ)) / (2 * f_sigma ^ 2)))).sum = S
    at h1 h2 hW2
  have hn : (f_sz * f_sz).toNat = arr0.length := by omega
  have hn1 : 0 < f_sz * f_sz := mul_pos hpos hpos
  have hSpos : 0 < S := by
    rw [← hS]
    apply List.sum_pos
    · intro x hx
      simp only [List.mem_map] at hx
      obtain ⟨d, _, rfl⟩ := hx
      exact Real.exp_pos _
    · intro hnil
      have := congrArg List.length hnil
      rw [List.length_map, ← List.length_map (footprint f_sz) (fun d =>
        ((d.1 + f_sz / 2) * f_sz + (d.2 + f_sz / 2)).toNat),
        footprint_indices f_sz hpos hodd, List.length_range] at this
      simp only [List.length_nil] at this
      omega
  have hcells : ∀ i : Nat, (i : Int) < f_sz * f_sz →
      arr[i]? = some (cellWeight (exactFilterOps ℝ Real.exp) f_sz f_sigma i / S) := by
    intro i hi
    rw [(hW2.2 i).1 hi]
    show some (cellWeight (exactFilterOps ℝ Real.exp) f_sz f_sigma i * (1 / S)) = _
    rw [mul_one_div]
  have hlenarr : arr.length = arr0.length := by rw [hW2.1, hW1.1]
  have harr : arr = (List.range (f_sz * f_sz).toNat).map
      (fun i => cellWeight (exactFilterOps ℝ Real.exp) f_sz f_sigma i / S) := by
    apply List.ext_getElem?
    intro i
    by_cases hi : (i : Int) < f_sz * f_sz
    · have hi2 : i < (f_sz * f_sz).toNat := by omega
      rw [hcells i hi, List.getElem?_map, List.getElem?_range hi2]
      rfl
    · have hi2 : (f_sz * f_sz).toNat ≤ i := by omega
      rw [List.getElem?_eq_none (by rw [hlenarr]; omega),
        List.getElem?_eq_none (by simp; omega)]
  refine ⟨arr, by simp [gaussian_blur_filter, h1, h2], hlenarr, ?_, S, rfl, hSpos, ?_, ?_⟩
  · have hdiv : (fun i => cellWeight (exactFilterOps ℝ Real.exp) f_sz f_sigma i / S) =
        (fun i => cellWeight (exactFilterOps ℝ Real.exp) f_sz f_sigma i * S⁻¹) := by
      funext i; rw [div_eq_mul_inv]
    rw [harr, hdiv, List.sum_map_mul_right, map_cellWeight_range _ f_sz f_sigma hpos hodd]
    simp only [gaussWeight_real]
    rw [hS]
    exact mul_inv_cancel₀ (ne_of_gt hSpos)
  · positivity
  · intro r c hr0 hr1 hc0 hc1
    obtain ⟨hk0, hk1⟩ := raster_lt f_sz f_sz (r + f_sz / 2) (c + f_sz / 2) (by omega)
      (by omega) (by omega) (by omega)
    obtain ⟨k, hk⟩ := Int.eq_ofNat_of_zero_le hk0
    have hdiv : (k : Int) / f_sz = r + f_sz / 2 := by
      rw [← hk, Int.add_comm, Int.add_mul_ediv_right _ _ (by omega),
        Int.ediv_eq_zero_of_lt (by omega) (by omega), zero_add]
    have hmod : (k : Int) % f_sz = c + f_sz / 2 := by
      rw [← hk, Int.add_comm, Int.add_mul_emod_self, Int.emod_eq_of_lt (by omega) (by omega)]
    rw [hk] at hk1 ⊢
    have h3 := hcells k hk1
    simp only [cellWeight, hdiv, hmod, add_sub_cancel_right, gaussWeight_real] at h3
    simpa [rd] using h3

/-- C7 witness: a 3 x 3 filter with spread 2. -/
theorem C7_gaussian_weights_sum_one_witness :
    ((0 : Int) < 3 ∧ (3 : Int) % 2 = 1 ∧ (0 : ℝ) < 2) ∧
    ∃ arr, gaussian_blur_filter (exactFilterOps ℝ Real.exp) (List.replicate 9 0) 3 2
        = some arr ∧ arr.length = 9 ∧ arr.sum = 1 := by
  obtain ⟨arr, h1, h2, h3, _⟩ := C7_gaussian_weights_sum_one (List.replicate 9 0) 3 2
    (by decide) (by decide) (by norm_num) (by simp)
  exact ⟨⟨by decide, by decide, by norm_num⟩, arr, h1, by simpa using h2, h3⟩

/-! ## Equivalence checker: what the comparison sees -/

theorem intRange_append (lo m hi : Int) (h1 : lo ≤ m) (h2 : m ≤ hi) :
    intRange lo hi = intRange lo m ++ intRange m hi := by
  have e : (hi - lo).toNat = (m - lo).toNat + (hi - m).toNat := by omega
  simp only [intRange, e, List.range_add, List.map_append, List.map_map]
  congr 1
  apply List.map_congr_left
  intro k _
  simp only [Function.comp]
  push_cast
  rw [Int.toNat_of_nonneg (by omega)]
  ring

theorem intRange_cons (i hi : Int) (h : i < hi) : intRange i hi = i :: intRange (i + 1) hi := by
  have e : (hi - i).toNat = (hi - (i + 1)).toNat + 1 := by omega
  simp only [intRange, e, List.range_succ_eq_map, List.map_cons, List.map_map]
  refine congrArg₂ _ (by simp) ?_
  apply List.map_congr_left
  intro k _
  simp only [Function.comp]
  push_cast
  ring

/-- The literal bound is exceeded by the promoted difference exactly when the reference byte
is the larger one. -/
theorem tolerance_lt_iff (a b : Nat) :
    tolerance < ((((a : Int) - (b : Int) : Int)) : ℚ) ↔ b < a := by
  constructor
  · intro h
    by_contra hc
    have h1 : ((a : Int) - (b : Int) : Int) ≤ 0 := by omega
    have h2 : ((((a : Int) - (b : Int) : Int)) : ℚ) ≤ 0 := by exact_mod_cast h1
    have h3 : (0 : ℚ) < tolerance := by norm_num [tolerance]
    linarith
  · intro h
    have h1 : (1 : Int) ≤ (a : Int) - (b : Int) := by omega
    have h2 : (1 : ℚ) ≤ ((((a : Int) - (b : Int) : Int)) : ℚ) := by exact_mod_cast h1
    have h3 : tolerance < 1 := by norm_num [tolerance]
    linarith

/-- The loop runs to its end over positions where the reference byte is not the larger. -/
theorem checkApproxFrom_pass (ref gpu : List Nat) (l : List Int)
    (hl : ∀ i ∈ l, 0 ≤ i ∧ i < (ref.length : Int) ∧ i < (gpu.length : Int) ∧
      ref.getD i.toNat 0 ≤ gpu.getD i.toNat 0) (rest : List Int) :
    checkApproxFrom tolerance ref gpu (l ++ rest) = checkApproxFrom tolerance ref gpu rest := by
  induction l with
  | nil => rfl
  | cons i l ih =>
    obtain ⟨h0, h1, h2, h3⟩ := hl i (List.mem_cons_self _ _)
    have hnot : ¬ tolerance < ((((ref.getD i.toNat 0 : Nat) : Int) -
        ((gpu.getD i.toNat 0 : Nat) : Int) : Int) : ℚ) := by
      rw [tolerance_lt_iff]; omega
    simp only [List.cons_append, checkApproxFrom, rd_getD ref i 0 h0 h1, rd_getD gpu i 0 h0 h2,
      hnot, if_false]
    exact ih (fun j hj => hl j (List.mem_cons_of_mem _ hj))

/-- The loop stops at a position where the reference byte is the larger, whatever follows. -/
theorem checkApproxFrom_stop (ref gpu : List Nat) (i : Int) (rest : List Int) (h0 : 0 ≤ i)
    (h1 : i < (ref.length : Int)) (h2 : i < (gpu.length : Int))
    (h3 : gpu.getD i.toNat 0 < ref.getD i.toNat 0) :
    checkApproxFrom tolerance ref gpu (i :: rest) =
      some (Except.error ⟨i, ref.getD i.toNat 0, gpu.getD i.toNat 0⟩) := by
  have hyes : tolerance < ((((ref.getD i.toNat 0 : Nat) : Int) -
      ((gpu.getD i.toNat 0 : Nat) : Int) : Int) : ℚ) := by
    rw [tolerance_lt_iff]; exact h3
  simp only [checkApproxFrom, rd_getD ref i 0 h0 h1, rd_getD gpu i 0 h0 h2, hyes, if_true]

/-- The first position where the reference byte is the larger is the one reported. -/
theorem checkApprox_first (ref gpu : List Nat) (n i : Nat) (hi : i < n) (hr : i < ref.length)
    (hg : i < gpu.length) (hbad : gpu.getD i 0 < ref.getD i 0)
    (hbefore : ∀ j, j < i → ref.getD j 0 ≤ gpu.getD j 0) :
    checkApproxResults ref gpu n =
      some (Except.error ⟨(i : Int), ref.getD i 0, gpu.getD i 0⟩) := by
  unfold checkApproxResults checkApproxResultsTol
  rw [intRange_append 0 (i : Int) (n : Int) (by omega) (by omega),
    intRange_cons (i : Int) (n : Int) (by omega), checkApproxFrom_pass]
  · have := checkApproxFrom_stop ref gpu (i : Int) (intRange ((i : Int) + 1) (n : Int))
      (by omega) (by omega) (by omega) (by simpa using hbad)
    simpa using this
  · intro j hj
    rw [mem_intRange] at hj
    refine ⟨by omega, by omega, by omega, ?_⟩
    have := hbefore j.toNat (by omega)
    exact this

theorem getD_take_lt {α : Type} (l : List α) (k j : Nat) (d : α) (h : j < k) :
    (l.take k).getD j d = l.getD j d := by
  simp only [List.getD_eq_getElem?_getD, List.getElem?_take, h, if_true]

/-- C16: for buffers holding at least `n` bytes, `checkApproxResults(ref, gpu, n)` exits with
an error report if and only if some index `i < n` has `ref[i]` strictly greater than
`gpu[i]` (the test is the promoted difference `ref[i] - gpu[i] > 1e-5`, without absolute
value), and returns normally if and only if there is none. The report carries the least such
index with `ref[i]` and `gpu[i]`, and no later index is examined: the same report results
when both buffers are cut off right after that index. -/
theorem C16_check_fails_iff_ref_greater (ref gpu : List Nat) (n : Nat) (hr : n ≤ ref.length)
    (hg : n ≤ gpu.length) :
    ((∃ m, checkApproxResults ref gpu n = some (Except.error m)) ↔
      ∃ i, i < n ∧ gpu.getD i 0 < ref.getD i 0) ∧
    (checkApproxResults ref gpu n = some (Except.ok ()) ↔
      ∀ i, i < n → ref.getD i 0 ≤ gpu.getD i 0) ∧
    (∀ i, i < n → gpu.getD i 0 < ref.getD i 0 →
      (∀ j, j < i → ref.getD j 0 ≤ gpu.getD j 0) →
      checkApproxResults ref gpu n =
        some (Except.error ⟨(i : Int), ref.getD i 0, gpu.getD i 0⟩) ∧
      checkApproxResults (ref.take (i + 1)) (gpu.take (i + 1)) n =
        some (Except.error ⟨(i : Int), ref.getD i 0, gpu.getD i 0⟩)) := by
  have hpass : (∀ i, i < n → ref.getD i 0 ≤ gpu.getD i 0) →
      checkApproxResults ref gpu n = some (Except.ok ()) := by
    intro hall
    unfold checkApproxResults checkApproxResultsTol
    have := checkApproxFrom_pass ref gpu (intRange 0 (n : Int)) (fun i hi => by
      rw [mem_intRange] at hi
      exact ⟨by omega, by omega, by omega, hall i.toNat (by omega)⟩) []
    rw [List.append_nil] at this
    rw [this]; rfl
  have hfirst : ∀ i, i < n → gpu.getD i 0 < ref.getD i 0 →
      (∀ j, j < i → ref.getD j 0 ≤ gpu.getD j 0) →
      checkApproxResults ref gpu n =
        some (Except.error ⟨(i : Int), ref.getD i 0, gpu.getD i 0⟩) :=
    fun i hi hbad hbefore =>
      checkApprox_first ref gpu n i hi (by omega) (by omega) hbad hbefore
  have hfail : (∃ i, i < n ∧ gpu.getD i 0 < ref.getD i 0) →
      ∃ m, checkApproxResults ref gpu n = some (Except.error m) := by
    intro hex
    classical
    have hmin := Nat.find_spec hex
    have hleast := fun j (hj : j < Nat.find hex) => Nat.find_min hex hj
    refine ⟨_, hfirst (Nat.find hex) hmin.1 hmin.2 (fun j hj => ?_)⟩
    have := hleast j hj
    have hjn : j < n := by omega
    by_contra hc
    exact this ⟨hjn, by omega⟩
  refine ⟨⟨fun ⟨m, hm⟩ => ?_, hfail⟩, ⟨fun hok => ?_, hpass⟩, fun i hi hbad hbefore => ⟨hfirst i hi hbad hbefore, ?_⟩⟩
  · by_contra hno
    have hall : ∀ i, i < n → ref.getD i 0 ≤ gpu.getD i 0 := by
      intro i hi
      by_contra hc
      exact hno ⟨i, hi, by omega⟩
    rw [hpass hall] at hm
    exact absurd hm (by simp)
  · intro i hi
    by_contra hc
    obtain ⟨m, hm⟩ := hfail ⟨i, hi, by omega⟩
    rw [hok] at hm
    exact absurd hm (by simp)
  · have := checkApprox_first (ref.take (i + 1)) (gpu.take (i + 1)) n i hi
      (by rw [List.length_take]; omega) (by rw [List.length_take]; omega)
      (by rw [getD_take_lt _ _ _ _ (by omega), getD_take_lt _ _ _ _ (by omega)]; exact hbad)
      (fun j hj => by
        rw [getD_take_lt _ _ _ _ (by omega), getD_take_lt _ _ _ _ (by omega)]
        exact hbefore j hj)
    rw [getD_take_lt _ _ _ _ (by omega), getD_take_lt _ _ _ _ (by omega)] at this
    exact this

/-- C16 witness: the second of three positions is the first with a larger reference byte. -/
theorem C16_check_fails_iff_ref_greater_witness :
    (3 ≤ ([1, 9, 9] : List Nat).length ∧ 3 ≤ ([5, 2, 3] : List Nat).length) ∧
    checkApproxResults [1, 9, 9] [5, 2, 3] 3 = some (Except.error ⟨1, 9, 2⟩) ∧
    checkApproxResults [1, 9] [5, 2] 3 = some (Except.error ⟨1, 9, 2⟩) := by
  have h := (C16_check_fails_iff_ref_greater [1, 9, 9] [5, 2, 3] 3 (by decide) (by decide)).2.2
    1 (by decide) (by decide) (by decide)
  exact ⟨⟨by decide, by decide⟩, h.1, h.2⟩


/-- The two outcomes of `checkApproxResults` on buffers of at least `n` bytes: a normal return
when no reference byte is the larger, an error report at the first that is. -/
theorem checkApprox_cases (ref gpu : List Nat) (n : Nat) (hr : n ≤ ref.length)
    (hg : n ≤ gpu.length) :
    ((∀ i, i < n → ref.getD i 0 ≤ gpu.getD i 0) ∧
        checkApproxResults ref gpu n = some (Except.ok ())) ∨
      ∃ i, i < n ∧ gpu.getD i 0 < ref.getD i 0 ∧ (∀ j, j < i → ref.getD j 0 ≤ gpu.getD j 0) ∧
        checkApproxResults ref gpu n =
          some (Except.error ⟨(i : Int), ref.getD i 0, gpu.getD i 0⟩) := by
  by_cases hex : ∃ i, i < n ∧ gpu.getD i 0 < ref.getD i 0
  · right
    classical
    have hmin := Nat.find_spec hex
    have hbefore : ∀ j, j < Nat.find hex → ref.getD j 0 ≤ gpu.getD j 0 := by
      intro j hj
      have := Nat.find_min hex hj
      by_contra hc
      exact this ⟨by omega, by omega⟩
    exact ⟨Nat.find hex, hmin.1, hmin.2, hbefore,
      checkApprox_first ref gpu n _ hmin.1 (by omega) (by omega) hmin.2 hbefore⟩
  · left
    have hall : ∀ i, i < n → ref.getD i 0 ≤ gpu.getD i 0 := by
      intro i hi
      by_contra hc
      exact hex ⟨i, hi, by omega⟩
    refine ⟨hall, ?_⟩
    unfold checkApproxResults checkApproxResultsTol
    have := checkApproxFrom_pass ref gpu (intRange 0 (n : Int)) (fun i hi => by
      rw [mem_intRange] at hi
      exact ⟨by omega, by omega, by omega, hall i.toNat (by omega)⟩) []
    rw [List.append_nil] at this
    rw [this]; rfl

/-- The outcome of the loop depends on the candidate only through the bytes it reads. -/
theorem checkApproxFrom_congr (tol : ℚ) (ref gpu gpu2 : List Nat) (l : List Int)
    (h : ∀ i ∈ l, rd gpu i = rd gpu2 i) :
    checkApproxFrom tol ref gpu l = checkApproxFrom tol ref gpu2 l := by
  induction l with
  | nil => rfl
  | cons i rest ih =>
    simp only [checkApproxFrom, h i (List.mem_cons_self _ _),
      ih (fun j hj => h j (List.mem_cons_of_mem _ hj))]

/-- C11 (as amended): `checkResult` makes no length check and has no buffer-length error. It
hands the reference's `rows*cols*channels` to `checkApproxResults`, so when the candidate
holds at least that many samples, the same number or more, the first `rows*cols*channels`
samples of the two buffers are compared exactly as for equal lengths: the outcome is a
normal return or a sample mismatch, that of the reference against the candidate cut to the
reference's length. -/
theorem C11_no_length_check (ref_img out_img : Mat) (eps : ℚ)
    (href : ref_img.data.length = ref_img.rows * ref_img.cols * ref_img.channels)
    (hout : ref_img.data.length ≤ out_img.data.length) :
    checkResult ref_img out_img eps =
        checkApproxResults ref_img.data (out_img.data.take ref_img.data.length)
          ref_img.data.length ∧
      (checkResult ref_img out_img eps = some (Except.ok ()) ∨
        ∃ m, checkResult ref_img out_img eps = some (Except.error m)) := by
  have e : checkResult ref_img out_img eps =
      checkApproxResults ref_img.data out_img.data ref_img.data.length := by
    simp only [checkResult, href]
  have hcases := checkApprox_cases ref_img.data out_img.data ref_img.data.length (le_refl _)
    hout
  refine ⟨?_, ?_⟩
  · rw [e]
    unfold checkApproxResults checkApproxResultsTol
    apply checkApproxFrom_congr
    intro i hi
    rw [mem_intRange] at hi
    have h1 : i.toNat < ref_img.data.length := by omega
    simp only [rd, hi.1, if_true, List.getElem?_take, h1]
  · rw [e]
    rcases hcases with ⟨_, h⟩ | ⟨i, _, _, _, h⟩
    · exact Or.inl h
    · exact Or.inr ⟨_, h⟩

/-- C11 witness: a 1 x 2 reference against a 1 x 3 candidate. -/
theorem C11_no_length_check_witness :
    (([4, 5] : List Nat).length = 1 * 2 * 1 ∧
      ([4, 5] : List Nat).length ≤ ([4, 6, 0] : List Nat).length) ∧
    checkResult ⟨1, 2, 1, [4, 5]⟩ ⟨1, 3, 1, [4, 6, 0]⟩ (1 / 100000) =
      checkApproxResults [4, 5] (([4, 6, 0] : List Nat).take 2) 2 :=
  ⟨⟨by decide, by decide⟩,
    (C11_no_length_check ⟨1, 2, 1, [4, 5]⟩ ⟨1, 3, 1, [4, 6, 0]⟩ (1 / 100000) (by decide)
      (by decide)).1⟩

/-- C11 counterexample: a reference of one sample and a candidate of two have different
lengths; `checkResult` reports no length error, compares the first sample and returns
normally, and with the reference sample 9 it reports the sample mismatch at position 0. -/
theorem C11_counterexample :
    ([1] : List Nat).length ≠ ([1, 2] : List Nat).length ∧
    checkResult ⟨1, 1, 1, [1]⟩ ⟨1, 2, 1, [1, 2]⟩ (1 / 100000) = some (Except.ok ()) ∧
    checkResult ⟨1, 1, 1, [9]⟩ ⟨1, 2, 1, [1, 2]⟩ (1 / 100000) =
      some (Except.error ⟨0, 9, 1⟩) := by
  refine ⟨by decide, ?_, ?_⟩
  · have h := (checkApprox_cases [1] [1, 2] 1 (by decide) (by decide))
    rcases h with ⟨_, h⟩ | ⟨i, hi, hbad, _, _⟩
    · exact h
    · have : i = 0 := by omega
      subst this
      exact absurd hbad (by decide)
  · exact checkApprox_first [9] [1, 2] 1 0 (by decide) (by decide) (by decide) (by decide)
      (fun j hj => absurd hj (by omega))

/-! ## Channel order through the serial path -/

/-- The image after splitting and recombining: pixel `(x, y, z, w)` becomes
`(z, y, x, 255)`. -/
theorem separateThenRecombine_spec (imrgba : List uchar4) (r0 g0 b0 : List Nat)
    (orgba0 : List uchar4) (rows cols : Int) (hr : 0 ≤ rows) (hc : 0 ≤ cols)
    (hi : rows * cols ≤ (imrgba.length : Int)) (hr0 : rows * cols ≤ (r0.length : Int))
    (hg0 : rows * cols ≤ (g0.length : Int)) (hb0 : rows * cols ≤ (b0.length : Int))
    (ho : rows * cols ≤ (orgba0.length : Int)) :
    ∃ orgba, separateThenRecombine imrgba r0 g0 b0 orgba0 rows cols = some orgba ∧
      Written (fun i => imrgba[i]?.map (fun p => make_uchar4 p.z p.y p.x 255)) orgba0
        (rows * cols) orgba := by
  obtain ⟨r, g, b, hs, hR, hG, hB⟩ := separate_spec imrgba r0 g0 b0 rows cols hr hc hi hr0 hg0 hb0
  obtain ⟨orgba, ho1, hO⟩ := recombine_spec r g b orgba0 rows cols hr hc
    (by rw [hR.1]; exact hr0) (by rw [hG.1]; exact hg0) (by rw [hB.1]; exact hb0) ho
  refine ⟨orgba, by simp [separateThenRecombine, hs, ho1], hO.1, fun i => ⟨fun hlt => ?_,
    (hO.2 i).2⟩⟩
  have hii : i < imrgba.length := by omega
  have h1 := (hR.2 i).1 hlt
  have h2 := (hG.2 i).1 hlt
  have h3 := (hB.2 i).1 hlt
  rw [(hO.2 i).1 hlt]
  simp only [List.getElem?_eq_getElem hii, Option.map_some'] at h1 h2 h3 ⊢
  simp [List.getD_eq_getElem?_getD, h1, h2, h3]

/-- C17: `serialRecombineChannels` after `serialSeparateChannels` maps each input pixel
`(x, y, z, w)` to `(z, y, x, 255)`: the first and third channels are exchanged, the second
is kept. Applied a second time, to the image so obtained, it gives `(x, y, z, 255)`: the
three colour channels of every pixel are back at their values and positions. -/
theorem C17_swap_twice_restores (imrgba : List uchar4) (r0 g0 b0 r1 g1 b1 : List Nat)
    (orgba0 orgba1 : List uchar4) (rows cols : Int) (hr : 0 ≤ rows) (hc : 0 ≤ cols)
    (hi : rows * cols ≤ (imrgba.length : Int)) (hr0 : rows * cols ≤ (r0.length : Int))
    (hg0 : rows * cols ≤ (g0.length : Int)) (hb0 : rows * cols ≤ (b0.length : Int))
    (ho0 : rows * cols ≤ (orgba0.length : Int)) (hr1 : rows * cols ≤ (r1.length : Int))
    (hg1 : rows * cols ≤ (g1.length : Int)) (hb1 : rows * cols ≤ (b1.length : Int))
    (ho1 : rows * cols ≤ (orgba1.length : Int)) :
    ∃ once twice,
      separateThenRecombine imrgba r0 g0 b0 orgba0 rows cols = some once ∧
      separateThenRecombine once r1 g1 b1 orgba1 rows cols = some twice ∧
      ∀ i : Nat, (i : Int) < rows * cols →
        ∃ p, imrgba[i]? = some p ∧ once[i]? = some (make_uchar4 p.z p.y p.x 255) ∧
          twice[i]? = some (make_uchar4 p.x p.y p.z 255) := by
  obtain ⟨once, h1, hW1⟩ := separateThenRecombine_spec imrgba r0 g0 b0 orgba0 rows cols hr hc hi
    hr0 hg0 hb0 ho0
  obtain ⟨twice, h2, hW2⟩ := separateThenRecombine_spec once r1 g1 b1 orgba1 rows cols hr hc
    (by rw [hW1.1]; exact ho0) hr1 hg1 hb1 ho1
  refine ⟨once, twice, h1, h2, fun i hlt => ?_⟩
  have hii : i < imrgba.length := by omega
  have e1 := (hW1.2 i).1 hlt
  have e2 := (hW2.2 i).1 hlt
  simp only [List.getElem?_eq_getElem hii, Option.map_some'] at e1
  simp only [e1, Option.map_some'] at e2
  exact ⟨imrgba[i], List.getElem?_eq_getElem hii, e1, by simpa [make_uchar4] using e2⟩

/-- C17 witness: a 1 x 2 image through the serial path twice. -/
theorem C17_swap_twice_restores_witness :
    ((0 : Int) ≤ 1 ∧ (0 : Int) ≤ 2) ∧
    ∃ once twice,
      separateThenRecombine [⟨1, 2, 3, 4⟩, ⟨5, 6, 7, 8⟩] [0, 0] [0, 0] [0, 0]
        [⟨0, 0, 0, 0⟩, ⟨0, 0, 0, 0⟩] 1 2 = some once ∧
      separateThenRecombine once [0, 0] [0, 0] [0, 0] [⟨0, 0, 0, 0⟩, ⟨0, 0, 0, 0⟩] 1 2
        = some twice ∧
      once[1]? = some ⟨7, 6, 5, 255⟩ ∧ twice[1]? = some ⟨5, 6, 7, 255⟩ := by
  obtain ⟨once, twice, h1, h2, h3⟩ := C17_swap_twice_restores [⟨1, 2, 3, 4⟩, ⟨5, 6, 7, 8⟩]
    [0, 0] [0, 0] [0, 0] [0, 0] [0, 0] [0, 0] [⟨0, 0, 0, 0⟩, ⟨0, 0, 0, 0⟩]
    [⟨0, 0, 0, 0⟩, ⟨0, 0, 0, 0⟩] 1 2 (by decide) (by decide) (by decide) (by decide)
    (by decide) (by decide) (by decide) (by decide) (by decide) (by decide) (by decide)
  obtain ⟨p, hp, ho, ht⟩ := h3 1 (by decide)
  have hp2 : p = ⟨5, 6, 7, 8⟩ := by
    have : some p = some (⟨5, 6, 7, 8⟩ : uchar4) := by rw [← hp]; rfl
    exact Option.some.inj this
  subst hp2
  exact ⟨⟨by decide, by decide⟩, once, twice, h1, h2, ho, ht⟩

/-! ## Convolution engine: locality -/

/-- The footprint sum at a pixel reads the input only inside the footprint of the pixel. -/
theorem footprintSum_congr {F : Type} (ops : FloatOps F) (in1 in2 : List Nat)
    (rows cols : Int) (filter : List F) (filterWidth y x : Int)
    (h1 : rows * cols ≤ (in1.length : Int)) (h2 : rows * cols ≤ (in2.length : Int))
    (hagree : ∀ dy dx : Int, -(filterWidth / 2) ≤ dy → dy ≤ filterWidth / 2 →
      -(filterWidth / 2) ≤ dx → dx ≤ filterWidth / 2 →
      0 ≤ y + dy → y + dy < rows → 0 ≤ x + dx → x + dx < cols →
      rd in1 ((y + dy) * cols + (x + dx)) = rd in2 ((y + dy) * cols + (x + dx))) :
    footprintSum ops in1 rows cols filter filterWidth y x =
      footprintSum ops in2 rows cols filter filterWidth y x := by
  unfold footprintSum
  congr 1
  apply List.map_congr_left
  intro d hd
  rw [List.mem_filter] at hd
  obtain ⟨hfp, hin⟩ := hd
  obtain ⟨⟨a1, a2⟩, ⟨a3, a4⟩⟩ := mem_footprint filterWidth d hfp
  simp only [inPlane, decide_eq_true_eq] at hin
  obtain ⟨b1, b2, b3, b4⟩ := hin
  obtain ⟨i0, i1⟩ := raster_lt rows cols (y + d.1) (x + d.2) b1 b2 b3 b4
  have e := hagree d.1 d.2 a1 a2 a3 a4 b1 b2 b3 b4
  rw [rd_getD in1 _ 0 i0 (by omega), rd_getD in2 _ 0 i0 (by omega)] at e
  simp only [tapTerm, Option.some.inj e]

/-- C13: with an odd positive `filterWidth`, the sample `serialGaussianBlur` writes at
`(y, x)` depends only on the filter and on the input samples inside the footprint of
`(y, x)`: two input planes of the same `rows x cols` shape that agree at every in-bounds
position `(y+dy, x+dx)` with `|dy|, |dx| <= filterWidth/2` give the same output sample at
`(y, x)`, whatever the planes hold elsewhere, whatever the output buffers held before and
whatever is computed for the other pixels. -/
theorem C13_blur_local {F : Type} (ops : FloatOps F) (in1 in2 out1 out2 : List Nat)
    (rows cols : Int) (filter : List F) (filterWidth y x : Int) (hr : 0 ≤ rows) (hc : 0 ≤ cols)
    (hpos : 0 < filterWidth) (hodd : filterWidth % 2 = 1)
    (h1 : rows * cols ≤ (in1.length : Int)) (h2 : rows * cols ≤ (in2.length : Int))
    (hf : filterWidth * filterWidth ≤ (filter.length : Int))
    (ho1 : rows * cols ≤ (out1.length : Int)) (ho2 : rows * cols ≤ (out2.length : Int))
    (hy0 : 0 ≤ y) (hy1 : y < rows) (hx0 : 0 ≤ x) (hx1 : x < cols)
    (hagree : ∀ dy dx : Int, -(filterWidth / 2) ≤ dy → dy ≤ filterWidth / 2 →
      -(filterWidth / 2) ≤ dx → dx ≤ filterWidth / 2 →
      0 ≤ y + dy → y + dy < rows → 0 ≤ x + dx → x + dx < cols →
      rd in1 ((y + dy) * cols + (x + dx)) = rd in2 ((y + dy) * cols + (x + dx))) :
    ∃ res1 res2 v,
      serialGaussianBlur ops in1 out1 rows cols filter filterWidth = some res1 ∧
      serialGaussianBlur ops in2 out2 rows cols filter filterWidth = some res2 ∧
      rd res1 (y * cols + x) = some v ∧ rd res2 (y * cols + x) = some v := by
  obtain ⟨res1, e1, hW1⟩ := blur_spec ops in1 out1 rows cols filter filterWidth hr hc hpos hodd
    h1 hf ho1
  obtain ⟨res2, e2, hW2⟩ := blur_spec ops in2 out2 rows cols filter filterWidth hr hc hpos hodd
    h2 hf ho2
  obtain ⟨hk0, hk1⟩ := raster_lt rows cols y x hy0 hy1 hx0 hx1
  obtain ⟨k, hk⟩ := Int.eq_ofNat_of_zero_le hk0
  have hdiv : (k : Int) / cols = y := by
    rw [← hk, Int.add_comm, Int.add_mul_ediv_right _ _ (by omega),
      Int.ediv_eq_zero_of_lt hx0 hx1, zero_add]
  have hmod : (k : Int) % cols = x := by
    rw [← hk, Int.add_comm, Int.add_mul_emod_self, Int.emod_eq_of_lt hx0 hx1]
  rw [hk] at hk1 ⊢
  have a1 := (hW1.2 k).1 hk1
  have a2 := (hW2.2 k).1 hk1
  simp only [hdiv, hmod] at a1 a2
  rw [← footprintSum_congr ops in1 in2 rows cols filter filterWidth y x h1 h2 hagree] at a2
  exact ⟨res1, res2, _, e1, e2, by simpa [rd] using a1, by simpa [rd] using a2⟩

/-- C13 witness: two 1 x 3 planes that differ only at the far end give the same sample at
the first pixel under a filter of width 1. -/
theorem C13_blur_local_witness :
    ((0 : Int) < 1 ∧ (1 : Int) % 2 = 1) ∧
    ∃ res1 res2 v,
      serialGaussianBlur binary32 [7, 8, 9] [0, 0, 0] 1 3 [F32.round 1 1 0] 1 = some res1 ∧
      serialGaussianBlur binary32 [7, 8, 200] [1, 1, 1] 1 3 [F32.round 1 1 0] 1 = some res2 ∧
      rd res1 (0 * 3 + 0) = some v ∧ rd res2 (0 * 3 + 0) = some v :=
  ⟨⟨by decide, by decide⟩,
    C13_blur_local binary32 [7, 8, 9] [7, 8, 200] [0, 0, 0] [1, 1, 1] 1 3 [F32.round 1 1 0] 1
      0 0 (by decide) (by decide) (by decide) (by decide) (by decide) (by decide) (by decide)
      (by decide) (by decide) (by decide) (by decide) (by decide) (by decide)
      (fun dy dx a1 a2 a3 a4 _ _ _ _ => by
        have hy : dy = 0 := by omega
        have hx : dx = 0 := by omega
        subst hy; subst hx
        rfl)⟩

/-! ## Convolution engine: memory safety -/

theorem filterMap_flatMap {α β γ : Type} (f : β → Option γ) (g : α → List β) (l : List α) :
    (l.flatMap g).filterMap f = l.flatMap (fun a => (g a).filterMap f) := by
  induction l with
  | nil => rfl
  | cons a l ih => simp only [List.flatMap_cons, List.filterMap_append, ih]

/-- The row-major positions of a `rows x cols` raster are `0, 1, ..., rows*cols - 1`. -/
theorem raster_positions (rows cols : Int) (hr : 0 ≤ rows) (hc : 0 ≤ cols) :
    (intRange 0 rows).flatMap (fun y => (intRange 0 cols).map (fun x => y * cols + x)) =
      (List.range (rows * cols).toNat).map (fun (k : Nat) => (k : Int)) := by
  obtain ⟨m, rfl⟩ := Int.eq_ofNat_of_zero_le hr
  obtain ⟨n, rfl⟩ := Int.eq_ofNat_of_zero_le hc
  have e : ((m : Int) * (n : Int)).toNat = m * n := by
    rw [← Int.natCast_mul]; exact Int.toNat_natCast _
  rw [e, ← range_flatMap_rows m n]
  simp only [intRange, sub_zero, Int.toNat_natCast, List.flatMap_map, List.map_flatMap,
    List.map_map]
  apply List.flatMap_congr
  intro i _
  apply List.map_congr_left
  intro j _
  simp only [Function.comp]
  push_cast
  ring

/-- The accesses of a pixel hold one write, the last one. -/
theorem pixelAccesses_written (rows cols filterWidth y x : Int) :
    (pixelAccesses rows cols filterWidth y x).filterMap Access.written = [y * cols + x] := by
  have htap : ∀ blurRow blurCol,
      (tapAccesses rows cols filterWidth y x blurRow blurCol).filterMap Access.written = [] := by
    intro blurRow blurCol
    unfold tapAccesses
    simp only []
    split_ifs <;> rfl
  simp only [pixelAccesses, List.filterMap_append, filterMap_flatMap, htap]
  simp [Access.written]

/-- A write is counted in a trace as its index is among the written indices. -/
theorem count_writeOut (l : List Access) (k : Int) :
    l.count (Access.writeOut k) = (l.filterMap Access.written).count k := by
  induction l with
  | nil => rfl
  | cons a l ih =>
    cases a with
    | readIn i => simp [List.count_cons, Access.written, ih]
    | readFilter i => simp [List.count_cons, Access.written, ih]
    | writeOut i =>
      simp only [List.count_cons, Access.written, List.filterMap_cons, ih, beq_iff_eq,
        Access.writeOut.injEq]

/-- Where an access of the trace comes from: a guarded tap of some pixel, or the write of
some pixel. -/
theorem mem_blurAccesses (rows cols filterWidth : Int) (a : Access)
    (h : a ∈ blurAccesses rows cols filterWidth) :
    ∃ y x, (0 ≤ y ∧ y < rows) ∧ (0 ≤ x ∧ x < cols) ∧
      (a = Access.writeOut (y * cols + x) ∨
        ∃ blurRow blurCol,
          (-(filterWidth.tdiv 2) ≤ blurRow ∧ blurRow < filterWidth.tdiv 2 + 1) ∧
          (-(filterWidth.tdiv 2) ≤ blurCol ∧ blurCol < filterWidth.tdiv 2 + 1) ∧
          (0 ≤ y + blurRow ∧ y + blurRow < rows ∧ 0 ≤ x + blurCol ∧ x + blurCol < cols) ∧
          (a = Access.readIn ((y + blurRow) * cols + (x + blurCol)) ∨
            a = Access.readFilter ((blurRow + filterWidth.tdiv 2) * filterWidth +
              (blurCol + filterWidth.tdiv 2)))) := by
  simp only [blurAccesses, List.mem_flatMap, mem_intRange] at h
  obtain ⟨y, hy, x, hx, hp⟩ := h
  refine ⟨y, x, hy, hx, ?_⟩
  simp only [pixelAccesses, List.mem_append, List.mem_flatMap, mem_intRange,
    List.mem_singleton] at hp
  rcases hp with ⟨blurRow, hbr, blurCol, hbc, ht⟩ | hw
  · right
    unfold tapAccesses at ht
    simp only [] at ht
    split_ifs at ht with hg
    · simp only [List.mem_cons, List.mem_singleton, List.not_mem_nil, or_false] at ht
      exact ⟨blurRow, blurCol, hbr, hbc, by omega, ht⟩
    · exact absurd ht (List.not_mem_nil _)
  · left; exact hw

/-- C14: for `rows >= 0`, `cols >= 0` and an odd positive `filterWidth`, every access of
`serialGaussianBlur` is in range: every input index read lies in `[0, rows*cols)`, every
filter index read lies in `[0, filterWidth*filterWidth)`, every output index written lies in
`[0, rows*cols)`, and the output indices written are `0, 1, ..., rows*cols - 1` in this
order, each exactly once. On buffers of exactly these sizes the function therefore runs to
its end. -/
theorem C14_blur_accesses_in_range (rows cols filterWidth : Int) (hr : 0 ≤ rows)
    (hc : 0 ≤ cols) (hpos : 0 < filterWidth) (hodd : filterWidth % 2 = 1) :
    (∀ i, Access.readIn i ∈ blurAccesses rows cols filterWidth → 0 ≤ i ∧ i < rows * cols) ∧
    (∀ i, Access.readFilter i ∈ blurAccesses rows cols filterWidth →
      0 ≤ i ∧ i < filterWidth * filterWidth) ∧
    (∀ i, Access.writeOut i ∈ blurAccesses rows cols filterWidth → 0 ≤ i ∧ i < rows * cols) ∧
    (blurAccesses rows cols filterWidth).filterMap Access.written =
      (List.range (rows * cols).toNat).map (fun (k : Nat) => (k : Int)) ∧
    (∀ k : Int, 0 ≤ k → k < rows * cols →
      (blurAccesses rows cols filterWidth).count (Access.writeOut k) = 1) ∧
    (∀ (F : Type) (ops : FloatOps F) (input out : List Nat) (filter : List F),
      (input.length : Int) = rows * cols → (filter.length : Int) = filterWidth * filterWidth →
      (out.length : Int) = rows * cols →
      ∃ res, serialGaussianBlur ops input out rows cols filter filterWidth = some res ∧
        res.length = out.length) := by
  have htd : filterWidth.tdiv 2 = filterWidth / 2 := Int.tdiv_eq_ediv (by omega) (by decide)
  have hwritten : (blurAccesses rows cols filterWidth).filterMap Access.written =
      (List.range (rows * cols).toNat).map (fun (k : Nat) => (k : Int)) := by
    rw [← raster_positions rows cols hr hc]
    simp only [blurAccesses, filterMap_flatMap, pixelAccesses_written]
    apply List.flatMap_congr
    intro y _
    induction intRange 0 cols with
    | nil => rfl
    | cons x l ih => simp only [List.flatMap_cons, List.map_cons, ih, List.singleton_append]
  refine ⟨fun i hi => ?_, fun i hi => ?_, fun i hi => ?_, hwritten, fun k hk0 hk1 => ?_,
    fun F ops input out filter h1 h2 h3 => ?_⟩
  · obtain ⟨y, x, hy, hx, hw | ⟨br, bc, hbr, hbc, hg, ha | ha⟩⟩ :=
      mem_blurAccesses rows cols filterWidth _ hi
    · exact absurd hw (by simp)
    · rw [Access.readIn.injEq] at ha
      rw [ha]
      exact raster_lt rows cols (y + br) (x + bc) hg.1 hg.2.1 hg.2.2.1 hg.2.2.2
    · exact absurd ha (by simp)
  · obtain ⟨y, x, hy, hx, hw | ⟨br, bc, hbr, hbc, hg, ha | ha⟩⟩ :=
      mem_blurAccesses rows cols filterWidth _ hi
    · exact absurd hw (by simp)
    · exact absurd ha (by simp)
    · rw [Access.readFilter.injEq] at ha
      rw [ha]
      exact raster_lt filterWidth filterWidth (br + filterWidth.tdiv 2)
        (bc + filterWidth.tdiv 2) (by omega) (by omega) (by omega) (by omega)
  · obtain ⟨y, x, hy, hx, hw | ⟨br, bc, hbr, hbc, hg, ha | ha⟩⟩ :=
      mem_blurAccesses rows cols filterWidth _ hi
    · rw [Access.writeOut.injEq] at hw
      rw [hw]
      exact raster_lt rows cols y x hy.1 hy.2 hx.1 hx.2
    · exact absurd ha (by simp)
    · exact absurd ha (by simp)
  · rw [count_writeOut, hwritten]
    apply List.count_eq_one_of_mem
    · exact (List.nodup_range _).map (fun a b h => by exact_mod_cast h)
    · rw [List.mem_map]
      exact ⟨k.toNat, List.mem_range.mpr (by omega), by omega⟩
  · obtain ⟨res, e, hW⟩ := blur_spec ops input out rows cols filter filterWidth hr hc hpos hodd
      (le_of_eq h1.symm) (le_of_eq h2.symm) (le_of_eq h3.symm)
    exact ⟨res, e, hW.1⟩

/-- C14 witness: the trace of a 1 x 2 plane under a filter of width 1. -/
theorem C14_blur_accesses_in_range_witness :
    ((0 : Int) ≤ 1 ∧ (0 : Int) ≤ 2 ∧ (0 : Int) < 1 ∧ (1 : Int) % 2 = 1) ∧
    blurAccesses 1 2 1 =
      [Access.readIn 0, Access.readFilter 0, Access.writeOut 0,
        Access.readIn 1, Access.readFilter 0, Access.writeOut 1] ∧
    (blurAccesses 1 2 1).filterMap Access.written =
      (List.range ((1 : Int) * 2).toNat).map (fun (k : Nat) => (k : Int)) :=
  ⟨⟨by decide, by decide, by decide, by decide⟩, by decide,
    (C14_blur_accesses_in_range 1 2 1 (by decide) (by decide) (by decide) (by decide)).2.2.2.1⟩

/-! ## Filter generator: the cells touched -/

/-- In program order the two nested loops over `[-f_sz/2, f_sz/2]` touch the cells
`0, 1, ..., f_sz*f_sz - 1`. -/
theorem square_positions (f_sz : Int) (hpos : 0 < f_sz) (hodd : f_sz % 2 = 1) :
    (intRange (-(f_sz / 2)) (f_sz / 2 + 1)).flatMap
        (fun r => (intRange (-(f_sz / 2)) (f_sz / 2 + 1)).map
          (fun c => (r + f_sz / 2) * f_sz + (c + f_sz / 2))) =
      (List.range (f_sz * f_sz).toNat).map (fun (k : Nat) => (k : Int)) := by
  obtain ⟨n, rfl⟩ := Int.eq_ofNat_of_zero_le (le_of_lt hpos)
  have hn : ((n : Int) / 2 + 1 - -((n : Int) / 2)).toNat = n := by omega
  have e : ((n : Int) * (n : Int)).toNat = n * n := by
    rw [← Int.natCast_mul]; exact Int.toNat_natCast _
  rw [e, ← range_flatMap_rows n n]
  simp only [intRange, hn, List.flatMap_map, List.map_flatMap, List.map_map]
  apply List.flatMap_congr
  intro i _
  apply List.map_congr_left
  intro j _
  simp only [Function.comp]
  push_cast
  ring

/-- C18: for an odd positive `f_sz`, every index `(r + f_sz/2)*f_sz + (c + f_sz/2)` that
`gaussian_blur_filter` touches, for `r` and `c` in `[-f_sz/2, f_sz/2]`, lies in
`[0, f_sz*f_sz)`; the map from `(r, c)` to the index is one-to-one and onto
`[0, f_sz*f_sz)`; the first pass assigns the cells `0, 1, ..., f_sz*f_sz - 1` in this order,
each exactly once, and the second pass scales them in the same order, each exactly once; on
a buffer of `f_sz*f_sz` cells the function runs to its end. -/
theorem C18_filter_cells_bijection (f_sz : Int) (hpos : 0 < f_sz) (hodd : f_sz % 2 = 1) :
    (∀ r c : Int, -(f_sz / 2) ≤ r → r ≤ f_sz / 2 → -(f_sz / 2) ≤ c → c ≤ f_sz / 2 →
      0 ≤ (r + f_sz / 2) * f_sz + (c + f_sz / 2) ∧
        (r + f_sz / 2) * f_sz + (c + f_sz / 2) < f_sz * f_sz) ∧
    (∀ r c r2 c2 : Int, -(f_sz / 2) ≤ r → r ≤ f_sz / 2 → -(f_sz / 2) ≤ c → c ≤ f_sz / 2 →
      -(f_sz / 2) ≤ r2 → r2 ≤ f_sz / 2 → -(f_sz / 2) ≤ c2 → c2 ≤ f_sz / 2 →
      (r + f_sz / 2) * f_sz + (c + f_sz / 2) = (r2 + f_sz / 2) * f_sz + (c2 + f_sz / 2) →
      r = r2 ∧ c = c2) ∧
    (∀ k : Int, 0 ≤ k → k < f_sz * f_sz →
      ∃ r c : Int, (-(f_sz / 2) ≤ r ∧ r ≤ f_sz / 2) ∧ (-(f_sz / 2) ≤ c ∧ c ≤ f_sz / 2) ∧
        (r + f_sz / 2) * f_sz + (c + f_sz / 2) = k) ∧
    gaussFillWrites f_sz = (List.range (f_sz * f_sz).toNat).map (fun (k : Nat) => (k : Int)) ∧
    gaussScaleWrites f_sz = (List.range (f_sz * f_sz).toNat).map (fun (k : Nat) => (k : Int)) ∧
    (∀ k : Int, 0 ≤ k → k < f_sz * f_sz →
      (gaussFillWrites f_sz).count k = 1 ∧ (gaussScaleWrites f_sz).count k = 1) ∧
    (∀ (F : Type) (ops : FilterOps F) (arr : List F) (f_sigma : F),
      (arr.length : Int) = f_sz * f_sz →
      ∃ res, gaussian_blur_filter ops arr f_sz f_sigma = some res ∧
        res.length = arr.length) := by
  have htd : f_sz.tdiv 2 = f_sz / 2 := Int.tdiv_eq_ediv (by omega) (by decide)
  have hdivmod : ∀ a b : Int, 0 ≤ b → b < f_sz → (a * f_sz + b) / f_sz = a ∧
      (a * f_sz + b) % f_sz = b := by
    intro a b hb0 hb1
    constructor
    · rw [Int.add_comm, Int.add_mul_ediv_right _ _ (by omega),
        Int.ediv_eq_zero_of_lt hb0 hb1, zero_add]
    · rw [Int.add_comm, Int.add_mul_emod_self, Int.emod_eq_of_lt hb0 hb1]
  have hfill : gaussFillWrites f_sz =
      (List.range (f_sz * f_sz).toNat).map (fun (k : Nat) => (k : Int)) := by
    simp only [gaussFillWrites, htd]
    exact square_positions f_sz hpos hodd
  have hscale : gaussScaleWrites f_sz =
      (List.range (f_sz * f_sz).toNat).map (fun (k : Nat) => (k : Int)) := by
    simp only [gaussScaleWrites, htd]
    exact square_positions f_sz hpos hodd
  have hcount : ∀ k : Int, 0 ≤ k → k < f_sz * f_sz →
      ((List.range (f_sz * f_sz).toNat).map (fun (k : Nat) => (k : Int))).count k = 1 := by
    intro k hk0 hk1
    apply List.count_eq_one_of_mem
    · exact (List.nodup_range _).map (fun a b h => by exact_mod_cast h)
    · rw [List.mem_map]
      exact ⟨k.toNat, List.mem_range.mpr (by omega), by omega⟩
  refine ⟨fun r c hr0 hr1 hc0 hc1 => ?_, ?_, fun k hk0 hk1 => ?_, hfill, hscale,
    fun k hk0 hk1 => ?_, fun F ops arr f_sigma hlen => ?_⟩
  · exact raster_lt f_sz f_sz (r + f_sz / 2) (c + f_sz / 2) (by omega) (by omega) (by omega)
      (by omega)
  · intro r c r2 c2 hr0 hr1 hc0 hc1 hr20 hr21 hc20 hc21 heq
    obtain ⟨d1, m1⟩ := hdivmod (r + f_sz / 2) (c + f_sz / 2) (by omega) (by omega)
    obtain ⟨d2, m2⟩ := hdivmod (r2 + f_sz / 2) (c2 + f_sz / 2) (by omega) (by omega)
    rw [heq] at d1 m1
    constructor <;> omega
  · have hq0 : 0 ≤ k / f_sz := Int.ediv_nonneg hk0 (le_of_lt hpos)
    have hq1 : k / f_sz < f_sz := Int.ediv_lt_of_lt_mul hpos hk1
    have hm0 : 0 ≤ k % f_sz := Int.emod_nonneg k (by omega)
    have hm1 : k % f_sz < f_sz := Int.emod_lt_of_pos k hpos
    refine ⟨k / f_sz - f_sz / 2, k % f_sz - f_sz / 2, by omega, by omega, ?_⟩
    rw [sub_add_cancel, sub_add_cancel, mul_comm]
    exact Int.ediv_add_emod k f_sz
  · rw [hfill, hscale]
    exact ⟨hcount k hk0 hk1, hcount k hk0 hk1⟩
  · obtain ⟨arr1, h1, hW1⟩ := gaussFill_spec ops arr f_sz f_sigma hpos hodd (le_of_eq hlen.symm)
    obtain ⟨res, h2, hW2⟩ := gaussScale_spec ops arr1 f_sz
      (ops.div ops.one (sumInOrder ops.toFloatOps
        ((List.range (f_sz * f_sz).toNat).map (cellWeight ops f_sz f_sigma))))
      (cellWeight ops f_sz f_sigma) hpos hodd
      (by rw [hW1.1]; exact le_of_eq hlen.symm) (fun i hi => (hW1.2 i).1 hi)
    exact ⟨res, by simp [gaussian_blur_filter, h1, h2], by rw [hW2.1, hW1.1]⟩

/-- C18 witness: the cells of a 3 x 3 filter. -/
theorem C18_filter_cells_bijection_witness :
    ((0 : Int) < 3 ∧ (3 : Int) % 2 = 1) ∧
    gaussFillWrites 3 = [0, 1, 2, 3, 4, 5, 6, 7, 8] ∧
    gaussFillWrites 3 = (List.range ((3 : Int) * 3).toNat).map (fun (k : Nat) => (k : Int)) :=
  ⟨⟨by decide, by decide⟩, by decide,
    (C18_filter_cells_bijection 3 (by decide) (by decide)).2.2.2.1⟩

/-! ## Convolution engine: the range of the accumulator -/

/-- Summed over the footprint, the weights read from a `filterWidth x filterWidth` filter
are all the weights of the filter. -/
theorem sum_weights_footprint {K : Type} [LinearOrderedField K] (filter : List K)
    (filterWidth : Int) (hpos : 0 < filterWidth) (hodd : filterWidth % 2 = 1)
    (hf : (filter.length : Int) = filterWidth * filterWidth) :
    ((footprint filterWidth).map (fun d => filter.getD
      ((d.1 + filterWidth / 2) * filterWidth + (d.2 + filterWidth / 2)).toNat 0)).sum =
      filter.sum := by
  have hlen : (filterWidth * filterWidth).toNat = filter.length := by omega
  have : (footprint filterWidth).map (fun d => filter.getD
      ((d.1 + filterWidth / 2) * filterWidth + (d.2 + filterWidth / 2)).toNat 0) =
      ((footprint filterWidth).map (fun d =>
        ((d.1 + filterWidth / 2) * filterWidth + (d.2 + filterWidth / 2)).toNat)).map
        (fun i => filter.getD i 0) := by
    rw [List.map_map]; rfl
  rw [this, footprint_indices filterWidth hpos hodd, hlen, map_getD_range]

/-- In exact arithmetic, with non-negative weights summing to at most 1 and samples at most
`M`, the footprint sum lies in `[0, M]`. -/
theorem footprintSum_bounds {K : Type} [LinearOrderedField K] [FloorRing K] (M : Nat)
    (input : List Nat) (rows cols : Int) (filter : List K) (filterWidth y x : Int)
    (hpos : 0 < filterWidth) (hodd : filterWidth % 2 = 1) (hmax : ∀ a ∈ input, a ≤ M)
    (hf : (filter.length : Int) = filterWidth * filterWidth)
    (hw : ∀ w ∈ filter, 0 ≤ w) (hsum : filter.sum ≤ 1) :
    0 ≤ footprintSum (exactOps K) input rows cols filter filterWidth y x ∧
      footprintSum (exactOps K) input rows cols filter filterWidth y x ≤ (M : K) := by
  have hwd : ∀ i : Nat, 0 ≤ filter.getD i 0 := by
    intro i
    rw [List.getD_eq_getElem?_getD]
    cases h : filter[i]? with
    | none => simp
    | some w => exact hw w (List.getElem?_mem h)
  have hvd : ∀ i : Nat, input.getD i 0 ≤ M := by
    intro i
    rw [List.getD_eq_getElem?_getD]
    cases h : input[i]? with
    | none => simp
    | some a => exact hmax a (List.getElem?_mem h)
  have hterm : ∀ d : Int × Int,
      tapTerm (exactOps K) input cols filter filterWidth y x d =
        ((input.getD ((y + d.1) * cols + (x + d.2)).toNat 0 : Nat) : K) * filter.getD
          ((d.1 + filterWidth / 2) * filterWidth + (d.2 + filterWidth / 2)).toNat 0 :=
    fun d => rfl
  rw [footprintSum, sumInOrder_exact]
  constructor
  · apply List.sum_nonneg
    intro t ht
    rw [List.mem_map] at ht
    obtain ⟨d, _, rfl⟩ := ht
    rw [hterm]
    exact mul_nonneg (Nat.cast_nonneg _) (hwd _)
  · have hMK : (0 : K) ≤ (M : K) := Nat.cast_nonneg M
    calc (((footprint filterWidth).filter (inPlane rows cols y x)).map
          (tapTerm (exactOps K) input cols filter filterWidth y x)).sum
        ≤ (((footprint filterWidth).filter (inPlane rows cols y x)).map
            (fun d => (M : K) * filter.getD
              ((d.1 + filterWidth / 2) * filterWidth + (d.2 + filterWidth / 2)).toNat 0)).sum := by
          apply List.sum_le_sum
          intro d _
          rw [hterm]
          exact mul_le_mul_of_nonneg_right (by exact_mod_cast hvd _) (hwd _)
      _ = (M : K) * (((footprint filterWidth).filter (inPlane rows cols y x)).map
            (fun d => filter.getD
              ((d.1 + filterWidth / 2) * filterWidth + (d.2 + filterWidth / 2)).toNat 0)).sum :=
          List.sum_map_mul_left _ _ _
      _ ≤ (M : K) * ((footprint filterWidth).map
            (fun d => filter.getD
              ((d.1 + filterWidth / 2) * filterWidth + (d.2 + filterWidth / 2)).toNat 0)).sum := by
          apply mul_le_mul_of_nonneg_left _ hMK
          apply List.Sublist.sum_le_sum ((List.filter_sublist _).map _)
          intro t ht
          rw [List.mem_map] at ht
          obtain ⟨d, _, rfl⟩ := ht
          exact hwd _
      _ = (M : K) * filter.sum := by rw [sum_weights_footprint filter filterWidth hpos hodd hf]
      _ ≤ (M : K) * 1 := mul_le_mul_of_nonneg_left hsum hMK
      _ = (M : K) := mul_one _

/-- Truncating a value of `[0, M]`, `M <= 255`, gives its floor, without wrapping. -/
theorem truncToUChar_bounded {K : Type} [LinearOrderedField K] [FloorRing K] (M : Nat)
    (hM : M ≤ 255) (v : K) (h0 : 0 ≤ v) (h1 : v ≤ (M : K)) :
    truncToUChar v = ⌊v⌋₊ ∧ truncToUChar v ≤ M := by
  have hfl0 : 0 ≤ ⌊v⌋ := Int.floor_nonneg.mpr h0
  have hfl1 : ⌊v⌋ ≤ (M : Int) := by
    have : ⌊v⌋ ≤ ⌊(M : K)⌋ := Int.floor_le_floor h1
    rwa [Int.floor_natCast] at this
  have e : truncToUChar v = ⌊v⌋.toNat := by
    simp only [truncToUChar, h0, if_true]
    rw [Int.emod_eq_of_lt hfl0 (by omega)]
  refine ⟨by rw [e]; rfl, ?_⟩
  rw [e]; omega

/-- In exact arithmetic, for an input plane of samples at most `M <= 255` and a filter of
non-negative weights that sum to at most 1, the accumulator `pixval` of `serialGaussianBlur`
lies in `[0, M]` at every pixel, the conversion gives its floor, and every output sample is
at most `M`. -/
theorem accumulator_range_exact {K : Type} [LinearOrderedField K] [FloorRing K] (M : Nat)
    (hM : M ≤ 255) (input out0 : List Nat) (rows cols : Int) (filter : List K)
    (filterWidth : Int) (hr : 0 ≤ rows) (hc : 0 ≤ cols) (hpos : 0 < filterWidth)
    (hodd : filterWidth % 2 = 1) (hin : rows * cols ≤ (input.length : Int))
    (hmax : ∀ a ∈ input, a ≤ M) (hf : (filter.length : Int) = filterWidth * filterWidth)
    (hw : ∀ w ∈ filter, 0 ≤ w) (hsum : filter.sum ≤ 1)
    (hout : rows * cols ≤ (out0.length : Int)) :
    ∃ out, serialGaussianBlur (exactOps K) input out0 rows cols filter filterWidth = some out ∧
      ∀ y x : Int, 0 ≤ y → y < rows → 0 ≤ x → x < cols →
        ∃ pixval : K,
          blurPixel (exactOps K) input rows cols filter filterWidth y x = some pixval ∧
          0 ≤ pixval ∧ pixval ≤ (M : K) ∧ pixval ≤ 255 ∧
          rd out (y * cols + x) = some ⌊pixval⌋₊ ∧ ⌊pixval⌋₊ ≤ M := by
  obtain ⟨out, h1, hW⟩ := blur_spec (exactOps K) input out0 rows cols filter filterWidth hr hc
    hpos hodd hin (le_of_eq hf.symm) hout
  refine ⟨out, h1, fun y x hy0 hy1 hx0 hx1 => ?_⟩
  obtain ⟨b0, b1⟩ := footprintSum_bounds M input rows cols filter filterWidth y x hpos hodd hmax
    hf hw hsum
  obtain ⟨t1, t2⟩ := truncToUChar_bounded M hM _ b0 b1
  obtain ⟨hk0, hk1⟩ := raster_lt rows cols y x hy0 hy1 hx0 hx1
  obtain ⟨k, hk⟩ := Int.eq_ofNat_of_zero_le hk0
  have hdiv : (k : Int) / cols = y := by
    rw [← hk, Int.add_comm, Int.add_mul_ediv_right _ _ (by omega),
      Int.ediv_eq_zero_of_lt hx0 hx1, zero_add]
  have hmod : (k : Int) % cols = x := by
    rw [← hk, Int.add_comm, Int.add_mul_emod_self, Int.emod_eq_of_lt hx0 hx1]
  have h2 := (hW.2 k).1 (by rw [← hk]; exact hk1)
  simp only [hdiv, hmod] at h2
  have h3 : (exactOps K).toUChar
      (footprintSum (exactOps K) input rows cols filter filterWidth y x) =
      ⌊footprintSum (exactOps K) input rows cols filter filterWidth y x⌋₊ := t1
  have hM2 : ((M : Nat) : K) ≤ 255 := by exact_mod_cast hM
  refine ⟨_, blurPixel_eq (exactOps K) input rows cols filter filterWidth y x hpos hodd hin
    (le_of_eq hf.symm), b0, b1, le_trans b1 hM2, ?_, ?_⟩
  · rw [hk, ← h3]
    simpa [rd] using h2
  · rw [← t1]; exact t2

/-! ## Rounding error of the binary32 operations -/

/-- Rounding a non-negative operand `x` far below the overflow threshold gives a finite,
non-negative datum within `x * 2^-24 + 2^-150` of `x`. -/
theorem round_close (n : Int) (d : Nat) (e : Int) (hn : 0 ≤ n) (hd : 0 < d)
    (hx : (n : ℚ) / d * (2 : ℚ) ^ e ≤ (2 : ℚ) ^ (100 : Int)) :
    ∃ m k, F32.round n d e = F32.fin m k ∧ 0 ≤ m ∧
      |(F32.fin m k).toRat - (n : ℚ) / d * (2 : ℚ) ^ e| ≤
        (n : ℚ) / d * (2 : ℚ) ^ e / 16777216 + 1 / 2 ^ 150 := by
  by_cases h0 : n = 0
  · subst h0
    refine ⟨0, 0, by simp [F32.round], le_refl _, ?_⟩
    simp [F32.toRat]
  · have hpos : 0 < n := by omega
    have hnat : ((n.natAbs : Nat) : ℚ) = (n : ℚ) := by
      rw [Nat.cast_natAbs, Int.cast_abs, abs_of_nonneg (by exact_mod_cast hn)]
    unfold F32.round
    rw [if_neg h0]
    cases hr : roundPos n.natAbs d e with
    | none =>
      have := roundPos_none n.natAbs d e (Int.natAbs_pos.mpr h0) hd hr
      rw [hnat] at this
      have hlt : (2 : ℚ) ^ (100 : Int) < (2 : ℚ) ^ (128 : Int) - (2 : ℚ) ^ (103 : Int) := by
        norm_num
      linarith
    | some p =>
      obtain ⟨M, k⟩ := p
      obtain ⟨s1, _, _, s4, _, _⟩ := roundPos_spec n.natAbs d e (Int.natAbs_pos.mpr h0) hd M k hr
      rw [hnat] at s1 s4
      have hneg : ¬ n < 0 := by omega
      refine ⟨(M : Int), k, by simp [hneg], Int.natCast_nonneg M, ?_⟩
      have hval : (F32.fin (M : Int) k).toRat = (M : ℚ) * (2 : ℚ) ^ k := by
        simp [F32.toRat]
      rw [hval]
      have hx0 : 0 ≤ (n : ℚ) / d * (2 : ℚ) ^ e := by positivity
      rcases s4 with hk | hk
      · have : (2 : ℚ) ^ k / 2 = 1 / 2 ^ 150 := by rw [hk]; norm_num
        rw [this] at s1
        have : 0 ≤ (n : ℚ) / d * (2 : ℚ) ^ e / 16777216 := by positivity
        linarith
      · have h2 : (2 : ℚ) ^ k / 2 = (2 : ℚ) ^ (k + 23) / 16777216 := by
          rw [zpow_add₀ (by norm_num : (2 : ℚ) ≠ 0)]; norm_num; ring
        have h3 : (2 : ℚ) ^ (k + 23) / 16777216 ≤ (n : ℚ) / d * (2 : ℚ) ^ e / 16777216 :=
          div_le_div_of_nonneg_right hk (by norm_num)
        have : (0 : ℚ) ≤ 1 / 2 ^ 150 := by positivity
        linarith

/-- The sum of two finite non-negative binary32 data, far below overflow, is finite,
non-negative and within the rounding error of the exact sum. -/
theorem F32_add_close (m1 e1 m2 e2 : Int) (h1 : 0 ≤ m1) (h2 : 0 ≤ m2)
    (hx : (F32.fin m1 e1).toRat + (F32.fin m2 e2).toRat ≤ 1024) :
    ∃ m k, F32.add (F32.fin m1 e1) (F32.fin m2 e2) = F32.fin m k ∧ 0 ≤ m ∧
      |(F32.fin m k).toRat - ((F32.fin m1 e1).toRat + (F32.fin m2 e2).toRat)| ≤
        ((F32.fin m1 e1).toRat + (F32.fin m2 e2).toRat) / 16777216 + 1 / 2 ^ 150 := by
  have hq : (2 : ℚ) ≠ 0 := by norm_num
  have p1 : ((e1 - min e1 e2).toNat : Int) = e1 - min e1 e2 :=
    Int.toNat_of_nonneg (sub_nonneg.mpr (min_le_left _ _))
  have p2 : ((e2 - min e1 e2).toNat : Int) = e2 - min e1 e2 :=
    Int.toNat_of_nonneg (sub_nonneg.mpr (min_le_right _ _))
  have q1 : (2 : ℚ) ^ (e1 - min e1 e2).toNat * (2 : ℚ) ^ (min e1 e2) = (2 : ℚ) ^ e1 := by
    rw [← zpow_natCast, p1, ← zpow_add₀ hq, sub_add_cancel]
  have q2 : (2 : ℚ) ^ (e2 - min e1 e2).toNat * (2 : ℚ) ^ (min e1 e2) = (2 : ℚ) ^ e2 := by
    rw [← zpow_natCast, p2, ← zpow_add₀ hq, sub_add_cancel]
  have hval : ((m1 * 2 ^ (e1 - min e1 e2).toNat + m2 * 2 ^ (e2 - min e1 e2).toNat : Int) : ℚ)
      / ((1 : Nat) : ℚ) * (2 : ℚ) ^ (min e1 e2) =
      (F32.fin m1 e1).toRat + (F32.fin m2 e2).toRat := by
    simp only [F32.toRat]
    push_cast
    rw [div_one, add_mul, mul_assoc, mul_assoc, q1, q2]
  have hn : 0 ≤ m1 * 2 ^ (e1 - min e1 e2).toNat + m2 * 2 ^ (e2 - min e1 e2).toNat := by
    positivity
  have := round_close _ 1 (min e1 e2) hn (by decide) (by
    rw [hval]
    calc (F32.fin m1 e1).toRat + (F32.fin m2 e2).toRat ≤ 1024 := hx
      _ ≤ (2 : ℚ) ^ (100 : Int) := by norm_num)
  rw [hval] at this
  exact this

/-- The product of two finite non-negative binary32 data, far below overflow, is finite,
non-negative and within the rounding error of the exact product. -/
theorem F32_mul_close (m1 e1 m2 e2 : Int) (h1 : 0 ≤ m1) (h2 : 0 ≤ m2)
    (hx : (F32.fin m1 e1).toRat * (F32.fin m2 e2).toRat ≤ 1024) :
    ∃ m k, F32.mul (F32.fin m1 e1) (F32.fin m2 e2) = F32.fin m k ∧ 0 ≤ m ∧
      |(F32.fin m k).toRat - (F32.fin m1 e1).toRat * (F32.fin m2 e2).toRat| ≤
        (F32.fin m1 e1).toRat * (F32.fin m2 e2).toRat / 16777216 + 1 / 2 ^ 150 := by
  have hval : ((m1 * m2 : Int) : ℚ) / ((1 : Nat) : ℚ) * (2 : ℚ) ^ (e1 + e2) =
      (F32.fin m1 e1).toRat * (F32.fin m2 e2).toRat := by
    simp only [F32.toRat]
    push_cast
    rw [div_one, zpow_add₀ (by norm_num : (2 : ℚ) ≠ 0)]
    ring
  have := round_close (m1 * m2) 1 (e1 + e2) (mul_nonneg h1 h2) (by decide) (by
    rw [hval]
    calc (F32.fin m1 e1).toRat * (F32.fin m2 e2).toRat ≤ 1024 := hx
      _ ≤ (2 : ℚ) ^ (100 : Int) := by norm_num)
  rw [hval] at this
  exact this

/-- The conversion of a byte to binary32 is exact. -/
theorem round_byte_exact (a : Nat) (ha : a ≤ 255) :
    ∃ m k, F32.round (a : Int) 1 0 = F32.fin m k ∧ 0 ≤ m ∧ (F32.fin m k).toRat = (a : ℚ) := by
  by_cases h0 : a = 0
  · subst h0
    exact ⟨0, 0, by simp [F32.round], le_refl _, by simp [F32.toRat]⟩
  · have hpos : 0 < a := Nat.pos_of_ne_zero h0
    have hne : (a : Int) ≠ 0 := by omega
    have hx : ((a : Nat) : ℚ) / ((1 : Nat) : ℚ) * (2 : ℚ) ^ (0 : Int) = (a : ℚ) := by simp
    have ha255 : (a : ℚ) ≤ 255 := by exact_mod_cast ha
    unfold F32.round
    rw [if_neg hne, Int.natAbs_ofNat]
    cases hr : roundPos a 1 0 with
    | none =>
      have := roundPos_none a 1 0 hpos (by decide) hr
      rw [hx] at this
      have hlt : (255 : ℚ) < (2 : ℚ) ^ (128 : Int) - (2 : ℚ) ^ (103 : Int) := by norm_num
      linarith
    | some p =>
      obtain ⟨M, k⟩ := p
      obtain ⟨s1, _, _, s4, _, _⟩ := roundPos_spec a 1 0 hpos (by decide) M k hr
      rw [hx] at s1 s4
      have hneg : ¬ ((a : Int) < 0) := by omega
      refine ⟨(M : Int), k, by simp [hneg], Int.natCast_nonneg M, ?_⟩
      have hk : k ≤ 0 := by
        rcases s4 with hk | hk
        · omega
        · by_contra hcon
          have h8 : (2 : ℚ) ^ (8 : Int) ≤ (2 : ℚ) ^ (k + 23) :=
            zpow_le_zpow_right₀ (by norm_num) (by omega)
          have : (2 : ℚ) ^ (8 : Int) = 256 := by norm_num
          linarith
      obtain ⟨j, hj⟩ : ∃ j : Nat, k = -(j : Int) := ⟨(-k).toNat, by omega⟩
      have hP : (0 : ℚ) < (2 : ℚ) ^ j := by positivity
      have hk2 : (2 : ℚ) ^ k = ((2 : ℚ) ^ j)⁻¹ := by rw [hj, zpow_neg, zpow_natCast]
      have hval : (F32.fin (M : Int) k).toRat = (M : ℚ) * (2 : ℚ) ^ k := by simp [F32.toRat]
      rw [hval]
      rw [hk2] at s1 ⊢
      have hclose : |(M : ℚ) - (a : ℚ) * (2 : ℚ) ^ j| ≤ 1 / 2 := by
        have e1 : (M : ℚ) - (a : ℚ) * (2 : ℚ) ^ j =
            ((M : ℚ) * ((2 : ℚ) ^ j)⁻¹ - (a : ℚ)) * (2 : ℚ) ^ j := by
          field_simp
          ring
        rw [e1, abs_mul, abs_of_pos hP]
        calc |(M : ℚ) * ((2 : ℚ) ^ j)⁻¹ - (a : ℚ)| * (2 : ℚ) ^ j
            ≤ ((2 : ℚ) ^ j)⁻¹ / 2 * (2 : ℚ) ^ j := mul_le_mul_of_nonneg_right s1 hP.le
          _ = 1 / 2 := by field_simp
      have hint : ((M : Int) - (a : Int) * 2 ^ j : Int) = 0 := by
        have hc : |(((M : Int) - (a : Int) * 2 ^ j : Int) : ℚ)| ≤ 1 / 2 := by
          push_cast; exact hclose
        have hlt : |(((M : Int) - (a : Int) * 2 ^ j : Int) : ℚ)| < 1 := by linarith
        rw [← Int.cast_abs] at hlt
        have : |((M : Int) - (a : Int) * 2 ^ j : Int)| < 1 := by exact_mod_cast hlt
        exact Int.abs_lt_one_iff.mp this
      have hM : (M : ℚ) = (a : ℚ) * (2 : ℚ) ^ j := by
        have : (((M : Int) - (a : Int) * 2 ^ j : Int) : ℚ) = 0 := by rw [hint]; simp
        push_cast at this
        linarith
      rw [hM]
      field_simp

/-- The binary32 operations of the program satisfy the standard model. -/
theorem roundedOps_binary32 : RoundedOps binary32 where
  zero_eq := rfl
  ofUChar_exact := round_byte_exact
  mul_close := F32_mul_close
  add_close := F32_add_close
  toUChar_eq := fun _ => rfl

/-- The operations of the fused build satisfy the standard model: its product is exact. -/
theorem roundedOps_binary32Fused : RoundedOps binary32Fused where
  zero_eq := rfl
  ofUChar_exact := round_byte_exact
  mul_close := by
    intro m1 e1 m2 e2 h1 h2 _
    refine ⟨m1 * m2, e1 + e2, rfl, mul_nonneg h1 h2, ?_⟩
    have hval : (F32.fin (m1 * m2) (e1 + e2)).toRat =
        (F32.fin m1 e1).toRat * (F32.fin m2 e2).toRat := by
      simp only [F32.toRat]
      push_cast
      rw [zpow_add₀ (by norm_num : (2 : ℚ) ≠ 0)]
      ring
    rw [hval, sub_self, abs_zero]
    have a1 : 0 ≤ (F32.fin m1 e1).toRat := by
      simp only [F32.toRat]; have : (0 : ℚ) ≤ m1 := by exact_mod_cast h1
      positivity
    have a2 : 0 ≤ (F32.fin m2 e2).toRat := by
      simp only [F32.toRat]; have : (0 : ℚ) ≤ m2 := by exact_mod_cast h2
      positivity
    positivity
  add_close := F32_add_close
  toUChar_eq := fun _ => rfl

/-- What `serialGaussianBlur` leaves at the cell of each pixel: the conversion of the sum over
the in-bounds part of the footprint. -/
theorem blur_read {F : Type} (ops : FloatOps F) (input out0 : List Nat) (rows cols : Int)
    (filter : List F) (filterWidth : Int) (hr : 0 ≤ rows) (hc : 0 ≤ cols)
    (hpos : 0 < filterWidth) (hodd : filterWidth % 2 = 1)
    (hin : rows * cols ≤ (input.length : Int))
    (hf : filterWidth * filterWidth ≤ (filter.length : Int))
    (hout : rows * cols ≤ (out0.length : Int)) :
    ∃ out, serialGaussianBlur ops input out0 rows cols filter filterWidth = some out ∧
      ∀ y x : Int, 0 ≤ y → y < rows → 0 ≤ x → x < cols →
        rd out (y * cols + x) =
          some (ops.toUChar (footprintSum ops input rows cols filter filterWidth y x)) := by
  obtain ⟨out, h1, hW⟩ := blur_spec ops input out0 rows cols filter filterWidth hr hc
    hpos hodd hin hf hout
  refine ⟨out, h1, fun y x hy0 hy1 hx0 hx1 => ?_⟩
  obtain ⟨hk0, hk1⟩ := raster_lt rows cols y x hy0 hy1 hx0 hx1
  obtain ⟨k, hk⟩ := Int.eq_ofNat_of_zero_le hk0
  have hdiv : (k : Int) / cols = y := by
    rw [← hk, Int.add_comm, Int.add_mul_ediv_right _ _ (by omega),
      Int.ediv_eq_zero_of_lt (by omega) (by omega), zero_add]
  have hmod : (k : Int) % cols = x := by
    rw [← hk, Int.add_comm, Int.add_mul_emod_self, Int.emod_eq_of_lt (by omega) (by omega)]
  rw [hk] at hk1 ⊢
  have h2 := (hW.2 k).1 hk1
  simp only [hdiv, hmod] at h2
  simpa [rd] using h2

/-- The value of a finite non-negative binary32 datum is not negative. -/
theorem toRat_nonneg (m k : Int) (hm : 0 ≤ m) : 0 ≤ (F32.fin m k).toRat := by
  simp only [F32.toRat]
  have : (0 : ℚ) ≤ m := by exact_mod_cast hm
  positivity

/-- Accumulating rounded terms: started from a finite non-negative `acc` within `E` of `A`,
the loop `acc += p d` over `l`, each `p d` being within one rounding of `t d >= 0`, ends
finite, non-negative and within `E + length / 32764` of `A + sum t`, as long as the exact
total stays at most 255 and the error bound at most 1. -/
theorem fold_close (ops : FloatOps F32) (hops : RoundedOps ops) {ι : Type} (p : ι → F32)
    (t : ι → ℚ) (l : List ι)
    (hR : ∀ d ∈ l, 0 ≤ t d ∧ ∃ m k, p d = F32.fin m k ∧ 0 ≤ m ∧
      |(F32.fin m k).toRat - t d| ≤ t d / 16777216 + 1 / 2 ^ 150) :
    ∀ (ma ka : Int) (A E : ℚ), 0 ≤ ma → 0 ≤ A → 0 ≤ E →
      |(F32.fin ma ka).toRat - A| ≤ E → A + (l.map t).sum ≤ 255 →
      E + (l.length : ℚ) / 32764 ≤ 1 →
      ∃ m k, (l.map p).foldl ops.add (F32.fin ma ka) = F32.fin m k ∧ 0 ≤ m ∧
        |(F32.fin m k).toRat - (A + (l.map t).sum)| ≤ E + (l.length : ℚ) / 32764 := by
  induction l with
  | nil =>
    intro ma ka A E hma _ _ hAE _ _
    exact ⟨ma, ka, rfl, hma, by simpa using hAE⟩
  | cons d rest ih =>
    intro ma ka A E hma hA0 hE0 hAE hsum hE
    obtain ⟨ht0, mp, kp, hp, hmp, hpc⟩ := hR d (List.mem_cons_self d rest)
    have hR2 : ∀ d2 ∈ rest, 0 ≤ t d2 ∧ ∃ m k, p d2 = F32.fin m k ∧ 0 ≤ m ∧
        |(F32.fin m k).toRat - t d2| ≤ t d2 / 16777216 + 1 / 2 ^ 150 :=
      fun d2 h2 => hR d2 (List.mem_cons_of_mem d h2)
    have hrest0 : 0 ≤ (rest.map t).sum := by
      apply List.sum_nonneg
      intro q hq
      obtain ⟨d2, h2, rfl⟩ := List.mem_map.mp hq
      exact (hR2 d2 h2).1
    rw [List.map_cons, List.sum_cons] at hsum
    rw [List.length_cons] at hE
    push_cast at hE
    have hη : (1 : ℚ) / 2 ^ 150 ≤ 1 / 2 ^ 40 := by norm_num
    have hη0 : (0 : ℚ) ≤ 1 / 2 ^ 150 := by norm_num
    obtain ⟨hA1, hA2⟩ := abs_le.mp hAE
    obtain ⟨hp1, hp2⟩ := abs_le.mp hpc
    have ha0 := toRat_nonneg ma ka hma
    have hp0 := toRat_nonneg mp kp hmp
    have hlen0 : (0 : ℚ) ≤ (rest.length : ℚ) / 32764 := by positivity
    have hx : (F32.fin ma ka).toRat + (F32.fin mp kp).toRat ≤ 1024 := by
      norm_num at hη ⊢
      linarith
    obtain ⟨m1, k1, hadd, hm1, hac⟩ := hops.add_close ma ka mp kp hma hmp hx
    obtain ⟨hc1, hc2⟩ := abs_le.mp hac
    have hstep : |(F32.fin m1 k1).toRat - (A + t d)| ≤ E + 1 / 32764 := by
      rw [abs_le]
      norm_num at hη hη0 hc1 hc2 hp1 hp2 ⊢
      constructor <;> linarith
    obtain ⟨m, k, hfold, hm, hfc⟩ := ih hR2 m1 k1 (A + t d) (E + 1 / 32764) hm1
      (by linarith) (by norm_num; linarith) hstep (by linarith) (by linarith)
    refine ⟨m, k, ?_, hm, ?_⟩
    · rw [List.map_cons, List.foldl_cons, hp, hadd]
      exact hfold
    · rw [List.map_cons, List.sum_cons, List.length_cons]
      push_cast
      have e1 : A + (t d + (rest.map t).sum) = A + t d + (rest.map t).sum := by ring
      have e2 : E + ((rest.length : ℚ) + 1) / 32764 = E + 1 / 32764 + (rest.length : ℚ) / 32764 := by
        ring
      rw [e1, e2]
      exact hfc

/-- A cell of a filter of finite non-negative weights whose values sum to at most 1 (or the
`0.0` read past its end) is finite, non-negative and at most 1, and its value is the cell of
the list of values. -/
theorem filter_cell (filter : List F32) (hw : ∀ w ∈ filter, w.isNonnegFinite = true)
    (hsum : (filter.map F32.toRat).sum ≤ 1) (j : Nat) :
    ∃ m k, filter.getD j (F32.fin 0 0) = F32.fin m k ∧ 0 ≤ m ∧ (F32.fin m k).toRat ≤ 1 ∧
      (filter.map F32.toRat).getD j 0 = (F32.fin m k).toRat := by
  rw [List.getD_eq_getElem?_getD, List.getD_eq_getElem?_getD, List.getElem?_map]
  cases h : filter[j]? with
  | none => exact ⟨0, 0, rfl, le_refl _, by simp [F32.toRat], by simp [F32.toRat]⟩
  | some w =>
    have hmem : w ∈ filter := List.getElem?_mem h
    have hnn : ∀ q ∈ filter.map F32.toRat, 0 ≤ q := by
      intro q hq
      obtain ⟨w2, h2, rfl⟩ := List.mem_map.mp hq
      have := hw w2 h2
      cases w2 with
      | fin m k => exact toRat_nonneg m k (by simpa [F32.isNonnegFinite] using this)
      | inf s => simp [F32.isNonnegFinite] at this
      | nan => simp [F32.isNonnegFinite] at this
    have hle : w.toRat ≤ (filter.map F32.toRat).sum :=
      List.single_le_sum hnn _ (List.mem_map.mpr ⟨w, hmem, rfl⟩)
    have hfin := hw w hmem
    cases w with
    | fin m k =>
      exact ⟨m, k, rfl, by simpa [F32.isNonnegFinite] using hfin, le_trans hle hsum, rfl⟩
    | inf s => simp [F32.isNonnegFinite] at hfin
    | nan => simp [F32.isNonnegFinite] at hfin

/-- The number of offsets of the footprint. -/
theorem footprint_length (filterWidth : Int) (hpos : 0 < filterWidth)
    (hodd : filterWidth % 2 = 1) :
    (footprint filterWidth).length = (filterWidth * filterWidth).toNat := by
  have := congrArg List.length (footprint_indices filterWidth hpos hodd)
  rwa [List.length_map, List.length_range] at this

/-- Rounding error of one pixel: for bytes, a filter of `filterWidth <= 181` finite
non-negative weights whose values sum to at most 1, and arithmetic that satisfies the
standard model, the accumulator of `serialGaussianBlur` at `(y, x)` is finite, non-negative
and within `32761/32764` of the exact sum of the same terms. -/
theorem footprintSum_close (ops : FloatOps F32) (hops : RoundedOps ops) (input : List Nat)
    (rows cols : Int) (filter : List F32) (filterWidth y x : Int) (hpos : 0 < filterWidth)
    (hodd : filterWidth % 2 = 1) (hmax : ∀ a ∈ input, a ≤ 255)
    (hf : (filter.length : Int) = filterWidth * filterWidth)
    (hw : ∀ w ∈ filter, w.isNonnegFinite = true)
    (hsum : (filter.map F32.toRat).sum ≤ 1) (hsize : filterWidth ≤ 181) :
    ∃ m k, footprintSum ops input rows cols filter filterWidth y x = F32.fin m k ∧ 0 ≤ m ∧
      |(F32.fin m k).toRat -
        footprintSum (exactOps ℚ) input rows cols (filter.map F32.toRat) filterWidth y x| ≤
        32761 / 32764 := by
  have hnn : ∀ q ∈ filter.map F32.toRat, 0 ≤ q := by
    intro q hq
    obtain ⟨w2, h2, rfl⟩ := List.mem_map.mp hq
    have := hw w2 h2
    cases w2 with
    | fin m k => exact toRat_nonneg m k (by simpa [F32.isNonnegFinite] using this)
    | inf s => simp [F32.isNonnegFinite] at this
    | nan => simp [F32.isNonnegFinite] at this
  have hbytes : ∀ i : Nat, input.getD i 0 ≤ 255 := by
    intro i
    rw [List.getD_eq_getElem?_getD]
    cases h : input[i]? with
    | none => simp
    | some a => exact hmax a (List.getElem?_mem h)
  have hexact := (footprintSum_bounds 255 input rows cols (filter.map F32.toRat) filterWidth y x
    hpos hodd hmax (by rw [List.length_map]; exact hf) hnn hsum).2
  have hR : ∀ d ∈ (footprint filterWidth).filter (inPlane rows cols y x),
      0 ≤ tapTerm (exactOps ℚ) input cols (filter.map F32.toRat) filterWidth y x d ∧
      ∃ m k, tapTerm ops input cols filter filterWidth y x d = F32.fin m k ∧ 0 ≤ m ∧
        |(F32.fin m k).toRat -
            tapTerm (exactOps ℚ) input cols (filter.map F32.toRat) filterWidth y x d| ≤
          tapTerm (exactOps ℚ) input cols (filter.map F32.toRat) filterWidth y x d / 16777216
            + 1 / 2 ^ 150 := by
    intro d _
    obtain ⟨mw, kw, hcell, hmw, hw1, hcellq⟩ := filter_cell filter hw hsum
      ((d.1 + filterWidth / 2) * filterWidth + (d.2 + filterWidth / 2)).toNat
    obtain ⟨ma, ka, hconv, hma, hconvq⟩ := hops.ofUChar_exact _
      (hbytes ((y + d.1) * cols + (x + d.2)).toNat)
    have hb : ((input.getD ((y + d.1) * cols + (x + d.2)).toNat 0 : Nat) : ℚ) ≤ 255 := by
      exact_mod_cast hbytes ((y + d.1) * cols + (x + d.2)).toNat
    have hb0 : (0 : ℚ) ≤ ((input.getD ((y + d.1) * cols + (x + d.2)).toNat 0 : Nat) : ℚ) :=
      Nat.cast_nonneg _
    have hw0 := toRat_nonneg mw kw hmw
    have ht : tapTerm (exactOps ℚ) input cols (filter.map F32.toRat) filterWidth y x d =
        (F32.fin ma ka).toRat * (F32.fin mw kw).toRat := by
      show ((input.getD ((y + d.1) * cols + (x + d.2)).toNat 0 : Nat) : ℚ) *
        (filter.map F32.toRat).getD
          ((d.1 + filterWidth / 2) * filterWidth + (d.2 + filterWidth / 2)).toNat 0 = _
      rw [hcellq, hconvq]
    have hp : tapTerm ops input cols filter filterWidth y x d =
        ops.mul (F32.fin ma ka) (F32.fin mw kw) := by
      show ops.mul (ops.ofUChar (input.getD ((y + d.1) * cols + (x + d.2)).toNat 0))
        (filter.getD ((d.1 + filterWidth / 2) * filterWidth + (d.2 + filterWidth / 2)).toNat
          ops.zero) = _
      rw [hops.zero_eq, hcell, hconv]
    rw [ht, hp]
    have hprod : (F32.fin ma ka).toRat * (F32.fin mw kw).toRat ≤ 1024 := by
      rw [hconvq]
      nlinarith
    exact ⟨mul_nonneg (toRat_nonneg ma ka hma) hw0,
      hops.mul_close ma ka mw kw hma hmw hprod⟩
  have hlen : (((footprint filterWidth).filter (inPlane rows cols y x)).length : ℚ) ≤ 32761 := by
    have h1 := List.length_filter_le (inPlane rows cols y x) (footprint filterWidth)
    rw [footprint_length filterWidth hpos hodd] at h1
    have h2 : filterWidth * filterWidth ≤ 32761 := by nlinarith
    have h3 : ((footprint filterWidth).filter (inPlane rows cols y x)).length ≤ 32761 := by
      omega
    exact_mod_cast h3
  have hex : footprintSum (exactOps ℚ) input rows cols (filter.map F32.toRat) filterWidth y x =
      (((footprint filterWidth).filter (inPlane rows cols y x)).map
        (tapTerm (exactOps ℚ) input cols (filter.map F32.toRat) filterWidth y x)).sum := by
    unfold footprintSum
    exact sumInOrder_exact _
  rw [hex] at hexact ⊢
  obtain ⟨m, k, hfold, hm, hc⟩ := fold_close ops hops
    (tapTerm ops input cols filter filterWidth y x)
    (tapTerm (exactOps ℚ) input cols (filter.map F32.toRat) filterWidth y x)
    ((footprint filterWidth).filter (inPlane rows cols y x)) hR 0 0 0 0 (le_refl _) (le_refl _)
    (le_refl _) (by simp [F32.toRat]) (by rw [zero_add]; exact_mod_cast hexact)
    (by rw [zero_add]; linarith [div_le_div_of_nonneg_right hlen (by norm_num : (0:ℚ) ≤ 32764)])
  refine ⟨m, k, ?_, hm, ?_⟩
  · unfold footprintSum sumInOrder
    rw [hops.zero_eq]
    exact hfold
  · rw [zero_add, zero_add] at hc
    have := div_le_div_of_nonneg_right hlen (by norm_num : (0 : ℚ) ≤ 32764)
    linarith

/-- The conversion `(unsigned char) pixval` of a finite non-negative binary32 datum below 256
is its floor: nothing wraps. -/
theorem toUChar_floor (m k : Int) (hm : 0 ≤ m) (h : (F32.fin m k).toRat < 256) :
    F32.toUChar (F32.fin m k) = ⌊(F32.fin m k).toRat⌋₊ := by
  have h0 := toRat_nonneg m k hm
  have hq : (F32.fin m k).toRat = (m : ℚ) * (2 : ℚ) ^ k := rfl
  have hfl0 : 0 ≤ ⌊(F32.fin m k).toRat⌋ := Int.floor_nonneg.mpr h0
  have hfl1 : ⌊(F32.fin m k).toRat⌋ < 256 := Int.floor_lt.mpr (by exact_mod_cast h)
  show (truncDyadic m k % 256).toNat = _
  rw [truncDyadic_spec, if_pos hm, ← hq, Int.emod_eq_of_lt hfl0 hfl1, Int.floor_toNat]

/-- Uniform plane under rounded arithmetic: with arithmetic that satisfies the standard
model, at a pixel whose footprint is inside a plane of samples all equal to `v <= 255`, under
a filter of `filterWidth <= 181` finite non-negative weights whose values sum to 1, the
accumulator is finite and within `32761/32764` of `v`, and its conversion is `v` or
`v - 1`. -/
theorem uniform_interior_rounded (ops : FloatOps F32) (hops : RoundedOps ops) (v : Nat)
    (hv : v ≤ 255) (input : List Nat) (rows cols : Int) (filter : List F32)
    (filterWidth y x : Int) (hpos : 0 < filterWidth) (hodd : filterWidth % 2 = 1)
    (hsize : filterWidth ≤ 181) (hin : rows * cols ≤ (input.length : Int))
    (huni : ∀ a ∈ input, a = v) (hf : (filter.length : Int) = filterWidth * filterWidth)
    (hw : ∀ w ∈ filter, w.isNonnegFinite = true) (hsum : (filter.map F32.toRat).sum = 1)
    (hy0 : filterWidth / 2 ≤ y) (hy1 : y < rows - filterWidth / 2)
    (hx0 : filterWidth / 2 ≤ x) (hx1 : x < cols - filterWidth / 2) :
    ∃ m k, footprintSum ops input rows cols filter filterWidth y x = F32.fin m k ∧
      |(F32.fin m k).toRat - (v : ℚ)| ≤ 32761 / 32764 ∧
      (ops.toUChar (F32.fin m k) = v ∨ ops.toUChar (F32.fin m k) + 1 = v) := by
  obtain ⟨m, k, hfs, hm, hc⟩ := footprintSum_close ops hops input rows cols filter filterWidth
    y x hpos hodd (fun a ha => by rw [huni a ha]; exact hv) hf hw (le_of_eq hsum) hsize
  rw [footprintSum_uniform v input rows cols (filter.map F32.toRat) filterWidth y x hpos hodd hin
    huni (by rw [List.length_map]; exact hf) hy0 hy1 hx0 hx1, hsum, mul_one] at hc
  refine ⟨m, k, hfs, hc, ?_⟩
  obtain ⟨c1, c2⟩ := abs_le.mp hc
  have h0 := toRat_nonneg m k hm
  have hv2 : (v : ℚ) ≤ 255 := by exact_mod_cast hv
  have hlt : (F32.fin m k).toRat < 256 := by linarith
  rw [hops.toUChar_eq, toUChar_floor m k hm hlt]
  have hup : ⌊(F32.fin m k).toRat⌋₊ < v + 1 := by
    rw [Nat.floor_lt h0]
    push_cast
    linarith
  have hlo : v ≤ ⌊(F32.fin m k).toRat⌋₊ + 1 := by
    by_cases hv0 : v = 0
    · omega
    · have : v - 1 ≤ ⌊(F32.fin m k).toRat⌋₊ := by
        apply Nat.le_floor
        have : ((v - 1 : Nat) : ℚ) = (v : ℚ) - 1 := by
          rw [Nat.cast_sub (by omega)]; simp
        rw [this]
        linarith
      omega
  omega

/-- Range of the accumulator under rounded arithmetic: with arithmetic that satisfies the
standard model, for samples at most `M <= 255` and a filter of `filterWidth <= 181` finite
non-negative weights whose values sum to at most 1, the accumulator at any pixel is finite,
in `[0, M + 1)`, and its conversion is its floor, at most `M`. -/
theorem accumulator_range_rounded (ops : FloatOps F32) (hops : RoundedOps ops) (M : Nat)
    (hM : M ≤ 255) (input : List Nat) (rows cols : Int) (filter : List F32)
    (filterWidth y x : Int) (hpos : 0 < filterWidth) (hodd : filterWidth % 2 = 1)
    (hsize : filterWidth ≤ 181) (hmax : ∀ a ∈ input, a ≤ M)
    (hf : (filter.length : Int) = filterWidth * filterWidth)
    (hw : ∀ w ∈ filter, w.isNonnegFinite = true)
    (hsum : (filter.map F32.toRat).sum ≤ 1) :
    ∃ m k, footprintSum ops input rows cols filter filterWidth y x = F32.fin m k ∧
      0 ≤ (F32.fin m k).toRat ∧ (F32.fin m k).toRat < (M : ℚ) + 1 ∧
      (F32.fin m k).toRat < 256 ∧
      ops.toUChar (F32.fin m k) = ⌊(F32.fin m k).toRat⌋₊ ∧
      ⌊(F32.fin m k).toRat⌋₊ ≤ M := by
  obtain ⟨m, k, hfs, hm, hc⟩ := footprintSum_close ops hops input rows cols filter filterWidth
    y x hpos hodd (fun a ha => le_trans (hmax a ha) hM) hf hw hsum hsize
  have hnn : ∀ q ∈ filter.map F32.toRat, 0 ≤ q := by
    intro q hq
    obtain ⟨w2, h2, rfl⟩ := List.mem_map.mp hq
    have := hw w2 h2
    cases w2 with
    | fin m k => exact toRat_nonneg m k (by simpa [F32.isNonnegFinite] using this)
    | inf s => simp [F32.isNonnegFinite] at this
    | nan => simp [F32.isNonnegFinite] at this
  obtain ⟨_, b1⟩ := footprintSum_bounds M input rows cols (filter.map F32.toRat) filterWidth y x
    hpos hodd hmax (by rw [List.length_map]; exact hf) hnn hsum
  obtain ⟨_, c2⟩ := abs_le.mp hc
  have h0 := toRat_nonneg m k hm
  have hM2 : (M : ℚ) ≤ 255 := by exact_mod_cast hM
  have hMlt : (F32.fin m k).toRat < (M : ℚ) + 1 := by linarith
  have hlt : (F32.fin m k).toRat < 256 := by linarith
  refine ⟨m, k, hfs, h0, hMlt, hlt, ?_, ?_⟩
  · rw [hops.toUChar_eq, toUChar_floor m k hm hlt]
  · have : ⌊(F32.fin m k).toRat⌋₊ < M + 1 := by
      rw [Nat.floor_lt h0]
      push_cast
      exact hMlt
    omega

/-! ## Uniform planes and the range of the accumulator in binary32 -/

/-- C5 (as amended): in binary32, whether the build rounds each product (`binary32`) or
contracts `pixval += a * b` into a fused multiply-add (`binary32Fused`), on a plane whose
samples all equal `v <= 255`, with an odd positive `filterWidth <= 181` and a filter of
`filterWidth * filterWidth` finite non-negative weights whose values sum to 1,
`serialGaussianBlur` returns, and at every pixel whose footprint is inside the plane the
accumulator is finite and within `32761/32764 < 1` of `v`, and the output is `v` or
`v - 1`. -/
theorem C5_uniform_interior_binary32 (ops : FloatOps F32)
    (hops : ops = binary32 ∨ ops = binary32Fused) (v : Nat) (hv : v ≤ 255)
    (input out0 : List Nat) (rows cols : Int) (filter : List F32) (filterWidth : Int)
    (hr : 0 ≤ rows) (hc : 0 ≤ cols) (hpos : 0 < filterWidth) (hodd : filterWidth % 2 = 1)
    (hsize : filterWidth ≤ 181) (hin : rows * cols ≤ (input.length : Int))
    (huni : ∀ a ∈ input, a = v) (hf : (filter.length : Int) = filterWidth * filterWidth)
    (hw : ∀ w ∈ filter, w.isNonnegFinite = true) (hsum : (filter.map F32.toRat).sum = 1)
    (hout : rows * cols ≤ (out0.length : Int)) :
    ∃ out, serialGaussianBlur ops input out0 rows cols filter filterWidth = some out ∧
      ∀ y x : Int, filterWidth / 2 ≤ y → y < rows - filterWidth / 2 →
        filterWidth / 2 ≤ x → x < cols - filterWidth / 2 →
        ∃ (m k : Int) (o : Nat),
          blurPixel ops input rows cols filter filterWidth y x = some (F32.fin m k) ∧
          |(F32.fin m k).toRat - (v : ℚ)| ≤ 32761 / 32764 ∧
          rd out (y * cols + x) = some o ∧ (o = v ∨ o + 1 = v) := by
  have hR : RoundedOps ops := by
    rcases hops with h | h
    · rw [h]; exact roundedOps_binary32
    · rw [h]; exact roundedOps_binary32Fused
  obtain ⟨out, h1, hread⟩ := blur_read ops input out0 rows cols filter filterWidth hr hc hpos
    hodd hin (le_of_eq hf.symm) hout
  refine ⟨out, h1, fun y x hy0 hy1 hx0 hx1 => ?_⟩
  obtain ⟨m, k, hfs, hclose, hconv⟩ := uniform_interior_rounded ops hR v hv input rows cols
    filter filterWidth y x hpos hodd hsize hin huni hf hw hsum hy0 hy1 hx0 hx1
  have h2 := hread y x (by omega) (by omega) (by omega) (by omega)
  rw [hfs] at h2
  refine ⟨m, k, ops.toUChar (F32.fin m k), ?_, hclose, h2, hconv⟩
  rw [blurPixel_eq ops input rows cols filter filterWidth y x hpos hodd hin (le_of_eq hf.symm),
    hfs]

/-- C5 witness: the 3 x 3 plane of 231 under the weights `fl(1/3)`, `fl(2/5)`,
`1118481 * 2^-22` and six zeros, in binary32. -/
theorem C5_uniform_interior_binary32_witness :
    ((231 : Nat) ≤ 255 ∧ (0 : Int) < 3 ∧ (3 : Int) % 2 = 1 ∧ (3 : Int) ≤ 181 ∧
      ([F32.fin 11184811 (-25), F32.fin 13421773 (-25), F32.fin 1118481 (-22), F32.fin 0 0,
        F32.fin 0 0, F32.fin 0 0, F32.fin 0 0, F32.fin 0 0, F32.fin 0 0].map F32.toRat).sum
        = 1) ∧
    ∃ out, serialGaussianBlur binary32 (List.replicate 9 231) (List.replicate 9 0) 3 3
        [F32.fin 11184811 (-25), F32.fin 13421773 (-25), F32.fin 1118481 (-22), F32.fin 0 0,
          F32.fin 0 0, F32.fin 0 0, F32.fin 0 0, F32.fin 0 0, F32.fin 0 0] 3 = some out ∧
      ∀ y x : Int, (3 : Int) / 2 ≤ y → y < 3 - 3 / 2 → (3 : Int) / 2 ≤ x → x < 3 - 3 / 2 →
        ∃ (m k : Int) (o : Nat),
          blurPixel binary32 (List.replicate 9 231) 3 3
            [F32.fin 11184811 (-25), F32.fin 13421773 (-25), F32.fin 1118481 (-22),
              F32.fin 0 0, F32.fin 0 0, F32.fin 0 0, F32.fin 0 0, F32.fin 0 0, F32.fin 0 0]
            3 y x = some (F32.fin m k) ∧
          |(F32.fin m k).toRat - ((231 : Nat) : ℚ)| ≤ 32761 / 32764 ∧
          rd out (y * 3 + x) = some o ∧ (o = 231 ∨ o + 1 = 231) :=
  ⟨⟨by decide, by decide, by decide, by decide, by norm_num [F32.toRat]⟩,
    C5_uniform_interior_binary32 binary32 (Or.inl rfl) 231 (by decide) (List.replicate 9 231)
      (List.replicate 9 0) 3 3
      [F32.fin 11184811 (-25), F32.fin 13421773 (-25), F32.fin 1118481 (-22), F32.fin 0 0,
        F32.fin 0 0, F32.fin 0 0, F32.fin 0 0, F32.fin 0 0, F32.fin 0 0] 3
      (by decide) (by decide) (by decide) (by decide) (by decide) (by decide) (by simp)
      (by decide) (by decide) (by norm_num [F32.toRat]) (by decide)⟩

/-- C5 counterexample: on the 3 x 3 plane of 231, under the filter whose first three weights
are `fl(1/3) = 11184811 * 2^-25`, `fl(2/5) = 13421773 * 2^-25` and `1118481 * 2^-22` and
whose other six are 0 (finite, non-negative, values summing to exactly 1), the output at the
centre pixel `(1, 1)`, whose footprint is inside the plane, is 230 and not 231, with rounded
products and with fused multiply-add alike: the accumulator ends at
`15138815 * 2^-16 = 230.99998...`. With weights of both signs the output is not even within
one of `v`: on the plane of 100 under the weights `2^24`, `1`, `-2^24` and six zeros (values
summing to 1) the centre output is 128 in both builds. -/
theorem C5_counterexample :
    (([F32.fin 11184811 (-25), F32.fin 13421773 (-25), F32.fin 1118481 (-22), F32.fin 0 0,
        F32.fin 0 0, F32.fin 0 0, F32.fin 0 0, F32.fin 0 0, F32.fin 0 0].map F32.toRat).sum = 1 ∧
      (∀ w ∈ [F32.fin 11184811 (-25), F32.fin 13421773 (-25), F32.fin 1118481 (-22),
        F32.fin 0 0, F32.fin 0 0, F32.fin 0 0, F32.fin 0 0, F32.fin 0 0, F32.fin 0 0],
        w.isNonnegFinite = true) ∧
      (3 : Int) / 2 ≤ 1 ∧ (1 : Int) < 3 - 3 / 2) ∧
    ((serialGaussianBlur binary32 (List.replicate 9 231) (List.replicate 9 0) 3 3
        [F32.fin 11184811 (-25), F32.fin 13421773 (-25), F32.fin 1118481 (-22), F32.fin 0 0,
          F32.fin 0 0, F32.fin 0 0, F32.fin 0 0, F32.fin 0 0, F32.fin 0 0] 3).bind
        (fun out => rd out (1 * 3 + 1)) = some 230 ∧
      (serialGaussianBlur binary32Fused (List.replicate 9 231) (List.replicate 9 0) 3 3
        [F32.fin 11184811 (-25), F32.fin 13421773 (-25), F32.fin 1118481 (-22), F32.fin 0 0,
          F32.fin 0 0, F32.fin 0 0, F32.fin 0 0, F32.fin 0 0, F32.fin 0 0] 3).bind
        (fun out => rd out (1 * 3 + 1)) = some 230 ∧ (230 : Nat) ≠ 231) ∧
    (footprintSum binary32 (List.replicate 9 231) 3 3
        [F32.fin 11184811 (-25), F32.fin 13421773 (-25), F32.fin 1118481 (-22), F32.fin 0 0,
          F32.fin 0 0, F32.fin 0 0, F32.fin 0 0, F32.fin 0 0, F32.fin 0 0] 3 1 1
        = F32.fin 15138815 (-16) ∧
      footprintSum binary32Fused (List.replicate 9 231) 3 3
        [F32.fin 11184811 (-25), F32.fin 13421773 (-25), F32.fin 1118481 (-22), F32.fin 0 0,
          F32.fin 0 0, F32.fin 0 0, F32.fin 0 0, F32.fin 0 0, F32.fin 0 0] 3 1 1
        = F32.fin 15138815 (-16)) ∧
    (([F32.fin 1 24, F32.fin 1 0, F32.fin (-1) 24, F32.fin 0 0, F32.fin 0 0, F32.fin 0 0,
        F32.fin 0 0, F32.fin 0 0, F32.fin 0 0].map F32.toRat).sum = 1 ∧
      (serialGaussianBlur binary32 (List.replicate 9 100) (List.replicate 9 0) 3 3
        [F32.fin 1 24, F32.fin 1 0, F32.fin (-1) 24, F32.fin 0 0, F32.fin 0 0, F32.fin 0 0,
          F32.fin 0 0, F32.fin 0 0, F32.fin 0 0] 3).bind
        (fun out => rd out (1 * 3 + 1)) = some 128 ∧
      (serialGaussianBlur binary32Fused (List.replicate 9 100) (List.replicate 9 0) 3 3
        [F32.fin 1 24, F32.fin 1 0, F32.fin (-1) 24, F32.fin 0 0, F32.fin 0 0, F32.fin 0 0,
          F32.fin 0 0, F32.fin 0 0, F32.fin 0 0] 3).bind
        (fun out => rd out (1 * 3 + 1)) = some 128) := by
  refine ⟨⟨?_, by decide, by decide, by decide⟩, ⟨?_, ?_, by decide⟩, ⟨?_, ?_⟩, ?_, ?_, ?_⟩
  · norm_num [F32.toRat]
  · set_option maxRecDepth 100000 in decide
  · set_option maxRecDepth 100000 in decide
  · set_option maxRecDepth 100000 in decide
  · set_option maxRecDepth 100000 in decide
  · norm_num [F32.toRat]
  · set_option maxRecDepth 100000 in decide
  · set_option maxRecDepth 100000 in decide

/-- C15 (as amended): in binary32, whether the build rounds each product (`binary32`) or
contracts `pixval += a * b` into a fused multiply-add (`binary32Fused`), for an input plane
of samples at most `M <= 255`, an odd positive `filterWidth <= 181` and a filter of
`filterWidth * filterWidth` finite non-negative weights whose values sum to at most 1,
`serialGaussianBlur` returns, and at every pixel, boundary pixels included, the accumulator
`pixval` is finite and lies in `[0, M + 1)`, hence in `[0, 256)`, the conversion to
`unsigned char` does not wrap (it gives the floor of `pixval`), and the output sample is at
most `M`. -/
theorem C15_accumulator_range_binary32 (ops : FloatOps F32)
    (hops : ops = binary32 ∨ ops = binary32Fused) (M : Nat) (hM : M ≤ 255)
    (input out0 : List Nat) (rows cols : Int) (filter : List F32) (filterWidth : Int)
    (hr : 0 ≤ rows) (hc : 0 ≤ cols) (hpos : 0 < filterWidth) (hodd : filterWidth % 2 = 1)
    (hsize : filterWidth ≤ 181) (hin : rows * cols ≤ (input.length : Int))
    (hmax : ∀ a ∈ input, a ≤ M) (hf : (filter.length : Int) = filterWidth * filterWidth)
    (hw : ∀ w ∈ filter, w.isNonnegFinite = true) (hsum : (filter.map F32.toRat).sum ≤ 1)
    (hout : rows * cols ≤ (out0.length : Int)) :
    ∃ out, serialGaussianBlur ops input out0 rows cols filter filterWidth = some out ∧
      ∀ y x : Int, 0 ≤ y → y < rows → 0 ≤ x → x < cols →
        ∃ m k : Int,
          blurPixel ops input rows cols filter filterWidth y x = some (F32.fin m k) ∧
          0 ≤ (F32.fin m k).toRat ∧ (F32.fin m k).toRat < (M : ℚ) + 1 ∧
          (F32.fin m k).toRat < 256 ∧
          rd out (y * cols + x) = some ⌊(F32.fin m k).toRat⌋₊ ∧
          ⌊(F32.fin m k).toRat⌋₊ ≤ M := by
  have hR : RoundedOps ops := by
    rcases hops with h | h
    · rw [h]; exact roundedOps_binary32
    · rw [h]; exact roundedOps_binary32Fused
  obtain ⟨out, h1, hread⟩ := blur_read ops input out0 rows cols filter filterWidth hr hc hpos
    hodd hin (le_of_eq hf.symm) hout
  refine ⟨out, h1, fun y x hy0 hy1 hx0 hx1 => ?_⟩
  obtain ⟨m, k, hfs, h0, hlt, h256, hconv, hle⟩ := accumulator_range_rounded ops hR M hM input
    rows cols filter filterWidth y x hpos hodd hsize hmax hf hw hsum
  have h2 := hread y x hy0 hy1 hx0 hx1
  rw [hfs, hconv] at h2
  refine ⟨m, k, ?_, h0, hlt, h256, h2, hle⟩
  rw [blurPixel_eq ops input rows cols filter filterWidth y x hpos hodd hin (le_of_eq hf.symm),
    hfs]

/-- C15 witness: the 3 x 3 plane of 255 under the weights `11408507 * 2^-25`, `1/2`,
`5368709 * 2^-25` and six zeros, in binary32. -/
theorem C15_accumulator_range_binary32_witness :
    ((255 : Nat) ≤ 255 ∧ (0 : Int) < 3 ∧ (3 : Int) % 2 = 1 ∧ (3 : Int) ≤ 181 ∧
      ([F32.fin 11408507 (-25), F32.fin 1 (-1), F32.fin 5368709 (-25), F32.fin 0 0,
        F32.fin 0 0, F32.fin 0 0, F32.fin 0 0, F32.fin 0 0, F32.fin 0 0].map F32.toRat).sum
        ≤ 1) ∧
    ∃ out, serialGaussianBlur binary32 (List.replicate 9 255) (List.replicate 9 0) 3 3
        [F32.fin 11408507 (-25), F32.fin 1 (-1), F32.fin 5368709 (-25), F32.fin 0 0,
          F32.fin 0 0, F32.fin 0 0, F32.fin 0 0, F32.fin 0 0, F32.fin 0 0] 3 = some out ∧
      ∀ y x : Int, 0 ≤ y → y < 3 → 0 ≤ x → x < 3 →
        ∃ m k : Int,
          blurPixel binary32 (List.replicate 9 255) 3 3
            [F32.fin 11408507 (-25), F32.fin 1 (-1), F32.fin 5368709 (-25), F32.fin 0 0,
              F32.fin 0 0, F32.fin 0 0, F32.fin 0 0, F32.fin 0 0, F32.fin 0 0]
            3 y x = some (F32.fin m k) ∧
          0 ≤ (F32.fin m k).toRat ∧ (F32.fin m k).toRat < ((255 : Nat) : ℚ) + 1 ∧
          (F32.fin m k).toRat < 256 ∧
          rd out (y * 3 + x) = some ⌊(F32.fin m k).toRat⌋₊ ∧
          ⌊(F32.fin m k).toRat⌋₊ ≤ 255 :=
  ⟨⟨by decide, by decide, by decide, by decide, by norm_num [F32.toRat]⟩,
    C15_accumulator_range_binary32 binary32 (Or.inl rfl) 255 (by decide)
      (List.replicate 9 255) (List.replicate 9 0) 3 3
      [F32.fin 11408507 (-25), F32.fin 1 (-1), F32.fin 5368709 (-25), F32.fin 0 0,
        F32.fin 0 0, F32.fin 0 0, F32.fin 0 0, F32.fin 0 0, F32.fin 0 0] 3
      (by decide) (by decide) (by decide) (by decide) (by decide) (by decide)
      (by simp) (by decide) (by decide) (by norm_num [F32.toRat]) (by decide)⟩

/-- C15 counterexample: on the 3 x 3 plane of 255, under the filter whose first three weights
are `11408507 * 2^-25`, `1/2` and `5368709 * 2^-25` and whose other six are 0 (finite,
non-negative, values summing to exactly 1), the accumulator at the centre pixel `(1, 1)` ends
at `16711681 * 2^-16 = 255 + 2^-16`, above 255, with rounded products and with fused
multiply-add alike; the output sample there is 255. -/
theorem C15_counterexample :
    (([F32.fin 11408507 (-25), F32.fin 1 (-1), F32.fin 5368709 (-25), F32.fin 0 0,
        F32.fin 0 0, F32.fin 0 0, F32.fin 0 0, F32.fin 0 0, F32.fin 0 0].map F32.toRat).sum = 1 ∧
      (∀ w ∈ [F32.fin 11408507 (-25), F32.fin 1 (-1), F32.fin 5368709 (-25), F32.fin 0 0,
        F32.fin 0 0, F32.fin 0 0, F32.fin 0 0, F32.fin 0 0, F32.fin 0 0],
        w.isNonnegFinite = true)) ∧
    (blurPixel binary32 (List.replicate 9 255) 3 3
        [F32.fin 11408507 (-25), F32.fin 1 (-1), F32.fin 5368709 (-25), F32.fin 0 0,
          F32.fin 0 0, F32.fin 0 0, F32.fin 0 0, F32.fin 0 0, F32.fin 0 0] 3 1 1
        = some (F32.fin 16711681 (-16)) ∧
      blurPixel binary32Fused (List.replicate 9 255) 3 3
        [F32.fin 11408507 (-25), F32.fin 1 (-1), F32.fin 5368709 (-25), F32.fin 0 0,
          F32.fin 0 0, F32.fin 0 0, F32.fin 0 0, F32.fin 0 0, F32.fin 0 0] 3 1 1
        = some (F32.fin 16711681 (-16))) ∧
    ¬ (F32.fin 16711681 (-16)).toRat ≤ 255 ∧
    (F32.fin 16711681 (-16)).toRat = 255 + (2 : ℚ) ^ (-16 : Int) ∧
    ((serialGaussianBlur binary32 (List.replicate 9 255) (List.replicate 9 0) 3 3
        [F32.fin 11408507 (-25), F32.fin 1 (-1), F32.fin 5368709 (-25), F32.fin 0 0,
          F32.fin 0 0, F32.fin 0 0, F32.fin 0 0, F32.fin 0 0, F32.fin 0 0] 3).bind
        (fun out => rd out (1 * 3 + 1)) = some 255 ∧
      (serialGaussianBlur binary32Fused (List.replicate 9 255) (List.replicate 9 0) 3 3
        [F32.fin 11408507 (-25), F32.fin 1 (-1), F32.fin 5368709 (-25), F32.fin 0 0,
          F32.fin 0 0, F32.fin 0 0, F32.fin 0 0, F32.fin 0 0, F32.fin 0 0] 3).bind
        (fun out => rd out (1 * 3 + 1)) = some 255) := by
  refine ⟨⟨?_, by decide⟩, ⟨?_, ?_⟩, ?_, ?_, ?_, ?_⟩
  · norm_num [F32.toRat]
  · set_option maxRecDepth 100000 in decide
  · set_option maxRecDepth 100000 in decide
  · norm_num [F32.toRat]
  · norm_num [F32.toRat]
  · set_option maxRecDepth 100000 in decide
  · set_option maxRecDepth 100000 in decide

/-! ## The two builds of the arithmetic -/

/-- The outputs depend on whether the multiply-add is fused: on the 3 x 3 plane of 249, under
the weights `1912007 * 2^-22`, `934175 * 2^-23`, `3630419 * 2^-23` and six zeros (values
summing to 1), the centre sample is 249 with rounded products (the accumulator ends at
exactly 249) and 248 with fused multiply-add (it ends at `16318463 * 2^-16`). -/
theorem rounded_and_fused_differ :
    ([F32.fin 1912007 (-22), F32.fin 934175 (-23), F32.fin 3630419 (-23), F32.fin 0 0,
        F32.fin 0 0, F32.fin 0 0, F32.fin 0 0, F32.fin 0 0, F32.fin 0 0].map F32.toRat).sum = 1 ∧
    (blurPixel binary32 (List.replicate 9 249) 3 3
        [F32.fin 1912007 (-22), F32.fin 934175 (-23), F32.fin 3630419 (-23), F32.fin 0 0,
          F32.fin 0 0, F32.fin 0 0, F32.fin 0 0, F32.fin 0 0, F32.fin 0 0] 3 1 1
        = some (F32.fin 16318464 (-16)) ∧
      blurPixel binary32Fused (List.replicate 9 249) 3 3
        [F32.fin 1912007 (-22), F32.fin 934175 (-23), F32.fin 3630419 (-23), F32.fin 0 0,
          F32.fin 0 0, F32.fin 0 0, F32.fin 0 0, F32.fin 0 0, F32.fin 0 0] 3 1 1
        = some (F32.fin 16318463 (-16))) ∧
    ((serialGaussianBlur binary32 (List.replicate 9 249) (List.replicate 9 0) 3 3
        [F32.fin 1912007 (-22), F32.fin 934175 (-23), F32.fin 3630419 (-23), F32.fin 0 0,
          F32.fin 0 0, F32.fin 0 0, F32.fin 0 0, F32.fin 0 0, F32.fin 0 0] 3).bind
        (fun out => rd out (1 * 3 + 1)) = some 249 ∧
      (serialGaussianBlur binary32Fused (List.replicate 9 249) (List.replicate 9 0) 3 3
        [F32.fin 1912007 (-22), F32.fin 934175 (-23), F32.fin 3630419 (-23), F32.fin 0 0,
          F32.fin 0 0, F32.fin 0 0, F32.fin 0 0, F32.fin 0 0, F32.fin 0 0] 3).bind
        (fun out => rd out (1 * 3 + 1)) = some 248) := by
  refine ⟨?_, ⟨?_, ?_⟩, ?_, ?_⟩
  · norm_num [F32.toRat]
  · set_option maxRecDepth 100000 in decide
  · set_option maxRecDepth 100000 in decide
  · set_option maxRecDepth 100000 in decide
  · set_option maxRecDepth 100000 in decide

end GaussianBlur
